import Mathlib

/-!
# Teng dictionary (tengdictionary.cc / tengdictionary.h)

A shallow embedding of `Teng::Dictionary_t` and a verification development
about it.

Conventions of the embedding.

* `std::string` is `List Char` (abbreviated `Str`).  `substr` is the total
  `drop`/`take` form; every call site in the source has `pos <= size`, so the
  `std::out_of_range` path of `substr` is never reached.
* `string::size_type` results of `find` are `Option Nat`, `none` standing for
  `string::npos` (no real string is long enough for an offset to equal
  `npos`).  Where the source subtracts offsets the difference wraps around
  modulo `2 ^ 64` when it is negative.
* the `<ctype.h>` predicates are those of the "C" locale.
* member functions become functions on the pieces of state they touch; the
  error logger `err` and the position are threaded explicitly.
* the mutual recursion `_parse -> _parseString -> processDirective -> _parse`
  is driven by a depth budget: one unit is consumed per nested `_parse`
  activation and exhaustion is reported as `none`.  The line loop of
  `_parseString` carries an iteration budget of its own.
-/

namespace Teng

/-- The `std::string` of the source. -/
abbrev Str := List Char

/-! ## C library character classes ("C" locale) -/

/-- The C `isspace`: space, `\t`, `\n`, `\v`, `\f`, `\r`. -/
def isspace (c : Char) : Bool :=
  decide (c.toNat = 32 ∨ (9 ≤ c.toNat ∧ c.toNat ≤ 13))

/-- The C `isalpha`: `A`-`Z` and `a`-`z`. -/
def isalpha (c : Char) : Bool :=
  decide ((65 ≤ c.toNat ∧ c.toNat ≤ 90) ∨ (97 ≤ c.toNat ∧ c.toNat ≤ 122))

/-- The C `isdigit`: `0`-`9`. -/
def isdigit (c : Char) : Bool :=
  decide (48 ≤ c.toNat ∧ c.toNat ≤ 57)

/-- The C `isalnum`. -/
def isalnum (c : Char) : Bool := isalpha c || isdigit c

/-! ## std::string helpers -/

/-- The call `s.substr(pos, n)` for `pos <= s.size()`. -/
def substr (s : Str) (pos n : Nat) : Str := (s.drop pos).take n

/-- Scan for the character `c`, `i` being the offset of the head of the list. -/
def findFrom (c : Char) : Str → Nat → Option Nat
  | [], _ => none
  | x :: xs, i => if x = c then some i else findFrom c xs (i + 1)

/-- The call `s.find(c, begin)`; `none` is `string::npos`. -/
def find (s : Str) (c : Char) (begin : Nat) : Option Nat :=
  findFrom c (s.drop begin) begin

/-- Scan for the substring `pat`, `i` being the offset of the head of the list. -/
def findStrFrom (pat : Str) : Str → Nat → Option Nat
  | [], i => if pat = [] then some i else none
  | x :: xs, i => if pat.isPrefixOf (x :: xs) then some i else findStrFrom pat xs (i + 1)

/-- The call `s.find(pat)`; `none` is `string::npos`. -/
def findStr (s pat : Str) : Option Nat := findStrFrom pat s 0

/-- Subtraction `a - b` of two `size_type` values (numbers below `2 ^ 64`):
when `a < b` the result wraps around modulo `2 ^ 64`. -/
def sizeSub (a b : Nat) : Nat := if b ≤ a then a - b else a + 2 ^ 64 - b

/-! ## Collaborators declared in tengerror.h and tengsourcelist.h -/

/-- Modelled from the spec: `Error_t::Position_t`, declared in tengerror.h.
A cursor (file name, line, column). -/
structure Position_t where
  filename : Str
  lineno : Nat
  column : Nat
deriving DecidableEq, Repr

/-- Modelled from the spec: the constructor `Position_t(filename)` of
tengerror.h; line and column are at least 1. -/
def Position_t.mk1 (filename : Str) : Position_t := ⟨filename, 1, 1⟩

/-- Modelled from the spec: `Position_t::advanceColumn(n = 1)` of tengerror.h;
"column advances by 1 per ordinary character". -/
def Position_t.advanceColumn (p : Position_t) (n : Nat := 1) : Position_t :=
  { p with column := p.column + n }

/-- Modelled from the spec: `Position_t::advanceToTab()` of tengerror.h; the
column "jumps to the next multiple-of-8 (tab stop) boundary". -/
def Position_t.advanceToTab (p : Position_t) : Position_t :=
  { p with column := (p.column / 8 + 1) * 8 }

/-- Modelled from the spec: `Position_t::newLine()` of tengerror.h; "resets to
column 1 / line+1 on newline". -/
def Position_t.newLine (p : Position_t) : Position_t :=
  { p with lineno := p.lineno + 1, column := 1 }

/-- Modelled from the spec: `Position_t::setColumn(c)` of tengerror.h. -/
def Position_t.setColumn (p : Position_t) (c : Nat) : Position_t :=
  { p with column := c }

/-- Modelled from the spec: the severities of `Error_t` (tengerror.h). -/
inductive Level_t where
  | LL_WARNING
  | LL_ERROR
deriving DecidableEq, Repr

/-- Modelled from the spec: one record of the error sink of tengerror.h, a
(severity, position, message) tuple; `syscall` tells `logSyscallError` from
`logError`. -/
structure Entry_t where
  level : Level_t
  pos : Position_t
  message : String
  syscall : Bool
deriving DecidableEq, Repr

/-- Modelled from the spec: the error sink `Error_t` of tengerror.h, the
records in the order they were logged. -/
abbrev Error_t := List Entry_t

/-- Modelled from the spec: `Error_t::logError` of tengerror.h. -/
def logError (err : Error_t) (level : Level_t) (pos : Position_t) (message : String) :
    Error_t :=
  err ++ [⟨level, pos, message, false⟩]

/-- Modelled from the spec: `Error_t::logSyscallError` of tengerror.h. -/
def logSyscallError (err : Error_t) (level : Level_t) (pos : Position_t)
    (message : String) : Error_t :=
  err ++ [⟨level, pos, message, true⟩]

/-- Modelled from the spec: `SourceList_t`, declared in tengsourcelist.h: the
paths registered so far, duplicates kept. -/
abbrev SourceList_t := List Str

/-- Modelled from the spec: `SourceList_t::addSource` of tengsourcelist.h;
it "records each loaded file path". -/
def addSource (sources : SourceList_t) (filename : Str) : SourceList_t :=
  sources ++ [filename]

/-! ## The dictionary object -/

/-- The table `map<string, string> dict`: an association list with at most
one pair per key in the reachable states; the iteration order of `std::map`
(used by `dump` only) is not represented. -/
abbrev Table_t := List (Str × Str)

/-- The call `dict.find(key)`, giving the mapped value. -/
def Table_t.find : Table_t → Str → Option Str
  | [], _ => none
  | (k, v) :: rest, key => if k = key then some v else Table_t.find rest key

/-- The call `dict.insert(make_pair(name, value))`: `std::map::insert` does
nothing when the key is present. -/
def Table_t.insert (t : Table_t) (name value : Str) : Table_t :=
  match t.find name with
  | some _ => t
  | none => t ++ [(name, value)]

/-- Data members of `Dictionary_t`. -/
structure Dictionary_t where
  root : Str
  level : Nat
  sources : SourceList_t
  err : Error_t
  dict : Table_t
deriving DecidableEq, Repr

/-- The constant `Dictionary_t::MAX_RECURSION_LEVEL`. -/
def MAX_RECURSION_LEVEL : Nat := 10

/-- The constructor `Dictionary_t(root)`. -/
def Dictionary_t.new (root : Str := []) : Dictionary_t :=
  { root := root, level := 0, sources := [], err := [], dict := [] }

/-- The method `Dictionary_t::add`; the returned `0` is dropped. -/
def Dictionary_t.add (d : Dictionary_t) (name value : Str) : Dictionary_t :=
  { d with dict := d.dict.insert name value }

/-- The method `Dictionary_t::lookup`; `none` is the null pointer. -/
def Dictionary_t.lookup (d : Dictionary_t) (key : Str) : Option Str :=
  d.dict.find key

/-! ## getLine -/

/-- The static method `Dictionary_t::getLine`: the line and the offset of the
terminating line feed (`none` for `npos`). -/
def getLine (str : Str) (begin : Nat) : Str × Option Nat :=
  match find str '\n' begin with
  | some nl =>
    if 0 < nl ∧ str.get? (nl - 1) = some '\r' then
      (substr str begin (sizeSub (sizeSub nl begin) 1), some nl)
    else
      (substr str begin (sizeSub nl begin), some nl)
  | none =>
    -- `substr(begin, npos - begin)` is the rest of the string
    (str.drop begin, none)

/-! ## parseValueLine -/

/-- Result of `parseValueLine`: return code, `value`, position, error log. -/
structure ValueResult where
  ret : Int
  value : Str
  pos : Position_t
  err : Error_t
deriving DecidableEq, Repr

/-- The first loop of `parseValueLine`: strip whitespace from the beginning. -/
def skipSpaces : Str → Position_t → Str × Position_t
  | [], pos => ([], pos)
  | c :: rest, pos =>
    if isspace c then
      skipSpaces rest (if c = '\t' then pos.advanceToTab else pos.advanceColumn)
    else (c :: rest, pos)

/-- The inner loop of `parseValueLine` after the closing quote: run through
the rest of the line and find any non-white character. -/
def afterQuote : Str → Str → Position_t → Error_t → ValueResult
  | [], value, pos, err => ⟨0, value, pos, err⟩
  | c :: rest, value, pos, err =>
    if !isspace c then
      ⟨-1, value, pos, logError err .LL_ERROR pos "Text after quoted line"⟩
    else
      afterQuote rest value (if c = '\t' then pos.advanceToTab else pos.advanceColumn) err

/-- The inner `switch (*iline)` of `parseValueLine`, entered with `d` as the
character after the backslash `c`: the value, position and log it leaves. -/
def escapeSwitch (c d : Char) (value : Str) (pos : Position_t) (err : Error_t) :
    Str × Position_t × Error_t :=
  if d = 'n' then (value ++ ['\n'], pos, err)
  else if d = 'r' then (value ++ ['\r'], pos, err)
  else if d = 't' then (value ++ ['\t'], pos, err)
  else if d = 'v' then (value ++ ['\x0b'], pos, err)
  else if d = '\\' then (value ++ ['\\'], pos, err)
  else if d = '"' then (value ++ ['"'], pos, err)
  else if d = '\t' then
    -- `case '\t'` has no `break`: control falls through into `default`
    let err1 := logError err .LL_ERROR pos "Invalid escape"
    let value1 := value ++ [c, d]
    let pos1 := pos.advanceColumn
    let err2 := logError err1 .LL_ERROR pos1 "Invalid escape"
    let value2 := value1 ++ [c, d]
    (value2, pos1, err2)
  else
    (value ++ [c, d], pos, logError err .LL_ERROR pos "Invalid escape")

/-- The main `for` loop of `parseValueLine` (with the test that follows it),
on the characters from `iline` to the end of the line. -/
def valueLoop : Str → Bool → Bool → Str → Position_t → Error_t → ValueResult
  | [], _, quoted, value, pos, err =>
    if quoted then
      ⟨-1, value, pos, logError err .LL_ERROR pos "Missing terminating quote"⟩
    else ⟨0, value, pos, err⟩
  | c :: rest, first, quoted, value, pos, err =>
    if c = '\\' then
      match rest with
      | [] =>
        -- escaping of end-of-line is not allowed
        valueLoop [] false quoted value pos.advanceColumn
          (logError err .LL_ERROR pos "Escaping EOL not allowed")
      | d :: rest2 =>
        let r := escapeSwitch c d value pos err
        valueLoop rest2 false quoted r.1 r.2.1.advanceColumn r.2.2
    else if c = '"' then
      if first then valueLoop rest false true value pos.advanceColumn err
      else if quoted then afterQuote rest value pos.advanceColumn err
      else valueLoop rest false quoted (value ++ [c]) pos err
    else if c = '\t' then valueLoop rest false quoted (value ++ [c]) pos.advanceToTab err
    else valueLoop rest false quoted (value ++ [c]) pos.advanceColumn err

/-- The method `Dictionary_t::parseValueLine`. -/
def parseValueLine (line : Str) (pos : Position_t) (err : Error_t) : ValueResult :=
  let (rest, pos1) := skipSpaces line pos
  valueLoop rest true false [] pos1 err

/-! ## parseIdentLine -/

/-- Result of `parseIdentLine`: return code, `name`, `value`, position, log. -/
structure IdentResult where
  ret : Int
  name : Str
  value : Str
  pos : Position_t
  err : Error_t
deriving DecidableEq, Repr

/-- The `for` loop of `parseIdentLine`: the number of leading characters that
are alphanumeric or `_`. -/
def identLength : Str → Nat
  | [] => 0
  | c :: rest => if !(isalnum c || c = '_') then 0 else identLength rest + 1

/-- The test `iline != line.end()` and `!isspace(*iline)` of `parseIdentLine`:
the first character after the leading identifier characters exists and is
not white. -/
def identEarlyExit (line : Str) : Bool :=
  match line.drop (identLength line) with
  | c :: _ => !isspace c
  | [] => false

/-- The method `Dictionary_t::parseIdentLine`; `name` and `value` come in as
the caller left them and are returned untouched on the early exit. -/
def parseIdentLine (line name value : Str) (pos : Position_t) (err : Error_t) :
    IdentResult :=
  let n := identLength line
  let pos1 := pos.advanceColumn n
  if identEarlyExit line then
    ⟨-1, name, value, pos1, logError err .LL_ERROR pos1 "Invalid character in identifier"⟩
  else
    -- cut name, parse rest of line as value
    let r := parseValueLine (line.drop n) pos1 err
    ⟨r.ret, substr line 0 n, r.value, r.pos, r.err⟩

/-! ## The file system and the recursive parse -/

/-- What `fopen` and the read loop of `_parse(FILE *, pos)` make of a path. -/
inductive File_t where
  | cannotOpen
  | readError
  | content (data : Str)
deriving DecidableEq, Repr

/-- A file system: what each path holds. -/
abbrev FileSystem := Str → File_t

/-- The nested call `_parse(filename, pos)` as seen from `processDirective`:
`none` when the depth budget is used up. -/
abbrev IncludeFn := Str → Position_t → Dictionary_t → Option (Int × Dictionary_t)

/-- The method `Dictionary_t::processDirective`: return code, position and
object afterwards. -/
def processDirective (inc : IncludeFn) (directive : Str) (pos : Position_t)
    (d : Dictionary_t) : Option (Int × Position_t × Dictionary_t) :=
  if findStr directive "%include".toList = some 0 then
    if d.level = 0 then
      some (-1, pos, { d with err := logError d.err .LL_ERROR pos "Too many includes" })
    else
      -- cut filename
      let filename := directive.drop 8
      let pos1 := pos.advanceColumn 8
      match filename with
      | [] =>
        some (-1, pos1,
          { d with err := logError d.err .LL_ERROR pos1 "Invalid include directive" })
      | c :: _ =>
        if !isspace c then
          some (-1, pos1,
            { d with err := logError d.err .LL_ERROR pos1 "Invalid include directive" })
        else
          -- strip filename: `begin` runs over the leading whitespace, `end`
          -- runs back over the trailing whitespace
          let body := filename.dropWhile isspace
          let begin := filename.length - body.length
          let stripped := (body.reverse.dropWhile isspace).reverse
          let pos2 := pos1.advanceColumn begin
          if stripped = [] then
            some (-1, pos2,
              { d with err := logError d.err .LL_ERROR pos2 "Missing file to include" })
          else
            -- decrement recursion level, parse given file, increment it again
            match inc stripped pos2 { d with level := d.level - 1 } with
            | none => none
            | some (ret, d1) => some (ret, pos2, { d1 with level := d1.level + 1 })
  else
    some (-1, pos, { d with err := logError d.err .LL_ERROR pos "Unknown procesing directive" })

/-- Local variables of `_parseString` that live across loop iterations,
together with the object. -/
structure LoopState where
  currentName : Str
  currentValue : Str
  currentValid : Bool
  ret : Int
  pos : Position_t
  d : Dictionary_t
deriving DecidableEq, Repr

/-- The classification of one line in the loop body of `_parseString`
(the `if (!(line.empty() || (line[0] == '#')))` statement). -/
def classify (inc : IncludeFn) (line : Str) (s : LoopState) : Option LoopState :=
  match line with
  | [] =>
    -- empty line terminates entry
    some { s with
      d := if s.currentValid then s.d.add s.currentName s.currentValue else s.d,
      currentValid := false }
  | first :: _ =>
    if first = '#' then
      -- comment line terminates entry
      some { s with
        d := if s.currentValid then s.d.add s.currentName s.currentValue else s.d,
        currentValid := false }
    else if first = '%' then
      let d1 := if s.currentValid then s.d.add s.currentName s.currentValue else s.d
      match processDirective inc line s.pos d1 with
      | none => none
      | some (_, pos1, d2) => some { s with currentValid := false, pos := pos1, d := d2 }
    else if isspace first then
      if s.currentValid then
        let r := parseValueLine line s.pos s.d.err
        some { s with
          currentValue := s.currentValue ++ [' '] ++ r.value,
          pos := r.pos,
          d := { s.d with err := r.err } }
      else
        some { s with
          d := { s.d with
            err := logError s.d.err .LL_ERROR s.pos "No line to concatenate with" } }
    else if isalpha first || first = '_' || first = '.' then
      let d1 := if s.currentValid then s.d.add s.currentName s.currentValue else s.d
      let r := parseIdentLine line s.currentName s.currentValue s.pos d1.err
      some { currentName := r.name, currentValue := r.value,
             currentValid := decide (r.ret = 0), ret := s.ret, pos := r.pos,
             d := { d1 with err := r.err } }
    else
      some { s with
        ret := -1,
        d := { s.d with err := logError s.d.err .LL_ERROR s.pos "Illegal identifier" } }

/-- The end of the loop body of `_parseString` when `getLine` returned
`npos`: if the line is not empty, the last character is not a newline. -/
def endOfInput (line : Str) (s : LoopState) : LoopState :=
  if line ≠ [] then
    -- move to end of line and report error
    let pos1 := s.pos.setColumn (line.length + 1)
    { s with
      pos := pos1,
      ret := -1,
      d := { s.d with
        err := logError s.d.err .LL_WARNING pos1 "No newline at end of file" } }
  else s

/-- The `for (;;)` loop of `_parseString`, entered with `nl` as the offset of
the next line; the first argument bounds the number of iterations. -/
def parseLoop (inc : IncludeFn) (data : Str) : Nat → Nat → LoopState → Option LoopState
  | 0, _, _ => none
  | fuel + 1, nl, s =>
    let (line, nl1) := getLine data nl
    match classify inc line s with
    | none => none
    | some s1 =>
      match nl1 with
      | some n =>
        -- advance to next character (after newline), move to next line
        parseLoop inc data fuel (n + 1) { s1 with pos := s1.pos.newLine }
      | none => some (endOfInput line s1)

/-- The method `Dictionary_t::_parseString`: return code, position and object
afterwards. -/
def _parseString (inc : IncludeFn) (data : Str) (pos : Position_t) (d : Dictionary_t) :
    Option (Int × Position_t × Dictionary_t) :=
  match parseLoop inc data (data.length + 1) 0
      { currentName := [], currentValue := [], currentValid := false, ret := 0,
        pos := pos, d := d } with
  | none => none
  | some s =>
    -- if current data are valid, we must insert appropriate record
    some (s.ret, s.pos, if s.currentValid then s.d.add s.currentName s.currentValue else s.d)

/-- The first statement of `_parse(filename, pos)`: if relative path,
prepend root. -/
def resolvePath (root _filename : Str) : Str :=
  if _filename ≠ [] ∧ _filename.head? ≠ some '/' ∧ root ≠ [] then
    root ++ ['/'] ++ _filename
  else _filename

/-- The methods `Dictionary_t::_parse(filename, pos)` and
`Dictionary_t::_parse(FILE *, pos)` over the file system `fs`; the first
argument is the depth budget. -/
def _parse (fs : FileSystem) : Nat → Str → Position_t → Dictionary_t →
    Option (Int × Dictionary_t)
  | 0, _, _, _ => none
  | fuel + 1, _filename, pos, d =>
    let filename := resolvePath d.root _filename
    let d1 := { d with sources := addSource d.sources filename }
    match fs filename with
    | File_t.cannotOpen =>
      some (-1, { d1 with
        err := logSyscallError d1.err .LL_ERROR pos
          ("Cannot open file \x27" ++ String.mk filename ++ "\x27") })
    | File_t.readError =>
      some (-1, { d1 with
        err := logSyscallError d1.err .LL_ERROR (Position_t.mk1 filename)
          "Error reading file" })
    | File_t.content str =>
      match _parseString (fun f p x => _parse fs fuel f p x) str (Position_t.mk1 filename) d1 with
      | none => none
      | some (status, _, d2) => some (status, d2)

/-- The method `Dictionary_t::parse` over the file system `fs`, run with the
depth budget `fuel`. -/
def parse (fs : FileSystem) (fuel : Nat) (filename : Str) (d : Dictionary_t) :
    Option (Int × Dictionary_t) :=
  _parse fs fuel filename (Position_t.mk1 filename) { d with level := MAX_RECURSION_LEVEL }

/-! ## Vocabulary of the statements -/

/-- The state of `_parseString` before its loop. -/
def LoopState.init (pos : Position_t) (d : Dictionary_t) : LoopState :=
  { currentName := [], currentValue := [], currentValid := false, ret := 0,
    pos := pos, d := d }

/-- The statement `if (currentValid) add(currentName, currentValue)`. -/
def LoopState.commit (s : LoopState) : Dictionary_t :=
  if s.currentValid then s.d.add s.currentName s.currentValue else s.d

/-- A raw line with the carriage return before its line feed removed, as
`getLine` hands it out. -/
def chomp (l : Str) : Str := if l.getLast? = some '\r' then l.dropLast else l

/-- The text whose lines are `ls`, each one terminated by a line feed. -/
def joinLines : List Str → Str
  | [] => []
  | l :: ls => l ++ '\n' :: joinLines ls

/-- The loop body of `_parseString` over a list of raw lines that are each
terminated by a line feed. -/
def runLines (inc : IncludeFn) : List Str → LoopState → Option LoopState
  | [], s => some s
  | l :: ls, s =>
    match classify inc (chomp l) s with
    | none => none
    | some s1 => runLines inc ls { s1 with pos := s1.pos.newLine }

/-- The last iteration of the loop of `_parseString`, on the fragment that
follows the last line feed. -/
def lastLine (inc : IncludeFn) (frag : Str) (s : LoopState) : Option LoopState :=
  match classify inc frag s with
  | none => none
  | some s1 => some (endOfInput frag s1)

/-- Return code and value that `parseValueLine` computes for a line (they do
not depend on the position and the log it is entered with). -/
def decodeRet (line : Str) : Int := (parseValueLine line (Position_t.mk1 []) []).ret

/-- Value that `parseValueLine` computes for a line. -/
def decodeValue (line : Str) : Str := (parseValueLine line (Position_t.mk1 []) []).value

/-- Name that `parseIdentLine` cuts from a line. -/
def identName (line : Str) : Str := substr line 0 (identLength line)

/-- Value that `parseIdentLine` decodes from a line. -/
def identValue (line : Str) : Str := decodeValue (line.drop (identLength line))

/-- Return code of `parseIdentLine` on a line. -/
def identRet (line : Str) : Int := (parseIdentLine line [] [] (Position_t.mk1 []) []).ret

/-- First characters that `_parseString` takes for the start of an
identifier line. -/
def isIdentStart (c : Char) : Bool := isalpha c || c = '_' || c = '.'

/-- A well-formed identifier line: it starts as an identifier line and
`parseIdentLine` returns 0 on it. -/
def WellFormedIdentLine (l : Str) : Prop :=
  l.head?.map isIdentStart = some true ∧ identRet l = 0

instance (l : Str) : Decidable (WellFormedIdentLine l) := by
  unfold WellFormedIdentLine; infer_instance

/-- The text after the first double quote that is not the second character
of a backslash pair, when there is one (the pairs are read from left to
right). -/
def closingRest : Str → Option Str
  | [] => none
  | c :: rest =>
    if c = '\\' then
      match rest with
      | [] => none
      | _ :: rest2 => closingRest rest2
    else if c = '"' then some rest
    else closingRest rest

/-- What the proofs ask of the nested call `_parse(filename, pos)`: entered
with a level below the bound `L` it returns, and it hands the level back as
it got it. -/
def IncludeTotal (inc : IncludeFn) (L : Nat) : Prop :=
  ∀ f p (x : Dictionary_t), x.level < L →
    ∃ r x1, inc f p x = some (r, x1) ∧ x1.level = x.level

/-- A file system in which the file `f` includes itself. -/
def selfIncluding : FileSystem :=
  fun p => if p = ['f'] then File_t.content "%include f\n".toList else File_t.cannotOpen

/-- The messages that `parseValueLine` and `parseIdentLine` log. -/
def lineMessages : List String :=
  ["Invalid escape", "Escaping EOL not allowed", "Text after quoted line",
   "Missing terminating quote", "Invalid character in identifier"]

/-- A log `err1` continues the log `err` with records taken from
`lineMessages` only. -/
def LineLog (err err1 : Error_t) : Prop :=
  ∃ E : Error_t, err1 = err ++ E ∧ ∀ x ∈ E, x.message ∈ lineMessages

/-- Two positions on the same line of the same file. -/
def SameLine (p q : Position_t) : Prop := q.filename = p.filename ∧ q.lineno = p.lineno

/-- A file name fit for an include directive: not empty and free of
whitespace. -/
def GoodName (n : Str) : Prop := n ≠ [] ∧ ∀ c ∈ n, isspace c = false

instance (n : Str) : Decidable (GoodName n) := by
  unfold GoodName; infer_instance

/-- The directive line that includes the file `n`. -/
def includeLine (n : Str) : Str := "%include ".toList ++ n

/-- A file of an include chain: the entry definition `e`, then the include
of the file `n`. -/
def chainFile (e n : Str) : Str := joinLines [e, includeLine n]

/-- The file name that follows in a chain given by (name, entry) pairs, the
name after the last pair being `last`. -/
def nextName (rest : List (Str × Str)) (last : Str) : Str :=
  match rest with
  | [] => last
  | (nm, _) :: _ => nm

/-- The file system `fs` holds a chain of files, given by their (name, entry
line) pairs: each file has its entry definition followed by the include of
the next file, the last one including `last`. -/
def IncludeChain (fs : FileSystem) (root last : Str) : List (Str × Str) → Prop
  | [] => True
  | (nm, e) :: rest =>
    fs (resolvePath root nm) = File_t.content (chainFile e (nextName rest last)) ∧
    '\n' ∉ e ∧ WellFormedIdentLine (chomp e) ∧ GoodName (nextName rest last) ∧
    IncludeChain fs root last rest

instance (fs : FileSystem) (root last : Str) :
    (files : List (Str × Str)) → Decidable (IncludeChain fs root last files)
  | [] => isTrue trivial
  | (nm, e) :: rest =>
    have := instDecidableIncludeChain fs root last rest
    by unfold IncludeChain; infer_instance

/-- The table after the entries of a chain have been added in order. -/
def chainTable (t : Table_t) (files : List (Str × Str)) : Table_t :=
  files.foldl (fun t f => t.insert (identName (chomp f.2)) (identValue (chomp f.2))) t

/-- The file system that holds exactly the files of a chain (each under its
own name, the first of two files with one name winning). -/
def chainFs (last : Str) : List (Str × Str) → FileSystem
  | [] => fun _ => File_t.cannotOpen
  | (nm, e) :: rest => fun p =>
    if p = nm then File_t.content (chainFile e (nextName rest last)) else chainFs last rest p

/-- Ten files `f1` ... `f10`, the file `fi` defining `ki` as `vi`. -/
def sampleChain : List (Str × Str) :=
  [("f1".toList, "k1 v1".toList), ("f2".toList, "k2 v2".toList),
   ("f3".toList, "k3 v3".toList), ("f4".toList, "k4 v4".toList),
   ("f5".toList, "k5 v5".toList), ("f6".toList, "k6 v6".toList),
   ("f7".toList, "k7 v7".toList), ("f8".toList, "k8 v8".toList),
   ("f9".toList, "k9 v9".toList), ("f10".toList, "k10 v10".toList)]

/-- A file system whose only file `/r/main` includes `sub.dict` and
`/abs/x.dict`. -/
def includingFs : FileSystem :=
  fun p =>
    if p = "/r/main".toList then File_t.content "%include sub.dict\n%include /abs/x.dict\n".toList
    else File_t.cannotOpen

/-- A file system whose only file `F` includes the file `G`, which does not
exist. -/
def danglingFs : FileSystem :=
  fun p => if p = ['F'] then File_t.content "%include G\n".toList else File_t.cannotOpen

/-- A file system in which `E` includes `F` and `F` includes the file `G`,
which does not exist. -/
def danglingFs2 : FileSystem :=
  fun p =>
    if p = ['E'] then File_t.content "%include F\n".toList
    else if p = ['F'] then File_t.content "%include G\n".toList
    else File_t.cannotOpen

/-- The two-character escape of a character that has one (line feed,
carriage return, tab, vertical tab, backslash, double quote), the character
itself otherwise. -/
def encChar (c : Char) : Str :=
  if c = '\n' then ['\\', 'n']
  else if c = '\r' then ['\\', 'r']
  else if c = '\t' then ['\\', 't']
  else if c = '\x0b' then ['\\', 'v']
  else if c = '\\' then ['\\', '\\']
  else if c = '"' then ['\\', '"']
  else [c]

/-- The quoted form of a string: a double quote, the string with its
characters escaped, a double quote. -/
def enc (s : Str) : Str := '"' :: (s.flatMap encChar ++ ['"'])

/-- The table after the pairs of `A` have been handed to `insert` in order. -/
def Table_t.insertAll (t : Table_t) (A : List (Str × Str)) : Table_t :=
  A.foldl (fun t a => t.insert a.1 a.2) t

/-- The object after the paths `S` were registered, the records `E` were
logged and the pairs `A` were handed to `add`, in order. -/
def Dictionary_t.extend (d : Dictionary_t) (S : SourceList_t) (E : Error_t)
    (A : List (Str × Str)) : Dictionary_t :=
  { d with sources := d.sources ++ S, err := d.err ++ E, dict := d.dict.insertAll A }

/-- A name of the dictionary format: not empty, made of letters, digits and
underscores, not starting with a digit. -/
def ValidName (k : Str) : Prop :=
  k ≠ [] ∧ (∀ c ∈ k, isalnum c = true ∨ c = '_') ∧ ∀ c, k.head? = some c → isdigit c = false

/-- What a call of `add` with a pending entry hands to the table, if the
entry is valid. -/
def pendingAdds (name value : Str) (valid : Bool) : List (Str × Str) :=
  if valid then [(name, value)] else []

/-- The nested call `_parse(filename, pos)` acts on the object only by
registering paths, logging records and calling `add`; which paths and pairs,
and the status, depend on the file name, the root and the level only, the
records on the position as well; a non-zero status comes with a logged
record and every name handed to `add` is valid. -/
def IncludeFrame (inc : IncludeFn) (L : Nat) : Prop :=
  ∀ (f root : Str) (level : Nat), level < L →
    ∃ (st : Int) (S : SourceList_t) (A : List (Str × Str)),
      (∀ a ∈ A, ValidName a.1) ∧
      ∀ pos : Position_t, ∃ E : Error_t, (st ≠ 0 → E ≠ []) ∧
        ∀ d : Dictionary_t, d.root = root → d.level = level →
          inc f pos d = some (st, d.extend S E A)

/-- A file system whose only file `f` holds the line `a \q`, with an invalid
escape. -/
def softErrorFs : FileSystem :=
  fun p => if p = ['f'] then File_t.content "a \\q\n".toList else File_t.cannotOpen

/-- A line that `_parseString` rejects as an illegal identifier: it is not
empty and its first character is none of `#`, `%`, whitespace, a letter, `_`
or `.`. -/
def illegalStart (line : Str) : Bool :=
  match line with
  | [] => false
  | c :: _ => !(c = '#') && !(c = '%') && !isspace c && !isIdentStart c

/-- The offset `begin` lies between a carriage return and the line feed that
follows it: the character before `begin` is a carriage return and the
character at `begin` is a line feed. -/
def splitsCrLf (str : Str) (begin : Nat) : Prop :=
  0 < begin ∧ str.get? (begin - 1) = some '\r' ∧ str.get? begin = some '\n'

instance (str : Str) (begin : Nat) : Decidable (splitsCrLf str begin) := by
  unfold splitsCrLf
  infer_instance

theorem Table_t.find_append (t u : Table_t) (k : Str) :
    Table_t.find (t ++ u) k = (match Table_t.find t k with
      | some v => some v
      | none => Table_t.find u k) := by
  induction t with
  | nil => simp [Table_t.find]
  | cons p t ih =>
    obtain ⟨a, b⟩ := p
    by_cases h : a = k
    · simp [Table_t.find, h]
    · simp [Table_t.find, h, ih]

theorem Table_t.find_insert (t : Table_t) (name value key : Str) :
    (t.insert name value).find key =
      (match t.find key with
        | some v => some v
        | none => if name = key then some value else none) := by
  unfold Table_t.insert
  cases hn : t.find name with
  | some w =>
    by_cases h : name = key
    · subst h; simp [hn]
    · cases hk : t.find key <;> simp [h]
  | none =>
    simp only [Table_t.find_append]
    cases hk : t.find key <;> simp [Table_t.find]

/-- C1: `add(name, value)` on a store that already has `name` leaves the
store unchanged, so every lookup returns what it returned before; on a store
without `name`, afterwards `lookup(name)` is exactly `value` and the lookup of
every other key is unchanged. -/
theorem C1_add_first_wins (d : Dictionary_t) (name value : Str) :
    (d.lookup name ≠ none →
        d.add name value = d ∧ ∀ key, (d.add name value).lookup key = d.lookup key) ∧
    (d.lookup name = none →
        (d.add name value).lookup name = some value ∧
        ∀ key, key ≠ name → (d.add name value).lookup key = d.lookup key) := by
  refine ⟨fun h => ?_, fun h => ⟨?_, fun key hk => ?_⟩⟩
  · have hd : d.add name value = d := by
      unfold Dictionary_t.add Table_t.insert
      unfold Dictionary_t.lookup at h
      cases hf : d.dict.find name with
      | none => exact absurd hf h
      | some w => rfl
    exact ⟨hd, fun key => by rw [hd]⟩
  · unfold Dictionary_t.lookup at h
    simp [Dictionary_t.lookup, Dictionary_t.add, Table_t.find_insert, h]
  · simp only [Dictionary_t.lookup, Dictionary_t.add, Table_t.find_insert]
    cases hf : d.dict.find key with
    | some w => rfl
    | none => simp [Ne.symm hk]

/-- C1 at work: `add` on a store holding `a` and on one that does not. -/
theorem C1_add_first_wins_witness :
    ((Dictionary_t.new.add ['a'] ['1']).add ['a'] ['2']).lookup ['a'] = some ['1'] ∧
    (Dictionary_t.new.add ['a'] ['1']).lookup ['a'] = some ['1'] :=
  ⟨by rw [((C1_add_first_wins (Dictionary_t.new.add ['a'] ['1']) ['a'] ['2']).1 (by decide)).1]; decide,
   ((C1_add_first_wins Dictionary_t.new ['a'] ['1']).2 (by decide)).1⟩

/-! ## getLine on a text given by its lines -/

theorem findFrom_append_of_not_mem (c : Char) (l rest : Str) (i : Nat) (h : c ∉ l) :
    findFrom c (l ++ c :: rest) i = some (i + l.length) := by
  induction l generalizing i with
  | nil => simp [findFrom]
  | cons x l ih =>
    have hx : x ≠ c := fun e => h (by simp [e])
    have hl : c ∉ l := fun e => h (by simp [e])
    have e := ih (i + 1) hl
    simp only [List.cons_append, findFrom, hx, if_false, List.length_cons]
    rw [Nat.add_assoc, Nat.add_comm 1] at e
    exact e

theorem findFrom_of_not_mem (c : Char) (l : Str) (i : Nat) (h : c ∉ l) :
    findFrom c l i = none := by
  induction l generalizing i with
  | nil => simp [findFrom]
  | cons x l ih =>
    have hx : x ≠ c := fun e => h (by simp [e])
    have hl : c ∉ l := fun e => h (by simp [e])
    simp [findFrom, hx, ih (i + 1) hl]

theorem find_append_left (pre suf : Str) (c : Char) :
    find (pre ++ suf) c pre.length = findFrom c suf pre.length := by
  simp [find]

theorem sizeSub_of_le {a b : Nat} (h : b ≤ a) : sizeSub a b = a - b := by
  simp [sizeSub, h]

theorem chomp_nil : chomp [] = [] := by simp [chomp]

theorem getLine_line (pre l rest : Str) (hl : '\n' ∉ l) (hpre : pre.getLast? ≠ some '\r') :
    getLine (pre ++ l ++ '\n' :: rest) pre.length = (chomp l, some (pre.length + l.length)) := by
  have hfind : find (pre ++ l ++ '\n' :: rest) '\n' pre.length = some (pre.length + l.length) := by
    rw [List.append_assoc, find_append_left, findFrom_append_of_not_mem _ _ _ _ hl]
  unfold getLine
  rw [hfind]
  simp only
  have hget : (pre ++ l ++ '\n' :: rest).get? (pre.length + l.length - 1) = (pre ++ l).getLast? ∨
      pre.length + l.length = 0 := by
    by_cases h0 : pre.length + l.length = 0
    · exact Or.inr h0
    · left
      rw [List.get?_eq_getElem?, List.getElem?_append_left (by simp; omega),
        List.getLast?_eq_getElem?]
      simp
  have hdrop : (pre ++ l ++ '\n' :: rest).drop pre.length = l ++ '\n' :: rest := by
    rw [List.append_assoc, List.drop_left]
  rcases List.eq_nil_or_concat l with hnil | ⟨l0, x, hx⟩
  · subst hnil
    have hcond : ¬ (0 < pre.length + 0 ∧ (pre ++ [] ++ '\n' :: rest).get? (pre.length + 0 - 1) = some '\r') := by
      rintro ⟨hpos, hg⟩
      rcases hget with hget | h0
      · simp only [List.length_nil] at hget
        rw [hget] at hg
        simp at hg
        exact hpre hg
      · omega
    simp only [List.length_nil] at hcond ⊢
    rw [if_neg hcond]
    simp [substr, sizeSub, chomp]
  · rw [List.concat_eq_append] at hx
    subst hx
    have hlast : (pre ++ (l0 ++ [x])).getLast? = some x := by
      rw [← List.append_assoc]; simp
    have hg : (pre ++ (l0 ++ [x]) ++ '\n' :: rest).get? (pre.length + (l0 ++ [x]).length - 1) = some x := by
      rcases hget with hget | h0
      · rw [hget, hlast]
      · simp at h0
    rw [hg]
    by_cases hxr : x = '\r'
    · subst hxr
      have : 0 < pre.length + (l0 ++ ['\r']).length := by simp
      simp only [this, true_and, if_true]
      simp only [substr, hdrop]
      have h1 : sizeSub (sizeSub (pre.length + (l0 ++ ['\r']).length) pre.length) 1 = l0.length := by
        have h2 : sizeSub (pre.length + (l0 ++ ['\r']).length) pre.length = l0.length + 1 := by
          rw [sizeSub_of_le (by omega)]; simp
        rw [h2, sizeSub_of_le (by omega)]
        simp
      rw [h1]
      simp [chomp]
    · have : ¬ (0 < pre.length + (l0 ++ [x]).length ∧ some x = some '\r') := by
        rintro ⟨_, h⟩; exact hxr (Option.some.inj h)
      rw [if_neg this]
      simp only [substr, hdrop]
      have h1 : sizeSub (pre.length + (l0 ++ [x]).length) pre.length = (l0 ++ [x]).length := by
        rw [sizeSub_of_le (by omega)]; omega
      rw [h1]
      have hc : chomp (l0 ++ [x]) = l0 ++ [x] := by
        simp [chomp, hxr]
      rw [hc, List.take_left' rfl]

theorem getLine_last (pre frag : Str) (hl : '\n' ∉ frag) :
    getLine (pre ++ frag) pre.length = (frag, none) := by
  unfold getLine
  rw [find_append_left, findFrom_of_not_mem _ _ _ hl]
  simp

/-! ## The loop of `_parseString` as a fold over the lines of the text -/

theorem joinLines_length_ge (ls : List Str) : ls.length ≤ (joinLines ls).length := by
  induction ls with
  | nil => simp [joinLines]
  | cons l ls ih => simp [joinLines]; omega

theorem parseLoop_eq_runLines (inc : IncludeFn) (ls : List Str) (frag : Str)
    (hls : ∀ l ∈ ls, '\n' ∉ l) (hfrag : '\n' ∉ frag) :
    ∀ (pre : Str) (fuel : Nat) (s : LoopState), pre.getLast? ≠ some '\r' →
      ls.length + 1 ≤ fuel →
      parseLoop inc (pre ++ joinLines ls ++ frag) fuel pre.length s =
        (runLines inc ls s).bind (lastLine inc frag) := by
  induction ls with
  | nil =>
    intro pre fuel s _ hfuel
    obtain ⟨n, rfl⟩ : ∃ n, fuel = n + 1 := ⟨fuel - 1, by simp at hfuel; omega⟩
    simp only [joinLines, List.append_nil, parseLoop, getLine_last pre frag hfrag, runLines,
      Option.some_bind, lastLine]
  | cons l ls ih =>
    intro pre fuel s hpre hfuel
    obtain ⟨n, rfl⟩ : ∃ n, fuel = n + 1 := ⟨fuel - 1, by simp at hfuel; omega⟩
    have hl : '\n' ∉ l := hls l (by simp)
    have hdata : pre ++ joinLines (l :: ls) ++ frag = pre ++ l ++ '\n' :: (joinLines ls ++ frag) := by
      simp [joinLines]
    have hdata2 : pre ++ joinLines (l :: ls) ++ frag = (pre ++ l ++ ['\n']) ++ joinLines ls ++ frag := by
      simp [joinLines]
    have hlen : pre.length + l.length + 1 = (pre ++ l ++ ['\n']).length := by simp [Nat.add_assoc]
    have hg : getLine (pre ++ joinLines (l :: ls) ++ frag) pre.length =
        (chomp l, some (pre.length + l.length)) := by
      rw [hdata]; exact getLine_line pre l _ hl hpre
    simp only [parseLoop, hg, runLines]
    cases hc : classify inc (chomp l) s with
    | none => rfl
    | some s1 =>
      simp only [Option.some_bind]
      rw [hlen, hdata2]
      exact ih (fun x hx => hls x (by simp [hx])) _ n _ (by simp) (by simp at hfuel; omega)

/-- The method `_parseString` on a text given by its lines: the loop body is
run on each terminated line (carriage return removed) and then on the final
fragment, and the pending entry is committed. -/
theorem _parseString_eq_runLines (inc : IncludeFn) (ls : List Str) (frag : Str)
    (hls : ∀ l ∈ ls, '\n' ∉ l) (hfrag : '\n' ∉ frag) (pos : Position_t) (d : Dictionary_t) :
    _parseString inc (joinLines ls ++ frag) pos d =
      ((runLines inc ls (LoopState.init pos d)).bind (lastLine inc frag)).map
        (fun s => (s.ret, s.pos, s.commit)) := by
  have h := parseLoop_eq_runLines inc ls frag hls hfrag [] ((joinLines ls ++ frag).length + 1)
    (LoopState.init pos d) (by simp) (by
      have := joinLines_length_ge ls
      simp only [List.length_append]; omega)
  simp only [List.nil_append, List.length_nil] at h
  unfold _parseString
  change (match parseLoop inc (joinLines ls ++ frag) ((joinLines ls ++ frag).length + 1) 0
      (LoopState.init pos d) with
    | none => none
    | some s => some (s.ret, s.pos, s.commit)) = _
  rw [h]
  cases (runLines inc ls (LoopState.init pos d)).bind (lastLine inc frag) <;> rfl

/-! ## One step of the decoding loop -/

theorem valueLoop_nil (first quoted : Bool) (value : Str) (pos : Position_t) (err : Error_t) :
    valueLoop [] first quoted value pos err =
      if quoted then
        ⟨-1, value, pos, logError err .LL_ERROR pos "Missing terminating quote"⟩
      else ⟨0, value, pos, err⟩ := by
  simp [valueLoop]

theorem valueLoop_escape_eol (first quoted : Bool) (value : Str) (pos : Position_t)
    (err : Error_t) :
    valueLoop ['\\'] first quoted value pos err =
      valueLoop [] false quoted value pos.advanceColumn
        (logError err .LL_ERROR pos "Escaping EOL not allowed") := by
  simp [valueLoop]

theorem valueLoop_escape (d : Char) (rest : Str) (first quoted : Bool) (value : Str)
    (pos : Position_t) (err : Error_t) :
    valueLoop ('\\' :: d :: rest) first quoted value pos err =
      valueLoop rest false quoted (escapeSwitch '\\' d value pos err).1
        (escapeSwitch '\\' d value pos err).2.1.advanceColumn
        (escapeSwitch '\\' d value pos err).2.2 := by
  simp [valueLoop]

theorem valueLoop_quote_first (rest : Str) (quoted : Bool) (value : Str)
    (pos : Position_t) (err : Error_t) :
    valueLoop ('"' :: rest) true quoted value pos err =
      valueLoop rest false true value pos.advanceColumn err := by
  rw [valueLoop.eq_def]; simp

theorem valueLoop_quote_close (rest : Str) (value : Str) (pos : Position_t) (err : Error_t) :
    valueLoop ('"' :: rest) false true value pos err =
      afterQuote rest value pos.advanceColumn err := by
  rw [valueLoop.eq_def]; simp

theorem valueLoop_quote_literal (rest : Str) (value : Str) (pos : Position_t)
    (err : Error_t) :
    valueLoop ('"' :: rest) false false value pos err =
      valueLoop rest false false (value ++ ['"']) pos err := by
  rw [valueLoop.eq_def]; simp

theorem valueLoop_char (c : Char) (rest : Str) (first quoted : Bool) (value : Str)
    (pos : Position_t) (err : Error_t) (h1 : c ≠ '\\') (h2 : c ≠ '"') :
    valueLoop (c :: rest) first quoted value pos err =
      valueLoop rest false quoted (value ++ [c])
        (if c = '\t' then pos.advanceToTab else pos.advanceColumn) err := by
  rw [valueLoop.eq_def]
  by_cases h3 : c = '\t' <;> simp [h1, h2, h3]

/-! ## Return code and value do not depend on the position and the log -/

theorem escapeSwitch_value (c d : Char) (value : Str) (pos pos1 : Position_t)
    (err err1 : Error_t) :
    (escapeSwitch c d value pos err).1 = value ++ (escapeSwitch c d [] pos1 err1).1 := by
  unfold escapeSwitch
  split_ifs <;> simp

theorem afterQuote_ret_value (l value : Str) (pos pos1 : Position_t) (err err1 : Error_t) :
    (afterQuote l value pos err).ret = (afterQuote l [] pos1 err1).ret ∧
    (afterQuote l value pos err).value = value := by
  induction l generalizing pos pos1 with
  | nil => simp [afterQuote]
  | cons c rest ih =>
    by_cases h : isspace c
    · simp only [afterQuote, h, Bool.not_true, Bool.false_eq_true, if_false]
      exact ih _ _
    · simp [afterQuote, h]

theorem valueLoop_ret_value_aux (n : Nat) :
    ∀ (l : Str), l.length ≤ n → ∀ (first quoted : Bool) (value : Str) (pos pos1 : Position_t)
      (err err1 : Error_t),
      (valueLoop l first quoted value pos err).ret = (valueLoop l first quoted [] pos1 err1).ret ∧
      (valueLoop l first quoted value pos err).value =
        value ++ (valueLoop l first quoted [] pos1 err1).value := by
  induction n with
  | zero =>
    intro l hl first quoted value pos pos1 err err1
    have : l = [] := List.length_eq_zero.mp (Nat.le_zero.mp hl)
    subst this
    cases quoted <;> simp [valueLoop_nil]
  | succ n ih =>
    intro l hl first quoted value pos pos1 err err1
    match l, hl with
    | [], _ => cases quoted <;> simp [valueLoop_nil]
    | c :: rest, hl =>
      have hrest : rest.length ≤ n := by simpa using hl
      by_cases h1 : c = '\\'
      · subst h1
        match rest, hrest with
        | [], _ =>
          rw [valueLoop_escape_eol, valueLoop_escape_eol]
          cases quoted <;> simp [valueLoop_nil]
        | d :: rest2, hrest =>
          have hrest2 : rest2.length ≤ n := by simp at hrest; omega
          rw [valueLoop_escape, valueLoop_escape]
          have a := ih rest2 hrest2 false quoted (escapeSwitch '\\' d value pos err).1
            (escapeSwitch '\\' d value pos err).2.1.advanceColumn pos1
            (escapeSwitch '\\' d value pos err).2.2 err1
          have b := ih rest2 hrest2 false quoted (escapeSwitch '\\' d [] pos1 err1).1
            (escapeSwitch '\\' d [] pos1 err1).2.1.advanceColumn pos1
            (escapeSwitch '\\' d [] pos1 err1).2.2 err1
          rw [a.1, a.2, b.1, b.2, escapeSwitch_value '\\' d value pos pos1 err err1]
          simp
      · by_cases h2 : c = '"'
        · subst h2
          cases first
          · cases quoted
            · rw [valueLoop_quote_literal, valueLoop_quote_literal]
              have a := ih rest hrest false false (value ++ ['"']) pos pos1 err err1
              have b := ih rest hrest false false ([] ++ ['"']) pos1 pos1 err1 err1
              rw [a.1, a.2, b.1, b.2]
              simp
            · rw [valueLoop_quote_close, valueLoop_quote_close]
              have a := afterQuote_ret_value rest value pos.advanceColumn pos1.advanceColumn err err1
              have b := afterQuote_ret_value rest [] pos1.advanceColumn pos1.advanceColumn err1 err1
              rw [a.1, a.2, b.2]
              simp
          · rw [valueLoop_quote_first, valueLoop_quote_first]
            exact ih rest hrest false true value _ _ err err1
        · rw [valueLoop_char c rest first quoted value pos err h1 h2,
            valueLoop_char c rest first quoted [] pos1 err1 h1 h2]
          have a := ih rest hrest false quoted (value ++ [c])
            (if c = '\t' then pos.advanceToTab else pos.advanceColumn) pos1 err err1
          have b := ih rest hrest false quoted ([] ++ [c])
            (if c = '\t' then pos1.advanceToTab else pos1.advanceColumn) pos1 err1 err1
          rw [a.1, a.2, b.1, b.2]
          simp

theorem valueLoop_ret_value (l : Str) (first quoted : Bool) (value : Str)
    (pos pos1 : Position_t) (err err1 : Error_t) :
    (valueLoop l first quoted value pos err).ret = (valueLoop l first quoted [] pos1 err1).ret ∧
    (valueLoop l first quoted value pos err).value =
      value ++ (valueLoop l first quoted [] pos1 err1).value :=
  valueLoop_ret_value_aux l.length l (Nat.le_refl _) first quoted value pos pos1 err err1

theorem skipSpaces_fst (l : Str) (pos : Position_t) :
    (skipSpaces l pos).1 = l.dropWhile isspace := by
  induction l generalizing pos with
  | nil => simp [skipSpaces]
  | cons c rest ih =>
    by_cases h : isspace c
    · simp [skipSpaces, h, ih, List.dropWhile]
    · simp [skipSpaces, h, List.dropWhile]

theorem parseValueLine_eq (line : Str) (pos : Position_t) (err : Error_t) :
    parseValueLine line pos err =
      valueLoop (line.dropWhile isspace) true false [] (skipSpaces line pos).2 err := by
  unfold parseValueLine
  rw [← skipSpaces_fst line pos]

theorem parseValueLine_ret (line : Str) (pos : Position_t) (err : Error_t) :
    (parseValueLine line pos err).ret = decodeRet line := by
  unfold decodeRet
  rw [parseValueLine_eq, parseValueLine_eq]
  exact (valueLoop_ret_value _ _ _ _ _ _ _ _).1

theorem parseValueLine_value (line : Str) (pos : Position_t) (err : Error_t) :
    (parseValueLine line pos err).value = decodeValue line := by
  unfold decodeValue
  rw [parseValueLine_eq, parseValueLine_eq]
  have := (valueLoop_ret_value (line.dropWhile isspace) true false []
    (skipSpaces line pos).2 (skipSpaces line (Position_t.mk1 [])).2 err []).2
  simpa using this

/-! ## Identifier lines -/

theorem parseIdentLine_early (line name value : Str) (pos : Position_t) (err : Error_t)
    (h : identEarlyExit line = true) :
    parseIdentLine line name value pos err =
      ⟨-1, name, value, pos.advanceColumn (identLength line),
        logError err .LL_ERROR (pos.advanceColumn (identLength line))
          "Invalid character in identifier"⟩ := by
  simp [parseIdentLine, h]

theorem parseIdentLine_late (line name value : Str) (pos : Position_t) (err : Error_t)
    (h : identEarlyExit line = false) :
    parseIdentLine line name value pos err =
      ⟨decodeRet (line.drop (identLength line)), identName line, identValue line,
        (parseValueLine (line.drop (identLength line))
          (pos.advanceColumn (identLength line)) err).pos,
        (parseValueLine (line.drop (identLength line))
          (pos.advanceColumn (identLength line)) err).err⟩ := by
  simp [parseIdentLine, h, parseValueLine_ret, parseValueLine_value, identName, identValue]

theorem identRet_eq (line : Str) :
    identRet line = if identEarlyExit line then -1 else decodeRet (line.drop (identLength line)) := by
  unfold identRet
  cases h : identEarlyExit line
  · rw [parseIdentLine_late _ _ _ _ _ h]; simp
  · rw [parseIdentLine_early _ _ _ _ _ h]; simp

theorem parseIdentLine_ret (line name value : Str) (pos : Position_t) (err : Error_t) :
    (parseIdentLine line name value pos err).ret = identRet line := by
  rw [identRet_eq]
  cases h : identEarlyExit line
  · rw [parseIdentLine_late _ _ _ _ _ h]; simp
  · rw [parseIdentLine_early _ _ _ _ _ h]; simp

theorem parseIdentLine_ok (line name value : Str) (pos : Position_t) (err : Error_t)
    (h : identRet line = 0) :
    (parseIdentLine line name value pos err).name = identName line ∧
    (parseIdentLine line name value pos err).value = identValue line := by
  rw [identRet_eq] at h
  cases he : identEarlyExit line
  · rw [parseIdentLine_late _ _ _ _ _ he]; simp
  · rw [he] at h; simp at h

theorem isIdentStart_not_special {c : Char} (h : isIdentStart c = true) :
    c ≠ '#' ∧ c ≠ '%' ∧ isspace c = false := by
  unfold isIdentStart isalpha at h
  simp only [Bool.or_eq_true, decide_eq_true_eq] at h
  refine ⟨?_, ?_, ?_⟩
  · rintro rfl; revert h; decide
  · rintro rfl; revert h; decide
  · unfold isspace
    rcases h with (h | h) | h
    · simp only [decide_eq_false_iff_not]; omega
    · subst h; decide
    · subst h; decide

/-- The loop body of `_parseString` on a line that starts as an identifier
line. -/
theorem classify_ident (inc : IncludeFn) (c : Char) (rest : Str) (s : LoopState)
    (hc : isIdentStart c = true) :
    classify inc (c :: rest) s =
      some { currentName := (parseIdentLine (c :: rest) s.currentName s.currentValue s.pos s.commit.err).name,
             currentValue := (parseIdentLine (c :: rest) s.currentName s.currentValue s.pos s.commit.err).value,
             currentValid := decide (identRet (c :: rest) = 0),
             ret := s.ret,
             pos := (parseIdentLine (c :: rest) s.currentName s.currentValue s.pos s.commit.err).pos,
             d := { s.commit with
               err := (parseIdentLine (c :: rest) s.currentName s.currentValue s.pos s.commit.err).err } } := by
  obtain ⟨h1, h2, h3⟩ := isIdentStart_not_special hc
  have hc2 : (isalpha c || decide (c = '_') || decide (c = '.')) = true := hc
  simp only [classify, h1, h2, h3, if_false, hc2, if_true, Bool.false_eq_true,
    parseIdentLine_ret, LoopState.commit]

theorem classify_empty (inc : IncludeFn) (s : LoopState) :
    classify inc [] s = some { s with d := s.commit, currentValid := false } := by
  simp [classify, LoopState.commit]

theorem classify_wellFormed (inc : IncludeFn) (l : Str) (s : LoopState)
    (h : WellFormedIdentLine l) :
    ∃ s1, classify inc l s = some s1 ∧ s1.currentName = identName l ∧
      s1.currentValue = identValue l ∧ s1.currentValid = true ∧ s1.ret = s.ret ∧
      s1.d.dict = s.commit.dict ∧ s1.d.level = s.d.level ∧ s1.d.root = s.d.root := by
  obtain ⟨hs, hr⟩ := h
  match l, hs with
  | c :: rest, hs =>
    have hc : isIdentStart c = true := by simpa using hs
    refine ⟨_, classify_ident inc c rest s hc, ?_, ?_, ?_, rfl, rfl, ?_, ?_⟩
    · exact (parseIdentLine_ok _ _ _ _ _ hr).1
    · exact (parseIdentLine_ok _ _ _ _ _ hr).2
    · simp [hr]
    · unfold LoopState.commit; split <;> rfl
    · unfold LoopState.commit; split <;> rfl

theorem commit_dict_of_valid (s : LoopState) (h : s.currentValid = true) :
    s.commit.dict = s.d.dict.insert s.currentName s.currentValue := by
  simp [LoopState.commit, h, Dictionary_t.add]

theorem runLines_wellFormed (inc : IncludeFn) (ls : List Str)
    (hls : ∀ l ∈ ls, WellFormedIdentLine (chomp l)) (s : LoopState) :
    ∃ s1, runLines inc ls s = some s1 ∧ s1.ret = s.ret ∧
      ∀ k, s1.commit.dict.find k =
        (match s.commit.dict.find k with
          | some v => some v
          | none => ((ls.map chomp).find? (fun l => decide (identName l = k))).map identValue) := by
  induction ls generalizing s with
  | nil =>
    refine ⟨s, rfl, rfl, fun k => ?_⟩
    cases s.commit.dict.find k <;> rfl
  | cons l ls ih =>
    obtain ⟨s1, h1, hn, hv, hvalid, hret, hdict, _, _⟩ :=
      classify_wellFormed inc (chomp l) s (hls l (by simp))
    obtain ⟨s2, h2, hret2, hfind⟩ :=
      ih (fun x hx => hls x (by simp [hx])) { s1 with pos := s1.pos.newLine }
    refine ⟨s2, ?_, ?_, fun k => ?_⟩
    · simp only [runLines, h1, h2]
    · rw [hret2, ← hret]
    · rw [hfind k]
      have hc : (LoopState.commit { s1 with pos := s1.pos.newLine }).dict =
          s.commit.dict.insert (identName (chomp l)) (identValue (chomp l)) := by
        rw [commit_dict_of_valid _ (by exact hvalid)]
        simp only [hdict, hn, hv]
      rw [hc, Table_t.find_insert]
      cases hf : s.commit.dict.find k with
      | some v => rfl
      | none =>
        by_cases hk : identName (chomp l) = k
        · simp [hk]
        · simp [hk]

/-- C2: a text made only of well-formed identifier lines, each terminated by a
line feed, parsed by `_parseString` into an empty store: the lookup of every
key `k` gives the decoded value of the earliest line whose name is `k`, and
nothing when no line has the name `k`. -/
theorem C2_first_definition_wins (inc : IncludeFn) (ls : List Str) (pos : Position_t)
    (d : Dictionary_t) (hd : d.dict = [])
    (hls : ∀ l ∈ ls, '\n' ∉ l ∧ WellFormedIdentLine (chomp l)) :
    ∃ ret pos1 d1, _parseString inc (joinLines ls) pos d = some (ret, pos1, d1) ∧
      ∀ k, d1.lookup k =
        ((ls.map chomp).find? (fun l => decide (identName l = k))).map identValue := by
  have h := _parseString_eq_runLines inc ls [] (fun l hl => (hls l hl).1) (by simp) pos d
  rw [List.append_nil] at h
  obtain ⟨s1, h1, _, hfind⟩ :=
    runLines_wellFormed inc ls (fun l hl => (hls l hl).2) (LoopState.init pos d)
  rw [h1] at h
  simp only [Option.some_bind, lastLine, classify_empty, Option.map_some'] at h
  refine ⟨_, _, _, h, fun k => ?_⟩
  have hinit : (LoopState.init pos d).commit.dict.find k = none := by
    simp [LoopState.init, LoopState.commit, hd, Table_t.find]
  have hk := hfind k
  rw [hinit] at hk
  simp only at hk
  rw [← hk]
  simp [Dictionary_t.lookup, endOfInput, LoopState.commit]

/-- C2 at work: `name val1` followed by `name val2` leaves `val1`. -/
theorem C2_first_definition_wins_witness :
    ∃ ret pos1 d1,
      _parseString (fun _ _ _ => none) "name val1\nname val2\n".toList (Position_t.mk1 [])
        Dictionary_t.new = some (ret, pos1, d1) ∧
      d1.lookup "name".toList = some "val1".toList := by
  obtain ⟨ret, pos1, d1, h, hk⟩ := C2_first_definition_wins (fun _ _ _ => none)
    ["name val1".toList, "name val2".toList] (Position_t.mk1 []) Dictionary_t.new rfl
    (by decide)
  exact ⟨ret, pos1, d1, h, by rw [hk]; decide⟩

/-! ## Continuation lines -/

theorem isspace_not_special {c : Char} (h : isspace c = true) : c ≠ '#' ∧ c ≠ '%' := by
  constructor <;> (rintro rfl; revert h; decide)

theorem classify_continuation (inc : IncludeFn) (line : Str) (s : LoopState)
    (hw : line.head?.map isspace = some true) (hv : s.currentValid = true) :
    classify inc line s =
      some { s with
        currentValue := s.currentValue ++ [' '] ++ decodeValue line,
        pos := (parseValueLine line s.pos s.d.err).pos,
        d := { s.d with err := (parseValueLine line s.pos s.d.err).err } } := by
  match line, hw with
  | w :: rest, hw =>
    have hsp : isspace w = true := by simpa using hw
    obtain ⟨h1, h2⟩ := isspace_not_special hsp
    simp only [classify, h1, h2, if_false, hsp, if_true, hv, parseValueLine_value]

theorem runLines_continuation (inc : IncludeFn) (cs : List Str)
    (hcs : ∀ c ∈ cs, (chomp c).head?.map isspace = some true) (s : LoopState)
    (hv : s.currentValid = true) :
    ∃ s1, runLines inc cs s = some s1 ∧ s1.currentValid = true ∧
      s1.currentName = s.currentName ∧
      s1.currentValue = s.currentValue ++ cs.flatMap (fun c => ' ' :: decodeValue (chomp c)) ∧
      s1.ret = s.ret ∧ s1.d.dict = s.d.dict := by
  induction cs generalizing s with
  | nil => exact ⟨s, rfl, hv, rfl, by simp, rfl, rfl⟩
  | cons c cs ih =>
    have hc := classify_continuation inc (chomp c) s (hcs c (by simp)) hv
    obtain ⟨s2, h2, hv2, hn2, hval2, hr2, hd2⟩ := ih (fun x hx => hcs x (by simp [hx]))
      { currentName := s.currentName,
        currentValue := s.currentValue ++ [' '] ++ decodeValue (chomp c),
        currentValid := s.currentValid, ret := s.ret,
        pos := (parseValueLine (chomp c) s.pos s.d.err).pos.newLine,
        d := { s.d with err := (parseValueLine (chomp c) s.pos s.d.err).err } } hv
    refine ⟨s2, ?_, hv2, hn2, ?_, hr2, hd2⟩
    · simp only [runLines, hc]; exact h2
    · rw [hval2]; simp

theorem endOfInput_nil_commit (s : LoopState) :
    (endOfInput [] { s with d := s.commit, currentValid := false }).commit = s.commit := by
  simp [endOfInput, LoopState.commit]

theorem decodeValue_dropWhile (line : Str) :
    decodeValue line = decodeValue (line.dropWhile isspace) := by
  have hdd : (line.dropWhile isspace).dropWhile isspace = line.dropWhile isspace := by
    induction line with
    | nil => rfl
    | cons c rest ih =>
      by_cases h : isspace c
      · simp [List.dropWhile, h, ih]
      · simp [List.dropWhile, h]
  unfold decodeValue
  rw [parseValueLine_eq, parseValueLine_eq, hdd]
  have a := (valueLoop_ret_value (line.dropWhile isspace) true false []
    (skipSpaces line (Position_t.mk1 [])).2
    (skipSpaces (line.dropWhile isspace) (Position_t.mk1 [])).2 [] []).2
  simpa using a

/-- C3: an identifier line with name `n` followed by `k` lines (`k >= 1`, and
`k = 0` as well) that each begin with a whitespace character, every value
decode succeeding:
`_parseString` commits for `n` the value `d0 ++ " " ++ d1 ++ ... ++ " " ++ dk`
of the decoded values, one space per continuation line; the decoded value of
a line does not see its leading whitespace. -/
theorem C3_continuation_lines (inc : IncludeFn) (l0 : Str) (cs : List Str) (pos : Position_t)
    (d : Dictionary_t) (h0 : '\n' ∉ l0) (hw : WellFormedIdentLine (chomp l0))
    (hcs : ∀ c ∈ cs, '\n' ∉ c ∧ (chomp c).head?.map isspace = some true ∧
      decodeRet (chomp c) = 0) :
    ∃ ret pos1 d1, _parseString inc (joinLines (l0 :: cs)) pos d = some (ret, pos1, d1) ∧
      d1.dict = d.dict.insert (identName (chomp l0))
        (identValue (chomp l0) ++ cs.flatMap (fun c => ' ' :: decodeValue (chomp c))) ∧
      ∀ c ∈ cs, decodeValue (chomp c) = decodeValue ((chomp c).dropWhile isspace) := by
  have h := _parseString_eq_runLines inc (l0 :: cs) []
    (fun l hl => by
      rcases List.mem_cons.mp hl with rfl | hl
      · exact h0
      · exact (hcs l hl).1) (by simp) pos d
  rw [List.append_nil] at h
  obtain ⟨s1, h1, hn1, hv1, hvalid1, hret1, hdict1, _, _⟩ :=
    classify_wellFormed inc (chomp l0) (LoopState.init pos d) hw
  obtain ⟨s2, h2, hvalid2, hn2, hv2, hret2, hdict2⟩ :=
    runLines_continuation inc cs (fun c hc => (hcs c hc).2.1)
      { s1 with pos := s1.pos.newLine } hvalid1
  have hrun : runLines inc (l0 :: cs) (LoopState.init pos d) = some s2 := by
    simp only [runLines, h1]; exact h2
  rw [hrun] at h
  simp only [Option.some_bind, lastLine, classify_empty, Option.map_some'] at h
  refine ⟨_, _, _, h, ?_, fun c _ => decodeValue_dropWhile _⟩
  have hinit : (LoopState.init pos d).commit.dict = d.dict := by
    simp [LoopState.init, LoopState.commit]
  rw [endOfInput_nil_commit s2, commit_dict_of_valid s2 hvalid2, hdict2, hn2, hv2]
  simp only [hdict1, hinit, hn1, hv1]

/-- C3 at work: `a first` continued by ` second` gives `first second`. -/
theorem C3_continuation_lines_witness :
    ∃ ret pos1 d1,
      _parseString (fun _ _ _ => none) "a first\n second\n".toList (Position_t.mk1 [])
        Dictionary_t.new = some (ret, pos1, d1) ∧
      d1.lookup ['a'] = some "first second".toList := by
  obtain ⟨ret, pos1, d1, h, hd, _⟩ := C3_continuation_lines (fun _ _ _ => none)
    "a first".toList [" second".toList] (Position_t.mk1 []) Dictionary_t.new
    (by decide) (by decide) (by decide)
  exact ⟨ret, pos1, d1, h, by unfold Dictionary_t.lookup; rw [hd]; decide⟩

/-- C5: on an identifier line for which `parseIdentLine` returns non-zero,
the loop body of `_parseString` adds nothing for that line (the store is the
one with the earlier pending entry committed) and leaves no pending entry, so
that `_parseString` on a text made of that line alone leaves the table as it
was; parsing `a "val" xyz` into an empty store logs "Text after quoted line"
and `lookup("a")` is absent. -/
theorem C5_failed_ident_line (inc : IncludeFn) (l : Str) (s : LoopState) (pos : Position_t)
    (d : Dictionary_t) (hn : '\n' ∉ l)
    (hc : (chomp l).head?.map isIdentStart = some true) (hr : identRet (chomp l) ≠ 0) :
    (∃ s1, classify inc (chomp l) s = some s1 ∧ s1.currentValid = false ∧
      s1.d.dict = s.commit.dict ∧ s1.commit.dict = s.commit.dict) ∧
    (∃ ret pos1 d1, _parseString inc (joinLines [l]) pos d = some (ret, pos1, d1) ∧
      d1.dict = d.dict) ∧
    (∃ ret pos1 d1,
      _parseString inc "a \"val\" xyz".toList (Position_t.mk1 []) Dictionary_t.new =
        some (ret, pos1, d1) ∧
      (∃ e ∈ d1.err, e.message = "Text after quoted line" ∧ e.level = Level_t.LL_ERROR) ∧
      d1.lookup ['a'] = none) := by
  obtain ⟨c, rest, hcr⟩ : ∃ c rest, chomp l = c :: rest := by
    cases hce : chomp l with
    | nil => rw [hce] at hc; simp at hc
    | cons c rest => exact ⟨c, rest, rfl⟩
  have hc1 : isIdentStart c = true := by rw [hcr] at hc; simpa using hc
  have hcl : ∀ s : LoopState, ∃ s1, classify inc (chomp l) s = some s1 ∧
      s1.currentValid = false ∧ s1.d.dict = s.commit.dict ∧
      s1.commit.dict = s.commit.dict := by
    intro s
    rw [hcr] at hr ⊢
    refine ⟨_, classify_ident inc c rest s hc1, by simp [hr], rfl, ?_⟩
    simp [LoopState.commit, hr]
  refine ⟨hcl s, ?_, ⟨_, _, _, rfl, by decide, by decide⟩⟩
  obtain ⟨s1, h1, hv, hd, _⟩ := hcl (LoopState.init pos d)
  have h := _parseString_eq_runLines inc [l] [] (fun x hx => by
    rw [List.mem_singleton.mp hx]; exact hn) (by simp) pos d
  rw [List.append_nil] at h
  simp only [runLines, h1, Option.some_bind, lastLine, classify_empty, Option.map_some'] at h
  refine ⟨_, _, _, h, ?_⟩
  have hco := endOfInput_nil_commit { s1 with pos := s1.pos.newLine }
  simp only at hco
  rw [hco]
  simp only [LoopState.commit, hv, Bool.false_eq_true, if_false, hd]
  rfl

/-- C5 at work: the line `a "val" xyz` after a pending entry `k` = `v`. -/
theorem C5_failed_ident_line_witness :
    ∃ s1, classify (fun _ _ _ => none) "a \"val\" xyz".toList
        { currentName := ['k'], currentValue := ['v'], currentValid := true, ret := 0,
          pos := Position_t.mk1 [], d := Dictionary_t.new } = some s1 ∧
      s1.currentValid = false ∧ s1.d.dict = [(['k'], ['v'])] := by
  obtain ⟨⟨s1, h, hv, hd, _⟩, _⟩ := C5_failed_ident_line (fun _ _ _ => none)
    "a \"val\" xyz".toList
    { currentName := ['k'], currentValue := ['v'], currentValid := true, ret := 0,
      pos := Position_t.mk1 [], d := Dictionary_t.new } (Position_t.mk1 []) Dictionary_t.new
    (by decide) (by decide) (by decide)
  exact ⟨s1, h, hv, by rw [hd]; decide⟩

/-! ## When `parseValueLine` fails -/

theorem afterQuote_ret (t value : Str) (pos : Position_t) (err : Error_t) :
    (afterQuote t value pos err).ret ≠ 0 ↔ ∃ c ∈ t, isspace c = false := by
  induction t generalizing pos with
  | nil => simp [afterQuote]
  | cons c rest ih =>
    by_cases h : isspace c
    · simp only [afterQuote, h, Bool.not_true, Bool.false_eq_true, if_false, ih]
      simp [h]
    · simp [afterQuote, h]

theorem valueLoop_unquoted_ret_aux (n : Nat) :
    ∀ (l : Str), l.length ≤ n → ∀ (value : Str) (pos : Position_t) (err : Error_t),
      (valueLoop l false false value pos err).ret = 0 := by
  induction n with
  | zero =>
    intro l hl value pos err
    have : l = [] := List.length_eq_zero.mp (Nat.le_zero.mp hl)
    subst this
    simp [valueLoop_nil]
  | succ n ih =>
    intro l hl value pos err
    match l, hl with
    | [], _ => simp [valueLoop_nil]
    | c :: rest, hl =>
      have hrest : rest.length ≤ n := by simpa using hl
      by_cases h1 : c = '\\'
      · subst h1
        match rest, hrest with
        | [], _ => rw [valueLoop_escape_eol]; simp [valueLoop_nil]
        | d :: rest2, hrest =>
          rw [valueLoop_escape]
          exact ih rest2 (by simp at hrest; omega) _ _ _
      · by_cases h2 : c = '"'
        · subst h2
          rw [valueLoop_quote_literal]
          exact ih rest hrest _ _ _
        · rw [valueLoop_char c rest _ _ _ _ _ h1 h2]
          exact ih rest hrest _ _ _

theorem valueLoop_unquoted_ret (l value : Str) (pos : Position_t) (err : Error_t) :
    (valueLoop l false false value pos err).ret = 0 :=
  valueLoop_unquoted_ret_aux l.length l (Nat.le_refl _) value pos err

theorem closingRest_escape (d : Char) (rest : Str) :
    closingRest ('\\' :: d :: rest) = closingRest rest := by
  rw [closingRest.eq_def]; simp

theorem closingRest_escape_eol : closingRest ['\\'] = none := by
  rw [closingRest.eq_def]; simp

theorem closingRest_quote (rest : Str) : closingRest ('"' :: rest) = some rest := by
  rw [closingRest.eq_def]; simp

theorem closingRest_char (c : Char) (rest : Str) (h1 : c ≠ '\\') (h2 : c ≠ '"') :
    closingRest (c :: rest) = closingRest rest := by
  rw [closingRest.eq_def]; simp [h1, h2]

theorem valueLoop_quoted_ret_aux (n : Nat) :
    ∀ (l : Str), l.length ≤ n → ∀ (value : Str) (pos : Position_t) (err : Error_t),
      ((valueLoop l false true value pos err).ret ≠ 0 ↔
        (closingRest l = none ∨ ∃ t, closingRest l = some t ∧ ∃ c ∈ t, isspace c = false)) := by
  induction n with
  | zero =>
    intro l hl value pos err
    have : l = [] := List.length_eq_zero.mp (Nat.le_zero.mp hl)
    subst this
    simp [valueLoop_nil, closingRest]
  | succ n ih =>
    intro l hl value pos err
    match l, hl with
    | [], _ => simp [valueLoop_nil, closingRest]
    | c :: rest, hl =>
      have hrest : rest.length ≤ n := by simpa using hl
      by_cases h1 : c = '\\'
      · subst h1
        match rest, hrest with
        | [], _ => rw [valueLoop_escape_eol]; simp [valueLoop_nil, closingRest_escape_eol]
        | d :: rest2, hrest =>
          rw [valueLoop_escape, ih rest2 (by simp at hrest; omega), closingRest_escape]
      · by_cases h2 : c = '"'
        · subst h2
          rw [valueLoop_quote_close, afterQuote_ret, closingRest_quote]
          simp
        · rw [valueLoop_char c rest _ _ _ _ _ h1 h2, ih rest hrest,
            closingRest_char c rest h1 h2]

theorem valueLoop_first_ret (c : Char) (rest value : Str) (pos : Position_t) (err : Error_t)
    (h : c ≠ '"') : (valueLoop (c :: rest) true false value pos err).ret = 0 := by
  by_cases h1 : c = '\\'
  · subst h1
    match rest with
    | [] => rw [valueLoop_escape_eol]; simp [valueLoop_nil]
    | d :: rest2 => rw [valueLoop_escape]; exact valueLoop_unquoted_ret _ _ _ _
  · rw [valueLoop_char c rest _ _ _ _ _ h1 h]
    exact valueLoop_unquoted_ret _ _ _ _

/-- C6: `parseValueLine` returns non-zero exactly when the first character
that is not white is a double quote and either no later double quote outside
a backslash pair exists, or the first such quote is followed by a character
that is not white; in particular a line whose first non-white character is
not a double quote always gives 0, whatever its escapes. -/
theorem C6_value_line_failure (line : Str) (pos : Position_t) (err : Error_t) :
    ((parseValueLine line pos err).ret ≠ 0 ↔
      ∃ rest, line.dropWhile isspace = '"' :: rest ∧
        (closingRest rest = none ∨
          ∃ t, closingRest rest = some t ∧ ∃ c ∈ t, isspace c = false)) ∧
    ((line.dropWhile isspace).head? ≠ some '"' → (parseValueLine line pos err).ret = 0) := by
  rw [parseValueLine_eq]
  match hl : line.dropWhile isspace with
  | [] => simp [valueLoop_nil]
  | c :: rest =>
    by_cases hc : c = '"'
    · subst hc
      rw [valueLoop_quote_first,
        valueLoop_quoted_ret_aux rest.length rest (Nat.le_refl _)]
      simp
    · have h0 := valueLoop_first_ret c rest [] (skipSpaces line pos).2 err hc
      simp [h0, hc]

/-- C6 at work: an unquoted line with an invalid escape and a backslash at
its end gives 0. -/
theorem C6_value_line_failure_witness :
    (parseValueLine " x\\q\\".toList (Position_t.mk1 []) []).ret = 0 :=
  (C6_value_line_failure " x\\q\\".toList (Position_t.mk1 []) []).2 (by decide)

/-! ## Invalid escapes -/

theorem valueLoop_invalid_escape (c : Char) (rest : Str) (first quoted : Bool) (value : Str)
    (pos : Position_t) (err : Error_t)
    (hc : c ∉ ['n', 'r', 't', 'v', '\\', '"', '\t']) :
    valueLoop ('\\' :: c :: rest) first quoted value pos err =
      valueLoop rest false quoted (value ++ ['\\', c]) pos.advanceColumn
        (err ++ [⟨.LL_ERROR, pos, "Invalid escape", false⟩]) := by
  simp only [List.mem_cons, List.mem_singleton, List.not_mem_nil, or_false, not_or] at hc
  obtain ⟨h1, h2, h3, h4, h5, h6, h7⟩ := hc
  rw [valueLoop_escape]
  simp [escapeSwitch, h1, h2, h3, h4, h5, h6, h7, logError]

/-- C7, the escaped tab: a backslash followed by a literal tab makes the
decoding loop log "Invalid escape" twice and append the two characters twice,
because `case '\t'` of the switch runs on into `default`; on the line
backslash, tab, `x` the value is backslash, tab, backslash, tab, `x`. -/
theorem C7_escaped_tab_twice :
    (∀ (rest : Str) (first quoted : Bool) (value : Str) (pos : Position_t) (err : Error_t),
      valueLoop ('\\' :: '\t' :: rest) first quoted value pos err =
        valueLoop rest false quoted (value ++ ['\\', '\t', '\\', '\t'])
          pos.advanceColumn.advanceColumn
          (err ++ [⟨.LL_ERROR, pos, "Invalid escape", false⟩,
                   ⟨.LL_ERROR, pos.advanceColumn, "Invalid escape", false⟩])) ∧
    (parseValueLine ['\\', '\t', 'x'] (Position_t.mk1 []) []).value =
      ['\\', '\t', '\\', '\t', 'x'] ∧
    ((parseValueLine ['\\', '\t', 'x'] (Position_t.mk1 []) []).err.map (fun e => e.message)) =
      ["Invalid escape", "Invalid escape"] := by
  refine ⟨fun rest first quoted value pos err => ?_, by decide, by decide⟩
  rw [valueLoop_escape]
  simp [escapeSwitch, logError]

/-! ## The final fragment of a text -/

theorem findFrom_bounds (c : Char) (l : Str) (i n : Nat) (h : findFrom c l i = some n) :
    i ≤ n ∧ n < i + l.length := by
  induction l generalizing i with
  | nil => simp [findFrom] at h
  | cons x l ih =>
    by_cases hx : x = c
    · simp [findFrom, hx] at h
      subst h; simp
    · simp only [findFrom, hx, if_false] at h
      have := ih (i + 1) h
      simp only [List.length_cons]
      omega

theorem find_bounds (s : Str) (c : Char) (b n : Nat) (h : find s c b = some n) :
    b ≤ n ∧ n < s.length := by
  unfold find at h
  have := findFrom_bounds c (s.drop b) b n h
  simp only [List.length_drop] at this
  omega

theorem getLine_snd (data : Str) (nl : Nat) : (getLine data nl).2 = find data '\n' nl := by
  unfold getLine
  cases find data '\n' nl with
  | none => rfl
  | some n => simp only; split <;> rfl

theorem processDirective_total (inc : IncludeFn) (L : Nat) (hinc : IncludeTotal inc L)
    (directive : Str) (pos : Position_t) (d : Dictionary_t) (hd : d.level ≤ L) :
    ∃ r p d1, processDirective inc directive pos d = some (r, p, d1) ∧ d1.level = d.level := by
  unfold processDirective
  by_cases hp : findStr directive "%include".toList = some 0
  · simp only [hp, if_true]
    by_cases hl : d.level = 0
    · simp only [hl, if_true]; exact ⟨_, _, _, rfl, rfl⟩
    · simp only [hl, if_false]
      cases hf : directive.drop 8 with
      | nil => exact ⟨_, _, _, rfl, rfl⟩
      | cons c rest =>
        simp only
        by_cases hs : isspace c
        · simp only [hs, Bool.not_true, Bool.false_eq_true, if_false]
          split
          · exact ⟨_, _, _, rfl, rfl⟩
          · obtain ⟨r, x1, hx, hl1⟩ := hinc
              (((c :: rest).dropWhile isspace).reverse.dropWhile isspace).reverse
              ((pos.advanceColumn 8).advanceColumn
                ((c :: rest).length - ((c :: rest).dropWhile isspace).length))
              { d with level := d.level - 1 } (by simp only; omega)
            rw [hx]
            refine ⟨_, _, _, rfl, ?_⟩
            simp only at hl1 ⊢
            omega
        · simp only [hs, Bool.not_false, if_true]; exact ⟨_, _, _, rfl, rfl⟩
  · simp only [hp, if_false]; exact ⟨_, _, _, rfl, rfl⟩

theorem commit_level (s : LoopState) : s.commit.level = s.d.level := by
  unfold LoopState.commit; split <;> rfl

theorem classify_total (inc : IncludeFn) (L : Nat) (hinc : IncludeTotal inc L)
    (line : Str) (s : LoopState) (hd : s.d.level ≤ L) :
    ∃ s1, classify inc line s = some s1 ∧ s1.d.level = s.d.level := by
  unfold classify
  cases line with
  | nil => exact ⟨_, rfl, commit_level s⟩
  | cons first rest =>
    simp only
    by_cases h1 : first = '#'
    · simp only [h1, if_true]; exact ⟨_, rfl, commit_level s⟩
    · simp only [h1, if_false]
      by_cases h2 : first = '%'
      · simp only [h2, if_true]
        obtain ⟨r, p, d1, hpd, hl⟩ := processDirective_total inc L hinc ('%' :: rest) s.pos
          s.commit (by rw [commit_level]; exact hd)
        have hpd2 : processDirective inc ('%' :: rest) s.pos
            (if s.currentValid = true then s.d.add s.currentName s.currentValue else s.d) =
            some (r, p, d1) := hpd
        rw [hpd2]
        exact ⟨_, rfl, by simp only; rw [hl, commit_level]⟩
      · simp only [h2, if_false]
        by_cases h3 : isspace first
        · simp only [h3, if_true]
          split <;> exact ⟨_, rfl, rfl⟩
        · simp only [h3, Bool.false_eq_true, if_false]
          split
          · exact ⟨_, rfl, commit_level s⟩
          · exact ⟨_, rfl, rfl⟩

theorem endOfInput_level (line : Str) (s : LoopState) :
    (endOfInput line s).d.level = s.d.level := by
  unfold endOfInput; split <;> rfl

theorem parseLoop_total (inc : IncludeFn) (L : Nat) (hinc : IncludeTotal inc L) (data : Str) :
    ∀ (fuel nl : Nat) (s : LoopState), data.length + 1 ≤ fuel + nl → nl ≤ data.length →
      s.d.level ≤ L →
      ∃ s1, parseLoop inc data fuel nl s = some s1 ∧ s1.d.level = s.d.level := by
  intro fuel
  induction fuel with
  | zero => intro nl s h1 h2 _; omega
  | succ fuel ih =>
    intro nl s h1 h2 hd
    obtain ⟨s1, hc, hl⟩ := classify_total inc L hinc (getLine data nl).1 s hd
    have hsnd := getLine_snd data nl
    unfold parseLoop
    simp only [hc]
    cases hf : (getLine data nl).2 with
    | none => exact ⟨_, rfl, by rw [endOfInput_level, hl]⟩
    | some n =>
      rw [hsnd] at hf
      obtain ⟨hb1, hb2⟩ := find_bounds data '\n' nl n hf
      simp only
      obtain ⟨s2, h2, hl2⟩ := ih (n + 1) { s1 with pos := s1.pos.newLine } (by omega) (by omega)
        (by simp only; omega)
      exact ⟨s2, h2, by rw [hl2]; exact hl⟩

theorem _parseString_total (inc : IncludeFn) (L : Nat) (hinc : IncludeTotal inc L)
    (data : Str) (pos : Position_t) (d : Dictionary_t) (hd : d.level ≤ L) :
    ∃ r p d1, _parseString inc data pos d = some (r, p, d1) ∧ d1.level = d.level := by
  obtain ⟨s1, h1, hl⟩ := parseLoop_total inc L hinc data (data.length + 1) 0
    (LoopState.init pos d) (by omega) (by omega) hd
  unfold _parseString
  have h2 : parseLoop inc data (data.length + 1) 0
      { currentName := [], currentValue := [], currentValid := false, ret := 0,
        pos := pos, d := d } = some s1 := h1
  rw [h2]
  exact ⟨_, _, _, rfl, by
    show s1.commit.level = d.level
    rw [commit_level, hl]; rfl⟩

theorem _parse_total (fs : FileSystem) :
    ∀ (fuel : Nat) (filename : Str) (pos : Position_t) (d : Dictionary_t), d.level < fuel →
      ∃ r d1, _parse fs fuel filename pos d = some (r, d1) ∧ d1.level = d.level := by
  intro fuel
  induction fuel with
  | zero => intro _ _ d h; omega
  | succ fuel ih =>
    intro filename pos d hd
    have hinc : IncludeTotal (fun f p x => _parse fs fuel f p x) fuel :=
      fun f p x hx => ih f p x hx
    unfold _parse
    simp only
    generalize resolvePath d.root filename = fname
    cases fs fname with
    | cannotOpen => exact ⟨_, _, rfl, rfl⟩
    | readError => exact ⟨_, _, rfl, rfl⟩
    | content str =>
      obtain ⟨r, p, d1, h1, hl⟩ := _parseString_total _ fuel hinc str (Position_t.mk1 fname)
        { d with sources := addSource d.sources fname } (by simp only; omega)
      simp only [h1]
      exact ⟨_, _, rfl, hl⟩

/-! ## The depth budget beyond the level is never used -/

theorem processDirective_congr (inc1 inc2 : IncludeFn) (L : Nat)
    (hagree : ∀ f p (x : Dictionary_t), x.level < L → inc1 f p x = inc2 f p x)
    (directive : Str) (pos : Position_t) (d : Dictionary_t) (hd : d.level ≤ L) :
    processDirective inc1 directive pos d = processDirective inc2 directive pos d := by
  unfold processDirective
  by_cases hp : findStr directive "%include".toList = some 0
  · simp only [hp, if_true]
    by_cases hl : d.level = 0
    · simp only [hl, if_true]
    · simp only [hl, if_false]
      cases hf : directive.drop 8 with
      | nil => rfl
      | cons c rest =>
        simp only
        by_cases hs : isspace c
        · simp only [hs, Bool.not_true, Bool.false_eq_true, if_false]
          split
          · rfl
          · rw [hagree _ _ _ (by simp only; omega)]
        · simp only [hs, Bool.not_false, if_true]
  · simp only [hp, if_false]

theorem classify_congr (inc1 inc2 : IncludeFn) (L : Nat)
    (hagree : ∀ f p (x : Dictionary_t), x.level < L → inc1 f p x = inc2 f p x)
    (line : Str) (s : LoopState) (hd : s.d.level ≤ L) :
    classify inc1 line s = classify inc2 line s := by
  unfold classify
  cases line with
  | nil => rfl
  | cons first rest =>
    simp only
    have hpd := processDirective_congr inc1 inc2 L hagree (first :: rest) s.pos s.commit
      (by rw [commit_level]; exact hd)
    have hpd2 : processDirective inc1 (first :: rest) s.pos
        (if s.currentValid = true then s.d.add s.currentName s.currentValue else s.d) =
        processDirective inc2 (first :: rest) s.pos
        (if s.currentValid = true then s.d.add s.currentName s.currentValue else s.d) := hpd
    rw [hpd2]

theorem parseLoop_congr (inc1 inc2 : IncludeFn) (L : Nat) (hinc : IncludeTotal inc1 L)
    (hagree : ∀ f p (x : Dictionary_t), x.level < L → inc1 f p x = inc2 f p x) (data : Str) :
    ∀ (fuel nl : Nat) (s : LoopState), s.d.level ≤ L →
      parseLoop inc1 data fuel nl s = parseLoop inc2 data fuel nl s := by
  intro fuel
  induction fuel with
  | zero => intro nl s _; rfl
  | succ fuel ih =>
    intro nl s hd
    obtain ⟨s1, hc, hl⟩ := classify_total inc1 L hinc (getLine data nl).1 s hd
    have hc2 := classify_congr inc1 inc2 L hagree (getLine data nl).1 s hd
    unfold parseLoop
    simp only [← hc2, hc]
    cases (getLine data nl).2 with
    | none => rfl
    | some n => exact ih (n + 1) _ (by simp only; omega)

theorem _parseString_congr (inc1 inc2 : IncludeFn) (L : Nat) (hinc : IncludeTotal inc1 L)
    (hagree : ∀ f p (x : Dictionary_t), x.level < L → inc1 f p x = inc2 f p x) (data : Str)
    (pos : Position_t) (d : Dictionary_t) (hd : d.level ≤ L) :
    _parseString inc1 data pos d = _parseString inc2 data pos d := by
  unfold _parseString
  rw [parseLoop_congr inc1 inc2 L hinc hagree data _ _ _ hd]

theorem _parse_fuel (fs : FileSystem) :
    ∀ (fuel1 fuel2 : Nat) (filename : Str) (pos : Position_t) (d : Dictionary_t),
      d.level < fuel1 → d.level < fuel2 →
      _parse fs fuel1 filename pos d = _parse fs fuel2 filename pos d := by
  intro fuel1
  induction fuel1 with
  | zero => intro _ _ _ d h; omega
  | succ a ih =>
    intro fuel2 filename pos d h1 h2
    obtain ⟨b, rfl⟩ : ∃ b, fuel2 = b + 1 := ⟨fuel2 - 1, by omega⟩
    have hinc : IncludeTotal (fun f p x => _parse fs a f p x) d.level :=
      fun f p x hx => _parse_total fs a f p x (by omega)
    have hagree : ∀ f p (x : Dictionary_t), x.level < d.level →
        (fun f p x => _parse fs a f p x) f p x = (fun f p x => _parse fs b f p x) f p x :=
      fun f p x hx => ih b f p x (by omega) (by omega)
    unfold _parse
    simp only
    generalize resolvePath d.root filename = fname
    cases fs fname with
    | cannotOpen => rfl
    | readError => rfl
    | content str =>
      simp only
      rw [_parseString_congr _ _ d.level hinc hagree str (Position_t.mk1 fname)
        { d with sources := addSource d.sources fname } (Nat.le_refl _)]

/-- C10: for every file system, every root (a field of the object) and every
file name, `parse` returns: a depth budget of `MAX_RECURSION_LEVEL + 1 = 11`
nested `_parse` activations is always enough, and a larger budget changes
nothing, so never more than 11 file parses are nested, be the includes cyclic
or not; a file that includes itself does use all 11. -/
theorem C10_parse_terminates (fs : FileSystem) (filename : Str) (d : Dictionary_t) :
    (∃ status d1, parse fs (MAX_RECURSION_LEVEL + 1) filename d = some (status, d1)) ∧
    (∀ fuel, MAX_RECURSION_LEVEL + 1 ≤ fuel →
      parse fs fuel filename d = parse fs (MAX_RECURSION_LEVEL + 1) filename d) ∧
    parse selfIncluding MAX_RECURSION_LEVEL ['f'] Dictionary_t.new = none := by
  refine ⟨?_, fun fuel hf => ?_, by decide⟩
  · obtain ⟨r, d1, h, _⟩ := _parse_total fs (MAX_RECURSION_LEVEL + 1) filename
      (Position_t.mk1 filename) { d with level := MAX_RECURSION_LEVEL } (by simp)
    exact ⟨r, d1, h⟩
  · exact _parse_fuel fs fuel (MAX_RECURSION_LEVEL + 1) filename (Position_t.mk1 filename)
      { d with level := MAX_RECURSION_LEVEL } (by simp only; omega) (by simp)

/-! ## What the line parsers log -/

theorem LineLog.log_refl (err : Error_t) : LineLog err err := ⟨[], by simp, by simp⟩

theorem LineLog.log_trans {a b c : Error_t} (h1 : LineLog a b) (h2 : LineLog b c) : LineLog a c := by
  obtain ⟨E1, rfl, h1⟩ := h1
  obtain ⟨E2, rfl, h2⟩ := h2
  refine ⟨E1 ++ E2, by simp, fun x hx => ?_⟩
  rcases List.mem_append.mp hx with h | h
  · exact h1 x h
  · exact h2 x h

theorem LineLog.log_one (err : Error_t) (level : Level_t) (pos : Position_t) (m : String)
    (hm : m ∈ lineMessages) : LineLog err (logError err level pos m) :=
  ⟨[⟨level, pos, m, false⟩], rfl, by simpa using hm⟩

theorem escapeSwitch_log (c d : Char) (value : Str) (pos : Position_t) (err : Error_t) :
    LineLog err (escapeSwitch c d value pos err).2.2 := by
  unfold escapeSwitch
  split_ifs
  · exact LineLog.log_refl _
  · exact LineLog.log_refl _
  · exact LineLog.log_refl _
  · exact LineLog.log_refl _
  · exact LineLog.log_refl _
  · exact LineLog.log_refl _
  · exact (LineLog.log_one _ _ _ _ (by decide)).log_trans (LineLog.log_one _ _ _ _ (by decide))
  · exact LineLog.log_one _ _ _ _ (by decide)

theorem afterQuote_log (l value : Str) (pos : Position_t) (err : Error_t) :
    LineLog err (afterQuote l value pos err).err := by
  induction l generalizing pos with
  | nil => exact LineLog.log_refl _
  | cons c rest ih =>
    by_cases h : isspace c
    · simp only [afterQuote, h, Bool.not_true, Bool.false_eq_true, if_false]
      exact ih _
    · simp only [afterQuote, h, Bool.not_false, if_true]
      exact LineLog.log_one _ _ _ _ (by decide)

theorem valueLoop_log_aux (n : Nat) :
    ∀ (l : Str), l.length ≤ n → ∀ (first quoted : Bool) (value : Str) (pos : Position_t)
      (err : Error_t), LineLog err (valueLoop l first quoted value pos err).err := by
  induction n with
  | zero =>
    intro l hl first quoted value pos err
    have : l = [] := List.length_eq_zero.mp (Nat.le_zero.mp hl)
    subst this
    rw [valueLoop_nil]
    cases quoted
    · exact LineLog.log_refl _
    · exact LineLog.log_one _ _ _ _ (by decide)
  | succ n ih =>
    intro l hl first quoted value pos err
    match l, hl with
    | [], _ =>
      rw [valueLoop_nil]
      cases quoted
      · exact LineLog.log_refl _
      · exact LineLog.log_one _ _ _ _ (by decide)
    | c :: rest, hl =>
      have hrest : rest.length ≤ n := by simpa using hl
      by_cases h1 : c = '\\'
      · subst h1
        match rest, hrest with
        | [], _ =>
          rw [valueLoop_escape_eol]
          exact (LineLog.log_one _ _ _ _ (by decide)).log_trans (ih [] (by simp) _ _ _ _ _)
        | d :: rest2, hrest =>
          rw [valueLoop_escape]
          exact (escapeSwitch_log _ _ _ _ _).log_trans
            (ih rest2 (by simp at hrest; omega) _ _ _ _ _)
      · by_cases h2 : c = '"'
        · subst h2
          cases first
          · cases quoted
            · rw [valueLoop_quote_literal]; exact ih rest hrest _ _ _ _ _
            · rw [valueLoop_quote_close]; exact afterQuote_log _ _ _ _
          · rw [valueLoop_quote_first]; exact ih rest hrest _ _ _ _ _
        · rw [valueLoop_char c rest first quoted value pos err h1 h2]
          exact ih rest hrest _ _ _ _ _

theorem parseValueLine_log (line : Str) (pos : Position_t) (err : Error_t) :
    LineLog err (parseValueLine line pos err).err := by
  rw [parseValueLine_eq]
  exact valueLoop_log_aux _ _ (Nat.le_refl _) _ _ _ _ _

theorem parseIdentLine_log (line name value : Str) (pos : Position_t) (err : Error_t) :
    LineLog err (parseIdentLine line name value pos err).err := by
  cases h : identEarlyExit line
  · rw [parseIdentLine_late _ _ _ _ _ h]
    exact parseValueLine_log _ _ _
  · rw [parseIdentLine_early _ _ _ _ _ h]
    exact LineLog.log_one _ _ _ _ (by decide)

/-! ## The line parsers stay on their line -/

theorem SameLine.line_refl (p : Position_t) : SameLine p p := ⟨rfl, rfl⟩

theorem SameLine.line_trans {a b c : Position_t} (h1 : SameLine a b) (h2 : SameLine b c) :
    SameLine a c := ⟨h2.1.trans h1.1, h2.2.trans h1.2⟩

theorem SameLine.of_advanceColumn (p : Position_t) (n : Nat) : SameLine p (p.advanceColumn n) :=
  ⟨rfl, rfl⟩

theorem SameLine.of_advanceToTab (p : Position_t) : SameLine p p.advanceToTab := ⟨rfl, rfl⟩

theorem SameLine.of_advance (p : Position_t) (c : Char) :
    SameLine p (if c = '\t' then p.advanceToTab else p.advanceColumn) := by
  split
  · exact SameLine.of_advanceToTab p
  · exact SameLine.of_advanceColumn p 1

theorem skipSpaces_pos (l : Str) (pos : Position_t) : SameLine pos (skipSpaces l pos).2 := by
  induction l generalizing pos with
  | nil => exact SameLine.line_refl _
  | cons c rest ih =>
    by_cases h : isspace c
    · simp only [skipSpaces, h, if_true]
      exact (SameLine.of_advance pos c).line_trans (ih _)
    · simp only [skipSpaces, h, Bool.false_eq_true, if_false]
      exact SameLine.line_refl _

theorem escapeSwitch_pos (c d : Char) (value : Str) (pos : Position_t) (err : Error_t) :
    SameLine pos (escapeSwitch c d value pos err).2.1 := by
  unfold escapeSwitch
  split_ifs
  · exact SameLine.line_refl _
  · exact SameLine.line_refl _
  · exact SameLine.line_refl _
  · exact SameLine.line_refl _
  · exact SameLine.line_refl _
  · exact SameLine.line_refl _
  · exact SameLine.of_advanceColumn _ 1
  · exact SameLine.line_refl _

theorem afterQuote_pos (l value : Str) (pos : Position_t) (err : Error_t) :
    SameLine pos (afterQuote l value pos err).pos := by
  induction l generalizing pos with
  | nil => exact SameLine.line_refl _
  | cons c rest ih =>
    by_cases h : isspace c
    · simp only [afterQuote, h, Bool.not_true, Bool.false_eq_true, if_false]
      exact (SameLine.of_advance pos c).line_trans (ih _)
    · simp only [afterQuote, h, Bool.not_false, if_true]
      exact SameLine.line_refl _

theorem valueLoop_pos_aux (n : Nat) :
    ∀ (l : Str), l.length ≤ n → ∀ (first quoted : Bool) (value : Str) (pos : Position_t)
      (err : Error_t), SameLine pos (valueLoop l first quoted value pos err).pos := by
  induction n with
  | zero =>
    intro l hl first quoted value pos err
    have : l = [] := List.length_eq_zero.mp (Nat.le_zero.mp hl)
    subst this
    rw [valueLoop_nil]
    cases quoted <;> exact SameLine.line_refl _
  | succ n ih =>
    intro l hl first quoted value pos err
    match l, hl with
    | [], _ =>
      rw [valueLoop_nil]
      cases quoted <;> exact SameLine.line_refl _
    | c :: rest, hl =>
      have hrest : rest.length ≤ n := by simpa using hl
      by_cases h1 : c = '\\'
      · subst h1
        match rest, hrest with
        | [], _ =>
          rw [valueLoop_escape_eol]
          exact (SameLine.of_advanceColumn _ 1).line_trans (ih [] (by simp) _ _ _ _ _)
        | d :: rest2, hrest =>
          rw [valueLoop_escape]
          exact ((escapeSwitch_pos _ _ _ _ _).line_trans (SameLine.of_advanceColumn _ 1)).line_trans
            (ih rest2 (by simp at hrest; omega) _ _ _ _ _)
      · by_cases h2 : c = '"'
        · subst h2
          cases first
          · cases quoted
            · rw [valueLoop_quote_literal]; exact ih rest hrest _ _ _ _ _
            · rw [valueLoop_quote_close]
              exact (SameLine.of_advanceColumn _ 1).line_trans (afterQuote_pos _ _ _ _)
          · rw [valueLoop_quote_first]
            exact (SameLine.of_advanceColumn _ 1).line_trans (ih rest hrest _ _ _ _ _)
        · rw [valueLoop_char c rest first quoted value pos err h1 h2]
          exact (SameLine.of_advance pos c).line_trans (ih rest hrest _ _ _ _ _)

theorem parseValueLine_pos (line : Str) (pos : Position_t) (err : Error_t) :
    SameLine pos (parseValueLine line pos err).pos := by
  rw [parseValueLine_eq]
  exact (skipSpaces_pos line pos).line_trans (valueLoop_pos_aux _ _ (Nat.le_refl _) _ _ _ _ _)

theorem parseIdentLine_pos (line name value : Str) (pos : Position_t) (err : Error_t) :
    SameLine pos (parseIdentLine line name value pos err).pos := by
  cases h : identEarlyExit line
  · rw [parseIdentLine_late _ _ _ _ _ h]
    exact (SameLine.of_advanceColumn _ _).line_trans (parseValueLine_pos _ _ _)
  · rw [parseIdentLine_early _ _ _ _ _ h]
    exact SameLine.of_advanceColumn _ _

theorem SameLine.newLine_eq {p q : Position_t} (h : SameLine p q) : q.newLine = p.newLine := by
  obtain ⟨h1, h2⟩ := h
  simp [Position_t.newLine, h1, h2]

/-! ## Include directives -/

theorem findStr_includeLine (n : Str) : findStr (includeLine n) "%include".toList = some 0 := by
  simp [findStr, includeLine, findStrFrom, List.isPrefixOf]

theorem includeLine_not_mem (n : Str) (h : GoodName n) : '\n' ∉ includeLine n := by
  intro hm
  simp only [includeLine, List.mem_append] at hm
  rcases hm with hm | hm
  · revert hm; decide
  · have := h.2 _ hm
    revert this; decide

theorem dropWhile_goodName (n : Str) (h : GoodName n) : n.dropWhile isspace = n := by
  obtain ⟨hne, hsp⟩ := h
  match n, hne with
  | c :: rest, _ => simp [List.dropWhile, hsp c (by simp)]

theorem chomp_eq_self_of_last (l : Str) (h : l.getLast? ≠ some '\r') : chomp l = l := by
  simp [chomp, h]

theorem getLast_goodName (n : Str) (h : GoodName n) :
    ∃ c, n.getLast? = some c ∧ isspace c = false := by
  obtain ⟨hne, hsp⟩ := h
  refine ⟨n.getLast hne, List.getLast?_eq_getLast _ hne, hsp _ (List.getLast_mem hne)⟩

theorem chomp_includeLine (n : Str) (h : GoodName n) : chomp (includeLine n) = includeLine n := by
  apply chomp_eq_self_of_last
  obtain ⟨c, hc, hsp⟩ := getLast_goodName n h
  have : (includeLine n).getLast? = some c := by
    unfold includeLine
    rw [List.getLast?_append, hc]; rfl
  rw [this]
  intro he
  have := Option.some.inj he
  subst this
  revert hsp; decide

theorem reverse_dropWhile_goodName (n : Str) (h : GoodName n) :
    (n.reverse.dropWhile isspace).reverse = n := by
  have h2 : GoodName n.reverse := ⟨by simpa using h.1, fun c hc => h.2 c (by simpa using hc)⟩
  rw [dropWhile_goodName _ h2, List.reverse_reverse]

theorem processDirective_include_zero (inc : IncludeFn) (n : Str)
    (pos : Position_t) (d : Dictionary_t) (hl : d.level = 0) :
    processDirective inc (includeLine n) pos d =
      some (-1, pos, { d with err := logError d.err .LL_ERROR pos "Too many includes" }) := by
  unfold processDirective
  rw [findStr_includeLine]
  simp only [if_true, hl]

theorem processDirective_include_succ (inc : IncludeFn) (n : Str) (h : GoodName n)
    (pos : Position_t) (d d1 : Dictionary_t) (ret : Int) (hl : d.level ≠ 0)
    (hinc : inc n ((pos.advanceColumn 8).advanceColumn 1) { d with level := d.level - 1 } =
      some (ret, d1)) :
    processDirective inc (includeLine n) pos d =
      some (ret, (pos.advanceColumn 8).advanceColumn 1, { d1 with level := d1.level + 1 }) := by
  unfold processDirective
  rw [findStr_includeLine]
  simp only [if_true, hl, if_false]
  have hdrop : (includeLine n).drop 8 = ' ' :: n := by simp [includeLine]
  rw [hdrop]
  have hsp : isspace ' ' = true := by decide
  have hdw : (' ' :: n).dropWhile isspace = n := by
    simp only [List.dropWhile, hsp]; exact dropWhile_goodName n h
  simp only [hsp, Bool.not_true, Bool.false_eq_true, if_false, hdw,
    reverse_dropWhile_goodName n h, h.1, List.length_cons]
  have : n.length + 1 - n.length = 1 := by omega
  rw [this, hinc]

theorem classify_directive (inc : IncludeFn) (rest : Str) (s : LoopState) (r : Int)
    (pos1 : Position_t) (d2 : Dictionary_t)
    (h : processDirective inc ('%' :: rest) s.pos s.commit = some (r, pos1, d2)) :
    classify inc ('%' :: rest) s =
      some { s with currentValid := false, pos := pos1, d := d2 } := by
  have h2 : processDirective inc ('%' :: rest) s.pos
      (if s.currentValid = true then s.d.add s.currentName s.currentValue else s.d) =
      some (r, pos1, d2) := h
  simp [classify, h2]

/-! ## A file of an include chain -/

theorem classify_wellFormed_full (inc : IncludeFn) (l : Str) (s : LoopState)
    (h : WellFormedIdentLine l) :
    ∃ p e, SameLine s.pos p ∧ LineLog s.commit.err e ∧ classify inc l s =
      some { currentName := identName l, currentValue := identValue l, currentValid := true,
             ret := s.ret, pos := p, d := { s.commit with err := e } } := by
  obtain ⟨hs, hr⟩ := h
  match l, hs with
  | c :: rest, hs =>
    have hc : isIdentStart c = true := by simpa using hs
    refine ⟨(parseIdentLine (c :: rest) s.currentName s.currentValue s.pos s.commit.err).pos,
      (parseIdentLine (c :: rest) s.currentName s.currentValue s.pos s.commit.err).err,
      parseIdentLine_pos _ _ _ _ _, parseIdentLine_log _ _ _ _ _, ?_⟩
    rw [classify_ident inc c rest s hc, (parseIdentLine_ok _ _ _ _ _ hr).1,
      (parseIdentLine_ok _ _ _ _ _ hr).2]
    simp [hr]

theorem includeLine_eq_cons (n : Str) : includeLine n = '%' :: ("include ".toList ++ n) := rfl

theorem _parseString_chainFile (inc : IncludeFn) (e n : Str) (pos : Position_t)
    (d : Dictionary_t) (he : '\n' ∉ e) (hw : WellFormedIdentLine (chomp e)) (hn : GoodName n)
    (r : Int) (p2 : Position_t) (d2 : Dictionary_t)
    (hpd : processDirective inc (includeLine n) pos.newLine
      { d with err := (parseIdentLine (chomp e) [] [] pos d.err).err,
               dict := d.dict.insert (identName (chomp e)) (identValue (chomp e)) } =
      some (r, p2, d2)) :
    _parseString inc (chainFile e n) pos d = some (0, p2.newLine, d2) := by
  obtain ⟨hs, hr⟩ := hw
  obtain ⟨c, rest, hcr⟩ : ∃ c rest, chomp e = c :: rest := by
    cases hce : chomp e with
    | nil => rw [hce] at hs; simp at hs
    | cons c rest => exact ⟨c, rest, rfl⟩
  have hc : isIdentStart c = true := by rw [hcr] at hs; simpa using hs
  have hcl : classify inc (chomp e) (LoopState.init pos d) =
      some (⟨identName (chomp e), identValue (chomp e), true, 0,
        (parseIdentLine (chomp e) [] [] pos d.err).pos,
        { d with err := (parseIdentLine (chomp e) [] [] pos d.err).err }⟩ : LoopState) := by
    have h1 := classify_ident inc c rest (LoopState.init pos d) hc
    rw [← hcr] at h1
    rw [h1, (parseIdentLine_ok _ _ _ _ _ hr).1, (parseIdentLine_ok _ _ _ _ _ hr).2]
    simp only [hr, decide_True]
    rfl
  have hp : SameLine pos (parseIdentLine (chomp e) [] [] pos d.err).pos :=
    parseIdentLine_pos _ _ _ _ _
  generalize (parseIdentLine (chomp e) [] [] pos d.err).pos = p at hcl hp
  generalize (parseIdentLine (chomp e) [] [] pos d.err).err = e1 at hcl hpd
  have h := _parseString_eq_runLines inc [e, includeLine n] []
    (fun l hl => by
      simp only [List.mem_cons, List.mem_singleton, List.not_mem_nil, or_false] at hl
      rcases hl with rfl | rfl
      · exact he
      · exact includeLine_not_mem n hn) (by simp) pos d
  rw [List.append_nil] at h
  unfold chainFile
  rw [h]
  have hnl : p.newLine = pos.newLine := SameLine.newLine_eq hp
  have hcl2 : classify inc (includeLine n)
      (⟨identName (chomp e), identValue (chomp e), true, 0, pos.newLine,
        { d with err := e1 }⟩ : LoopState) =
      some (⟨identName (chomp e), identValue (chomp e), false, 0, p2, d2⟩ : LoopState) := by
    rw [includeLine_eq_cons]
    rw [classify_directive inc _ _ r p2 d2 (by rw [← includeLine_eq_cons]; exact hpd)]
  simp only [runLines, hcl, chomp_includeLine n hn, hnl]
  simp only [hcl2, Option.some_bind, lastLine, classify_empty, Option.map_some',
    endOfInput, ne_eq, not_true_eq_false, if_false]
  rfl

/-! ## A chain of includes -/

theorem _parse_content (fs : FileSystem) (fuel : Nat) (filename : Str) (pos : Position_t)
    (d d2 : Dictionary_t) (data : Str) (status : Int) (p : Position_t)
    (hfs : fs (resolvePath d.root filename) = File_t.content data)
    (h : _parseString (fun f p x => _parse fs fuel f p x) data
      (Position_t.mk1 (resolvePath d.root filename))
      { d with sources := addSource d.sources (resolvePath d.root filename) } =
      some (status, p, d2)) :
    _parse fs (fuel + 1) filename pos d = some (status, d2) := by
  unfold _parse
  simp only [hfs, h]

theorem chainTable_cons (t : Table_t) (f : Str × Str) (files : List (Str × Str)) :
    chainTable t (f :: files) =
      chainTable (t.insert (identName (chomp f.2)) (identValue (chomp f.2))) files := rfl

theorem _parse_chain (last : Str) :
    ∀ (files : List (Str × Str)) (nm e : Str) (pos : Position_t) (d : Dictionary_t),
      ∃ E : Error_t, (∀ x ∈ E, x.message ∈ lineMessages) ∧
        ∀ fs : FileSystem, IncludeChain fs d.root last ((nm, e) :: files) →
          d.level = files.length →
          _parse fs (files.length + 1) nm pos d =
            some (0, { d with
              sources := d.sources ++ ((nm, e) :: files).map (fun f => resolvePath d.root f.1),
              err := d.err ++ E ++
                [⟨.LL_ERROR, ⟨resolvePath d.root (files.getLastD (nm, e)).1, 2, 1⟩,
                  "Too many includes", false⟩],
              dict := chainTable d.dict ((nm, e) :: files) }) := by
  intro files
  induction files with
  | nil =>
    intro nm e pos d
    obtain ⟨E, hE, hmsg⟩ := parseIdentLine_log (chomp e) [] []
      (Position_t.mk1 (resolvePath d.root nm)) d.err
    refine ⟨E, hmsg, fun fs hchain hlevel => ?_⟩
    obtain ⟨hfs, he, hw, hn, _⟩ := hchain
    have hpd := processDirective_include_zero (fun f p x => _parse fs 0 f p x) last
      (Position_t.mk1 (resolvePath d.root nm)).newLine
      { d with sources := addSource d.sources (resolvePath d.root nm),
               err := (parseIdentLine (chomp e) [] []
                 (Position_t.mk1 (resolvePath d.root nm)) d.err).err,
               dict := d.dict.insert (identName (chomp e)) (identValue (chomp e)) } hlevel
    have h2 := _parseString_chainFile (fun f p x => _parse fs 0 f p x) e last
      (Position_t.mk1 (resolvePath d.root nm))
      { d with sources := addSource d.sources (resolvePath d.root nm) } he hw hn _ _ _ hpd
    have hlen : ([] : List (Str × Str)).length + 1 = 0 + 1 := rfl
    rw [hlen, _parse_content fs 0 nm pos d _ _ _ _ hfs h2]
    simp only [hE, logError, addSource, chainTable_cons, List.map_cons, List.map_nil,
      List.getLastD_nil, List.length_nil]
    rfl
  | cons f2 rest ih =>
    intro nm e pos d
    obtain ⟨nm2, e2⟩ := f2
    obtain ⟨E, hE, hmsg⟩ := parseIdentLine_log (chomp e) [] []
      (Position_t.mk1 (resolvePath d.root nm)) d.err
    obtain ⟨E2, hmsg2, hih⟩ := ih nm2 e2
      (((Position_t.mk1 (resolvePath d.root nm)).newLine.advanceColumn 8).advanceColumn 1)
      { d with sources := addSource d.sources (resolvePath d.root nm),
               err := (parseIdentLine (chomp e) [] []
                 (Position_t.mk1 (resolvePath d.root nm)) d.err).err,
               dict := d.dict.insert (identName (chomp e)) (identValue (chomp e)),
               level := d.level - 1 }
    refine ⟨E ++ E2, fun x hx => ?_, fun fs hchain hlevel => ?_⟩
    · rcases List.mem_append.mp hx with h | h
      · exact hmsg x h
      · exact hmsg2 x h
    · obtain ⟨hfs, he, hw, hn, hrest⟩ := hchain
      simp only [nextName] at hfs hn
      have hih2 := hih fs hrest (by simp only [hlevel, List.length_cons]; omega)
      have hpd := processDirective_include_succ
        (fun f p x => _parse fs (rest.length + 1) f p x)
        nm2 hn (Position_t.mk1 (resolvePath d.root nm)).newLine
        { d with sources := addSource d.sources (resolvePath d.root nm),
                 err := (parseIdentLine (chomp e) [] []
                   (Position_t.mk1 (resolvePath d.root nm)) d.err).err,
                 dict := d.dict.insert (identName (chomp e)) (identValue (chomp e)) } _ 0
        (by simp only [hlevel, List.length_cons]; omega) hih2
      have h2 := _parseString_chainFile (fun f p x => _parse fs (rest.length + 1) f p x) e nm2
        (Position_t.mk1 (resolvePath d.root nm))
        { d with sources := addSource d.sources (resolvePath d.root nm) } he hw hn _ _ _ hpd
      have hlen : ((nm2, e2) :: rest).length + 1 = (rest.length + 1) + 1 := rfl
      rw [hlen, _parse_content fs (rest.length + 1) nm pos d _ _ _ _ hfs h2]
      simp only [hE, addSource, chainTable_cons, List.map_cons, List.getLastD_cons,
        List.append_assoc, List.singleton_append, List.cons_append, List.nil_append,
        Option.some.injEq, Prod.mk.injEq, true_and, Dictionary_t.mk.injEq, and_true]
      simp only [hlevel, List.length_cons]
      omega

theorem find_insert_isSome (t : Table_t) (n v k : Str) (h : (t.find k).isSome = true) :
    ((t.insert n v).find k).isSome = true := by
  rw [Table_t.find_insert]
  cases hf : t.find k with
  | none => rw [hf] at h; simp at h
  | some w => rfl

theorem find_insert_self_isSome (t : Table_t) (n v : Str) :
    ((t.insert n v).find n).isSome = true := by
  rw [Table_t.find_insert]
  cases hf : t.find n <;> simp

theorem chainTable_mono (files : List (Str × Str)) :
    ∀ (t : Table_t) (k : Str), (t.find k).isSome = true →
      ((chainTable t files).find k).isSome = true := by
  induction files with
  | nil => intro t k h; exact h
  | cons f files ih =>
    intro t k h
    rw [chainTable_cons]
    exact ih _ k (find_insert_isSome t _ _ k h)

theorem chainTable_mem (files : List (Str × Str)) :
    ∀ (t : Table_t), ∀ f ∈ files,
      ((chainTable t files).find (identName (chomp f.2))).isSome = true := by
  induction files with
  | nil => intro t f hf; simp at hf
  | cons g files ih =>
    intro t f hf
    rw [chainTable_cons]
    rcases List.mem_cons.mp hf with rfl | hf
    · exact chainTable_mono files _ _ (find_insert_self_isSome t _ _)
    · exact ih _ f hf

theorem IncludeChain_congr (fs fs1 : FileSystem) (root last : Str) :
    ∀ (files : List (Str × Str)),
      (∀ f ∈ files, fs1 (resolvePath root f.1) = fs (resolvePath root f.1)) →
      IncludeChain fs root last files → IncludeChain fs1 root last files := by
  intro files
  induction files with
  | nil => intro _ _; trivial
  | cons f files ih =>
    intro hagree hchain
    obtain ⟨nm, e⟩ := f
    obtain ⟨hfs, he, hw, hn, hrest⟩ := hchain
    exact ⟨by rw [hagree (nm, e) (by simp)]; exact hfs, he, hw, hn,
      ih (fun g hg => hagree g (by simp [hg])) hrest⟩

/-- C9: a chain of files `f0`, ..., `f10` (the pair `(nm, e)` and the ten
pairs of `files`, each a file name and an entry line), every one holding its
entry definition followed by the include of the next file and `f10`
including `last` (the file `f11`): `parse(f0)` returns, the only
"Too many includes" record of the log is its last record, logged on line 2
of `f10` (its include directive), the files handed to `fopen` are exactly
`f0`, ..., `f10`, the result is the same in every file system that agrees on
these eleven paths, and the entries of all eleven files are in the store. -/
theorem C9_include_depth (fs : FileSystem) (last nm e : Str) (files : List (Str × Str))
    (d : Dictionary_t) (hlen : files.length = MAX_RECURSION_LEVEL)
    (hchain : IncludeChain fs d.root last ((nm, e) :: files)) :
    ∃ d1 E, parse fs (MAX_RECURSION_LEVEL + 1) nm d = some (0, d1) ∧
      d1.err = d.err ++ E ++
        [⟨.LL_ERROR, ⟨resolvePath d.root (files.getLastD (nm, e)).1, 2, 1⟩,
          "Too many includes", false⟩] ∧
      (∀ x ∈ E, x.message ≠ "Too many includes") ∧
      d1.sources = d.sources ++ ((nm, e) :: files).map (fun f => resolvePath d.root f.1) ∧
      (∀ fs1 : FileSystem,
        (∀ f ∈ (nm, e) :: files, fs1 (resolvePath d.root f.1) = fs (resolvePath d.root f.1)) →
        parse fs1 (MAX_RECURSION_LEVEL + 1) nm d = some (0, d1)) ∧
      d1.dict = chainTable d.dict ((nm, e) :: files) ∧
      ∀ f ∈ (nm, e) :: files, (d1.lookup (identName (chomp f.2))).isSome = true := by
  obtain ⟨E, hmsg, h⟩ := _parse_chain last files nm e (Position_t.mk1 nm)
    { d with level := MAX_RECURSION_LEVEL }
  have h0 := h fs hchain hlen.symm
  rw [hlen] at h0
  refine ⟨_, E, h0, rfl, fun x hx hm => ?_, rfl, fun fs1 hagree => ?_, rfl, fun f hf => ?_⟩
  · have := hmsg x hx
    rw [hm] at this
    revert this; decide
  · have h1 := h fs1 (IncludeChain_congr fs fs1 d.root last _ hagree hchain) hlen.symm
    rw [hlen] at h1
    exact h1
  · exact chainTable_mem _ _ f hf

/-- C9 at work: the chain `f0`, `f1`, ..., `f10` with `f10` including `f11`,
in a file system without `f11`. -/
theorem C9_include_depth_witness :
    ∃ d1 E, parse (chainFs "f11".toList (("f0".toList, "k0 v0".toList) :: sampleChain))
        (MAX_RECURSION_LEVEL + 1) "f0".toList Dictionary_t.new = some (0, d1) ∧
      d1.err = E ++ [⟨.LL_ERROR, ⟨"f10".toList, 2, 1⟩, "Too many includes", false⟩] ∧
      d1.lookup "k0".toList = some "v0".toList ∧
      d1.lookup "k10".toList = some "v10".toList ∧
      "f11".toList ∉ d1.sources := by
  obtain ⟨d1, E, h, herr, _, hsrc, _, hdict, _⟩ := C9_include_depth
    (chainFs "f11".toList (("f0".toList, "k0 v0".toList) :: sampleChain))
    "f11".toList "f0".toList "k0 v0".toList sampleChain Dictionary_t.new (by decide) (by decide)
  refine ⟨d1, E, h, ?_, ?_, ?_, ?_⟩
  · rw [herr]; rfl
  · unfold Dictionary_t.lookup; rw [hdict]; decide
  · unfold Dictionary_t.lookup; rw [hdict]; decide
  · rw [hsrc]; decide

/-- C11: the path that `_parse` registers with the source list and opens is
`root ++ "/" ++ filename` when the file name is not empty, does not start
with `/` and the root is not empty, and the file name unchanged otherwise (so
an absolute path is never prefixed); `%include sub.dict` under the root `/r`
opens `/r/sub.dict`, and `%include /abs/x.dict` opens `/abs/x.dict`. -/
theorem C11_path_resolution (fs : FileSystem) (fuel : Nat) (filename : Str)
    (pos : Position_t) (d : Dictionary_t) :
    (filename ≠ [] ∧ filename.head? ≠ some '/' ∧ d.root ≠ [] →
      resolvePath d.root filename = d.root ++ ['/'] ++ filename) ∧
    (¬ (filename ≠ [] ∧ filename.head? ≠ some '/' ∧ d.root ≠ []) →
      resolvePath d.root filename = filename) ∧
    (filename.head? = some '/' → resolvePath d.root filename = filename) ∧
    (fs (resolvePath d.root filename) = File_t.cannotOpen →
      _parse fs (fuel + 1) filename pos d =
        some (-1, { d with
          sources := d.sources ++ [resolvePath d.root filename],
          err := d.err ++ [⟨.LL_ERROR, pos,
            "Cannot open file \x27" ++ String.mk (resolvePath d.root filename) ++ "\x27",
            true⟩] })) ∧
    (∀ data, fs (resolvePath d.root filename) = File_t.content data →
      _parse fs (fuel + 1) filename pos d =
        (_parseString (fun f p x => _parse fs fuel f p x) data
          (Position_t.mk1 (resolvePath d.root filename))
          { d with sources := d.sources ++ [resolvePath d.root filename] }).map
          (fun r => (r.1, r.2.2))) ∧
    ((parse includingFs 11 "main".toList (Dictionary_t.new "/r".toList)).map
        (fun r => r.2.sources) =
      some ["/r/main".toList, "/r/sub.dict".toList, "/abs/x.dict".toList]) := by
  refine ⟨fun h => ?_, fun h => ?_, fun h => ?_, fun h => ?_, fun data h => ?_, by decide⟩
  · simp [resolvePath, h]
  · simp only [resolvePath, if_neg h]
  · simp [resolvePath, h]
  · rw [_parse]
    simp only [h, addSource, logSyscallError]
  · cases heq : _parseString (fun f p x => _parse fs fuel f p x) data
      (Position_t.mk1 (resolvePath d.root filename))
      { d with sources := d.sources ++ [resolvePath d.root filename] } with
    | none => rw [_parse]; simp only [h, addSource, heq, Option.map_none']
    | some r => rw [_parse]; simp only [h, addSource, heq, Option.map_some']

/-- C11 at work: `sub.dict` under the root `/r`. -/
theorem C11_path_resolution_witness :
    resolvePath "/r".toList "sub.dict".toList = "/r/sub.dict".toList :=
  (C11_path_resolution includingFs 0 "sub.dict".toList (Position_t.mk1 [])
    (Dictionary_t.new "/r".toList)).1 (by decide)

/-- C13, the include that cannot be opened: `F` holds `%include G` and `G`
does not exist.  The nested `_parse` returns -1 and `processDirective` hands
that status back, but `_parseString` calls `processDirective` without looking
at what it returns: `parse(F)` returns 0 with "Cannot open file 'G'" in the
log, and so does `parse(E)` for a file `E` that includes `F`. -/
theorem C13_open_failure_status_dropped :
    (_parse danglingFs 10 ['G'] (Position_t.mk1 ['F'])
        { Dictionary_t.new with level := 9 }).map (fun r => r.1) = some (-1) ∧
    (processDirective (fun f p x => _parse danglingFs 10 f p x) "%include G".toList
        (Position_t.mk1 ['F']) { Dictionary_t.new with level := 10 }).map (fun r => r.1) =
      some (-1) ∧
    (parse danglingFs 11 ['F'] Dictionary_t.new).map
        (fun r => (r.1, r.2.err.map (fun e => e.message))) =
      some (0, ["Cannot open file \x27G\x27"]) ∧
    (parse danglingFs2 11 ['E'] Dictionary_t.new).map
        (fun r => (r.1, r.2.err.map (fun e => e.message))) =
      some (0, ["Cannot open file \x27G\x27"]) := by
  refine ⟨by decide, by decide, by decide, by decide⟩

/-- C14 as stated fails: `getLine` looks at the character before the line
feed even when that character lies before `begin`; for the buffer CR, LF and
`begin = 1` the count `nl - begin - 1` wraps around and the line handed out
is the line feed itself, a line that contains the line feed; for `a`, CR, LF,
`b` and `begin = 2` it is the line feed followed by `b`.  Both offsets lie
between a carriage return and its line feed. -/
theorem C14_getLine_cr_before_begin :
    1 ≤ ['\r', '\n'].length ∧
    getLine ['\r', '\n'] 1 = (['\n'], some 1) ∧
    2 ≤ ['a', '\r', '\n', 'b'].length ∧
    getLine ['a', '\r', '\n', 'b'] 2 = (['\n', 'b'], some 2) ∧
    '\n' ∈ (getLine ['\r', '\n'] 1).1 ∧
    splitsCrLf ['\r', '\n'] 1 ∧ splitsCrLf ['a', '\r', '\n', 'b'] 2 := by
  refine ⟨by decide, by decide, by decide, by decide, by decide, by decide, by decide⟩

/-! ## getLine at any offset outside a CR LF pair -/

theorem get?_append_length (pre suf : Str) : (pre ++ suf).get? pre.length = suf.head? := by
  rw [List.get?_eq_getElem?, List.getElem?_append_right (Nat.le_refl _), Nat.sub_self]
  cases suf <;> simp

theorem get?_append_pred (pre suf : Str) (h : pre ≠ []) :
    (pre ++ suf).get? (pre.length - 1) = pre.getLast? := by
  have hpos : 0 < pre.length := List.length_pos.mpr h
  rw [List.get?_eq_getElem?, List.getElem?_append_left (by omega), List.getLast?_eq_getElem?]

theorem split_at_lf (l : Str) :
    ∃ seg : Str, '\n' ∉ seg ∧ (l = seg ∨ ∃ rest, l = seg ++ '\n' :: rest) := by
  induction l with
  | nil => exact ⟨[], by simp, Or.inl rfl⟩
  | cons c l ih =>
    by_cases hc : c = '\n'
    · subst hc
      exact ⟨[], by simp, Or.inr ⟨l, rfl⟩⟩
    · obtain ⟨seg, hseg, h⟩ := ih
      refine ⟨c :: seg, ?_, ?_⟩
      · intro hm
        rcases List.mem_cons.mp hm with e | e
        · exact hc e.symm
        · exact hseg e
      · rcases h with h | ⟨rest, h⟩
        · exact Or.inl (by rw [h])
        · exact Or.inr ⟨rest, by rw [h]; rfl⟩

theorem not_mem_chomp (l : Str) (h : '\n' ∉ l) : '\n' ∉ chomp l := by
  unfold chomp
  split_ifs
  · exact fun e => h (List.dropLast_subset l e)
  · exact h

theorem getLine_seg (pre l rest : Str) (hl : '\n' ∉ l)
    (hpre : l = [] → pre.getLast? ≠ some '\r') :
    getLine (pre ++ l ++ '\n' :: rest) pre.length = (chomp l, some (pre.length + l.length)) := by
  have hfind : find (pre ++ l ++ '\n' :: rest) '\n' pre.length = some (pre.length + l.length) := by
    rw [List.append_assoc, find_append_left, findFrom_append_of_not_mem _ _ _ _ hl]
  unfold getLine
  rw [hfind]
  simp only
  have hget : (pre ++ l ++ '\n' :: rest).get? (pre.length + l.length - 1) = (pre ++ l).getLast? ∨
      pre.length + l.length = 0 := by
    by_cases h0 : pre.length + l.length = 0
    · exact Or.inr h0
    · left
      rw [List.get?_eq_getElem?, List.getElem?_append_left (by simp; omega),
        List.getLast?_eq_getElem?]
      simp
  have hdrop : (pre ++ l ++ '\n' :: rest).drop pre.length = l ++ '\n' :: rest := by
    rw [List.append_assoc, List.drop_left]
  rcases List.eq_nil_or_concat l with hnil | ⟨l0, x, hx⟩
  · have hpre2 := hpre hnil
    subst hnil
    have hcond : ¬ (0 < pre.length + 0 ∧ (pre ++ [] ++ '\n' :: rest).get? (pre.length + 0 - 1) = some '\r') := by
      rintro ⟨hpos, hg⟩
      rcases hget with hget | h0
      · simp only [List.length_nil] at hget
        rw [hget] at hg
        simp at hg
        exact hpre2 hg
      · omega
    simp only [List.length_nil] at hcond ⊢
    rw [if_neg hcond]
    simp [substr, sizeSub, chomp]
  · rw [List.concat_eq_append] at hx
    subst hx
    have hlast : (pre ++ (l0 ++ [x])).getLast? = some x := by
      rw [← List.append_assoc]; simp
    have hg : (pre ++ (l0 ++ [x]) ++ '\n' :: rest).get? (pre.length + (l0 ++ [x]).length - 1) = some x := by
      rcases hget with hget | h0
      · rw [hget, hlast]
      · simp at h0
    rw [hg]
    by_cases hxr : x = '\r'
    · subst hxr
      have : 0 < pre.length + (l0 ++ ['\r']).length := by simp
      simp only [this, true_and, if_true]
      simp only [substr, hdrop]
      have h1 : sizeSub (sizeSub (pre.length + (l0 ++ ['\r']).length) pre.length) 1 = l0.length := by
        have h2 : sizeSub (pre.length + (l0 ++ ['\r']).length) pre.length = l0.length + 1 := by
          rw [sizeSub_of_le (by omega)]; simp
        rw [h2, sizeSub_of_le (by omega)]
        simp
      rw [h1]
      simp [chomp]
    · have : ¬ (0 < pre.length + (l0 ++ [x]).length ∧ some x = some '\r') := by
        rintro ⟨_, h⟩; exact hxr (Option.some.inj h)
      rw [if_neg this]
      simp only [substr, hdrop]
      have h1 : sizeSub (pre.length + (l0 ++ [x]).length) pre.length = (l0 ++ [x]).length := by
        rw [sizeSub_of_le (by omega)]; omega
      rw [h1]
      have hc : chomp (l0 ++ [x]) = l0 ++ [x] := by
        simp [chomp, hxr]
      rw [hc, List.take_left' rfl]

theorem getLine_contract (pre suf : Str) (hs : ¬ splitsCrLf (pre ++ suf) pre.length) :
    (∃ seg : Str, '\n' ∉ seg ∧
      (((pre ++ suf).drop pre.length = seg ∧ getLine (pre ++ suf) pre.length = (seg, none)) ∨
       (∃ rest, (pre ++ suf).drop pre.length = seg ++ '\n' :: rest ∧
          getLine (pre ++ suf) pre.length = (chomp seg, some (pre.length + seg.length))))) ∧
    '\n' ∉ (getLine (pre ++ suf) pre.length).1 ∧
    (∀ m, (getLine (pre ++ suf) pre.length).2 = some m →
      m + 1 ≤ (pre ++ suf).length ∧ ¬ splitsCrLf (pre ++ suf) (m + 1)) := by
  obtain ⟨seg, hseg, h | ⟨rest, h⟩⟩ := split_at_lf suf
  · subst h
    have hg := getLine_last pre suf hseg
    refine ⟨⟨suf, hseg, Or.inl ⟨List.drop_left _ _, hg⟩⟩, ?_, ?_⟩
    · rw [hg]; exact hseg
    · intro m hm
      rw [hg] at hm
      exact absurd hm (by simp)
  · subst h
    have hcond : seg = [] → pre.getLast? ≠ some '\r' := by
      intro hnil hlast
      subst hnil
      have hne : pre ≠ [] := by
        intro e; subst e; simp at hlast
      apply hs
      refine ⟨List.length_pos.mpr hne, ?_, ?_⟩
      · rw [get?_append_pred pre _ hne]; exact hlast
      · rw [get?_append_length]; rfl
    have hg : getLine (pre ++ (seg ++ '\n' :: rest)) pre.length =
        (chomp seg, some (pre.length + seg.length)) := by
      rw [← List.append_assoc]; exact getLine_seg pre seg rest hseg hcond
    refine ⟨⟨seg, hseg, Or.inr ⟨rest, List.drop_left _ _, hg⟩⟩, ?_, ?_⟩
    · rw [hg]; exact not_mem_chomp seg hseg
    · intro m hm
      rw [hg] at hm
      simp only [Option.some.injEq] at hm
      subst hm
      refine ⟨by simp; omega, ?_⟩
      rintro ⟨_, h1, _⟩
      have : (pre ++ (seg ++ '\n' :: rest)).get? (pre.length + seg.length + 1 - 1) =
          some '\n' := by
        rw [← List.append_assoc]
        have := get?_append_length (pre ++ seg) ('\n' :: rest)
        simpa using this
      rw [this] at h1
      exact absurd h1 (by decide)

/-- Offset 0 and every offset that follows a line feed, the offsets at which
a line starts, do not lie between a carriage return and its line feed. -/
theorem lineStart_not_splitsCrLf (str : Str) (begin : Nat)
    (h : begin = 0 ∨ str.get? (begin - 1) = some '\n') : ¬ splitsCrLf str begin := by
  rintro ⟨hpos, hcr, _⟩
  rcases h with h | h
  · omega
  · rw [h] at hcr
    exact absurd hcr (by decide)

/-- At an offset between a carriage return and its line feed `getLine` finds
the line feed at `begin` itself and hands out a line that starts with it. -/
theorem getLine_splitsCrLf (str : Str) (begin : Nat) (h : splitsCrLf str begin) :
    (getLine str begin).2 = some begin ∧ (getLine str begin).1.head? = some '\n' := by
  obtain ⟨hpos, hcr, hlf⟩ := h
  have hlt : begin < str.length := by
    rw [List.get?_eq_getElem?] at hlf
    exact (List.getElem?_eq_some_iff.mp hlf).1
  have hdrop : ∃ rest, str.drop begin = '\n' :: rest := by
    refine ⟨str.drop (begin + 1), ?_⟩
    rw [List.get?_eq_getElem?] at hlf
    obtain ⟨_, he⟩ := List.getElem?_eq_some_iff.mp hlf
    rw [← he]
    exact List.drop_eq_getElem_cons hlt
  obtain ⟨rest, hrest⟩ := hdrop
  have hfind : find str '\n' begin = some begin := by
    unfold find
    rw [hrest]
    simp [findFrom]
  unfold getLine
  rw [hfind]
  simp only [hpos, hcr, and_self, if_true, true_and]
  simp only [substr, hrest]
  have : sizeSub (sizeSub begin begin) 1 = 2 ^ 64 - 1 := by
    simp [sizeSub]
  rw [this]
  rfl

/-- C14, as the code has it: for every buffer and every offset `begin` within
it that does not lie between a carriage return and the line feed after it,
the text from `begin` on is a segment without a line feed followed either by
the end of the buffer or by a line feed.  In the first case `getLine` hands
out the segment and the end-of-input marker; in the second it hands out the
segment with a carriage return at its end removed (`chomp`) and the offset of
that line feed.  A carriage return anywhere else in the segment stays in the
line and does not end it, and the line holds no line feed.  The offset after
the line feed found is again one that does not lie inside a CR LF pair, so
the condition holds for offset 0 and for every offset the loop of
`_parseString` goes on with. -/
theorem C14_getLine_line_start (str : Str) (begin : Nat) (hb : begin ≤ str.length)
    (hs : ¬ splitsCrLf str begin) :
    (∃ seg : Str, '\n' ∉ seg ∧
      ((str.drop begin = seg ∧ getLine str begin = (seg, none)) ∨
       (∃ rest, str.drop begin = seg ++ '\n' :: rest ∧
          getLine str begin = (chomp seg, some (begin + seg.length))))) ∧
    '\n' ∉ (getLine str begin).1 ∧
    (∀ m, (getLine str begin).2 = some m →
      m + 1 ≤ str.length ∧ ¬ splitsCrLf str (m + 1)) := by
  have h1 : str.take begin ++ str.drop begin = str := List.take_append_drop _ _
  have h2 : (str.take begin).length = begin := by
    rw [List.length_take]; omega
  have h := getLine_contract (str.take begin) (str.drop begin) (by rw [h1, h2]; exact hs)
  rw [h1, h2] at h
  exact h

/-- C14 at work: in the buffer `a`, CR, LF, `b`, CR, `c`, LF the line at
offset 0 is `a` and the line at offset 3 is `b`, CR, `c`; in the buffer `x`,
CR, which has no line feed, the line at offset 0 is `x`, CR. -/
theorem C14_getLine_line_start_witness :
    getLine "a\r\nb\rc\n".toList 0 = (['a'], some 2) ∧
    getLine ['x', '\r'] 0 = (['x', '\r'], none) ∧
    getLine "a\r\nb\rc\n".toList 3 = (['b', '\r', 'c'], some 6) ∧
    '\n' ∉ (getLine "a\r\nb\rc\n".toList 3).1 ∧
    ¬ splitsCrLf "a\r\nb\rc\n".toList (6 + 1) :=
  ⟨by decide, by decide, by decide,
    (C14_getLine_line_start "a\r\nb\rc\n".toList 3 (by decide) (by decide)).2.1,
    ((C14_getLine_line_start "a\r\nb\rc\n".toList 3 (by decide) (by decide)).2.2 6
      (by decide)).2⟩

/-! ## The return code of `_parseString` only moves away from 0 -/

theorem classify_ret (inc : IncludeFn) (line : Str) (s s1 : LoopState)
    (h : classify inc line s = some s1) : s1.ret = s.ret ∨ s1.ret = -1 := by
  unfold classify at h
  cases line with
  | nil => simp only [Option.some.injEq] at h; subst h; exact Or.inl rfl
  | cons first rest =>
    simp only at h
    by_cases h1 : first = '#'
    · simp only [h1, if_true, Option.some.injEq] at h; subst h; exact Or.inl rfl
    · simp only [h1, if_false] at h
      by_cases h2 : first = '%'
      · simp only [h2, if_true] at h
        split at h
        · exact absurd h (by simp)
        · simp only [Option.some.injEq] at h; subst h; exact Or.inl rfl
      · simp only [h2, if_false] at h
        by_cases h3 : isspace first
        · simp only [h3, if_true] at h
          split at h <;> (simp only [Option.some.injEq] at h; subst h; exact Or.inl rfl)
        · simp only [h3, Bool.false_eq_true, if_false] at h
          split at h <;> simp only [Option.some.injEq] at h <;> subst h
          · exact Or.inl rfl
          · exact Or.inr rfl

theorem classify_ret_mono (inc : IncludeFn) (line : Str) (s s1 : LoopState)
    (h : classify inc line s = some s1) (hr : s.ret ≠ 0) : s1.ret ≠ 0 := by
  rcases classify_ret inc line s s1 h with h1 | h1
  · rw [h1]; exact hr
  · rw [h1]; decide

theorem runLines_ret_mono (inc : IncludeFn) (ls : List Str) :
    ∀ (s s1 : LoopState), runLines inc ls s = some s1 → s.ret ≠ 0 → s1.ret ≠ 0 := by
  induction ls with
  | nil => intro s s1 h hr; simp only [runLines, Option.some.injEq] at h; subst h; exact hr
  | cons l ls ih =>
    intro s s1 h hr
    simp only [runLines] at h
    cases hc : classify inc (chomp l) s with
    | none => rw [hc] at h; exact absurd h (by simp)
    | some s2 =>
      rw [hc] at h
      exact ih _ s1 h (classify_ret_mono inc _ s s2 hc hr)

theorem endOfInput_ret_mono (line : Str) (s : LoopState) (hr : s.ret ≠ 0) :
    (endOfInput line s).ret ≠ 0 := by
  unfold endOfInput
  split
  · simp
  · exact hr

theorem lastLine_ret_mono (inc : IncludeFn) (frag : Str) (s s1 : LoopState)
    (h : lastLine inc frag s = some s1) (hr : s.ret ≠ 0) : s1.ret ≠ 0 := by
  unfold lastLine at h
  cases hc : classify inc frag s with
  | none => rw [hc] at h; exact absurd h (by simp)
  | some s2 =>
    rw [hc] at h
    simp only [Option.some.injEq] at h
    subst h
    exact endOfInput_ret_mono _ _ (classify_ret_mono inc _ s s2 hc hr)

theorem runLines_append (inc : IncludeFn) (ls1 ls2 : List Str) (s : LoopState) :
    runLines inc (ls1 ++ ls2) s = (runLines inc ls1 s).bind (runLines inc ls2) := by
  induction ls1 generalizing s with
  | nil => rfl
  | cons l ls1 ih =>
    simp only [List.cons_append, runLines]
    cases classify inc (chomp l) s with
    | none => rfl
    | some s1 => exact ih _

/-! ## Illegal identifiers -/

theorem classify_illegal (inc : IncludeFn) (c : Char) (rest : Str) (s : LoopState)
    (h1 : c ≠ '#') (h2 : c ≠ '%') (h3 : isspace c = false) (h4 : isIdentStart c = false) :
    classify inc (c :: rest) s =
      some { s with
        ret := -1,
        d := { s.d with
          err := s.d.err ++ [⟨.LL_ERROR, s.pos, "Illegal identifier", false⟩] } } := by
  have h5 : (isalpha c || decide (c = '_') || decide (c = '.')) = false := h4
  simp only [classify, h1, h2, h3, h5, if_false, Bool.false_eq_true, logError]

/-- C16: on a line whose first character is none of `#`, `%`, whitespace, a
letter, `_` or `.`, the loop body of `_parseString` logs "Illegal identifier",
sets the return code to -1 and leaves the store and the pending entry (name,
value, validity) as they were; the loop goes on with the following lines and
the status `_parseString` returns in the end is not 0; `a x`, `1bad`, ` y`
commits `a` with the value `x y`. -/
theorem C16_illegal_identifier (inc : IncludeFn) (c : Char) (rest : Str) (s : LoopState)
    (h1 : c ≠ '#') (h2 : c ≠ '%') (h3 : isspace c = false) (h4 : isIdentStart c = false) :
    classify inc (c :: rest) s =
      some { s with
        ret := -1,
        d := { s.d with
          err := s.d.err ++ [⟨.LL_ERROR, s.pos, "Illegal identifier", false⟩] } } ∧
    (∀ (l : Str) (after : List Str), chomp l = c :: rest →
      runLines inc (l :: after) s =
        runLines inc after { s with
          ret := -1,
          pos := s.pos.newLine,
          d := { s.d with
            err := s.d.err ++ [⟨.LL_ERROR, s.pos, "Illegal identifier", false⟩] } }) ∧
    (∀ (before after : List Str) (l frag : Str) (pos pos1 : Position_t) (d d1 : Dictionary_t)
      (ret : Int), chomp l = c :: rest → (∀ x ∈ before ++ l :: after, '\n' ∉ x) →
      '\n' ∉ frag →
      _parseString inc (joinLines (before ++ l :: after) ++ frag) pos d = some (ret, pos1, d1) →
      ret ≠ 0) ∧
    (_parseString inc "a x\n1bad\n y\n".toList (Position_t.mk1 []) Dictionary_t.new).map
        (fun r => (r.1, r.2.2.dict, r.2.2.err.map (fun e => e.message))) =
      some (-1, [(['a'], ['x', ' ', 'y'])], ["Illegal identifier"]) := by
  have hcl := classify_illegal inc c rest s h1 h2 h3 h4
  refine ⟨hcl, fun l after hl => ?_, ?_, rfl⟩
  · simp only [runLines, hl, hcl]
  · intro before after l frag pos pos1 d d1 ret hl hls hfrag hps
    rw [_parseString_eq_runLines inc _ frag hls hfrag pos d, runLines_append] at hps
    simp only [Option.map_eq_some', Option.bind_eq_some] at hps
    obtain ⟨sl, ⟨sa, ⟨sb, _, ha⟩, hlast⟩, hres⟩ := hps
    simp only [runLines, hl, classify_illegal inc c rest sb h1 h2 h3 h4] at ha
    have hsa : sa.ret ≠ 0 := runLines_ret_mono inc after _ sa ha (by simp)
    have hsl : sl.ret ≠ 0 := lastLine_ret_mono inc frag sa sl hlast hsa
    simp only [Prod.mk.injEq] at hres
    rw [← hres.1]
    exact hsl

/-- C16 at work: the line `1bad` after a pending entry. -/
theorem C16_illegal_identifier_witness :
    classify (fun _ _ _ => none) "1bad".toList
        { currentName := ['a'], currentValue := ['x'], currentValid := true, ret := 0,
          pos := Position_t.mk1 [], d := Dictionary_t.new } =
      some { currentName := ['a'], currentValue := ['x'], currentValid := true, ret := -1,
             pos := Position_t.mk1 [],
             d := { Dictionary_t.new with
               err := [⟨.LL_ERROR, Position_t.mk1 [], "Illegal identifier", false⟩] } } :=
  (C16_illegal_identifier (fun _ _ _ => none) '1' "bad".toList
    { currentName := ['a'], currentValue := ['x'], currentValid := true, ret := 0,
      pos := Position_t.mk1 [], d := Dictionary_t.new }
    (by decide) (by decide) (by decide) (by decide)).1

/-! ## Quoted values -/

theorem dropWhile_isspace_append (ws rest : Str) (c : Char) (hws : ∀ x ∈ ws, isspace x = true)
    (hc : isspace c = false) : (ws ++ c :: rest).dropWhile isspace = c :: rest := by
  induction ws with
  | nil => simp [List.dropWhile, hc]
  | cons w ws ih =>
    have hw : isspace w = true := hws w (by simp)
    simp only [List.cons_append, List.dropWhile, hw]
    exact ih (fun x hx => hws x (by simp [hx]))

theorem afterQuote_white (ws value : Str) (pos : Position_t) (err : Error_t)
    (hws : ∀ x ∈ ws, isspace x = true) :
    ∃ pos1, afterQuote ws value pos err = ⟨0, value, pos1, err⟩ := by
  induction ws generalizing pos with
  | nil => exact ⟨pos, rfl⟩
  | cons w ws ih =>
    have hw : isspace w = true := hws w (by simp)
    simp only [afterQuote, hw, Bool.not_true, Bool.false_eq_true, if_false]
    exact ih _ (fun x hx => hws x (by simp [hx]))

theorem valueLoop_valid_escapes (rest : Str) (first quoted : Bool) (value : Str)
    (pos : Position_t) (err : Error_t) :
    valueLoop ('\\' :: 'n' :: rest) first quoted value pos err =
      valueLoop rest false quoted (value ++ ['\n']) pos.advanceColumn err ∧
    valueLoop ('\\' :: 'r' :: rest) first quoted value pos err =
      valueLoop rest false quoted (value ++ ['\r']) pos.advanceColumn err ∧
    valueLoop ('\\' :: 't' :: rest) first quoted value pos err =
      valueLoop rest false quoted (value ++ ['\t']) pos.advanceColumn err ∧
    valueLoop ('\\' :: 'v' :: rest) first quoted value pos err =
      valueLoop rest false quoted (value ++ ['\x0b']) pos.advanceColumn err ∧
    valueLoop ('\\' :: '\\' :: rest) first quoted value pos err =
      valueLoop rest false quoted (value ++ ['\\']) pos.advanceColumn err ∧
    valueLoop ('\\' :: '"' :: rest) first quoted value pos err =
      valueLoop rest false quoted (value ++ ['"']) pos.advanceColumn err := by
  refine ⟨?_, ?_, ?_, ?_, ?_, ?_⟩ <;> rw [valueLoop_escape] <;> rfl

theorem valueLoop_encChar (c : Char) (rest : Str) (first quoted : Bool) (value : Str)
    (pos : Position_t) (err : Error_t) :
    valueLoop (encChar c ++ rest) first quoted value pos err =
      valueLoop rest false quoted (value ++ [c]) pos.advanceColumn err := by
  unfold encChar
  split_ifs with h1 h2 h3 h4 h5 h6
  · subst h1; exact (valueLoop_valid_escapes rest first quoted value pos err).1
  · subst h2; exact (valueLoop_valid_escapes rest first quoted value pos err).2.1
  · subst h3; exact (valueLoop_valid_escapes rest first quoted value pos err).2.2.1
  · subst h4; exact (valueLoop_valid_escapes rest first quoted value pos err).2.2.2.1
  · subst h5; exact (valueLoop_valid_escapes rest first quoted value pos err).2.2.2.2.1
  · subst h6; exact (valueLoop_valid_escapes rest first quoted value pos err).2.2.2.2.2
  · rw [List.singleton_append, valueLoop_char c rest first quoted value pos err h5 h6]
    simp [h3]

theorem valueLoop_encBody (s : Str) :
    ∀ (rest : Str) (first quoted : Bool) (value : Str) (pos : Position_t) (err : Error_t),
      s ≠ [] →
      ∃ pos1, valueLoop (s.flatMap encChar ++ rest) first quoted value pos err =
        valueLoop rest false quoted (value ++ s) pos1 err := by
  induction s with
  | nil => intro _ _ _ _ _ _ h; exact absurd rfl h
  | cons c s ih =>
    intro rest first quoted value pos err _
    simp only [List.flatMap_cons, List.append_assoc]
    rw [valueLoop_encChar]
    by_cases hs : s = []
    · subst hs
      exact ⟨pos.advanceColumn, by simp⟩
    · obtain ⟨pos1, h⟩ := ih rest false quoted (value ++ [c]) pos.advanceColumn err hs
      exact ⟨pos1, by rw [h]; simp⟩

/-- C20: for every string `s`, `parseValueLine` on `enc(s)`, with whitespace
before and after it or without, returns 0, leaves the log as it was and
yields exactly `s`. -/
theorem C20_quoted_round_trip (s ws1 ws2 : Str) (pos : Position_t) (err : Error_t)
    (h1 : ∀ x ∈ ws1, isspace x = true) (h2 : ∀ x ∈ ws2, isspace x = true) :
    ∃ pos1, parseValueLine (ws1 ++ enc s ++ ws2) pos err = ⟨0, s, pos1, err⟩ := by
  rw [parseValueLine_eq]
  have hq : isspace '"' = false := by decide
  have hd : (ws1 ++ enc s ++ ws2).dropWhile isspace =
      '"' :: (s.flatMap encChar ++ '"' :: ws2) := by
    unfold enc
    rw [List.append_assoc, List.cons_append,
      dropWhile_isspace_append ws1 _ '"' h1 hq]
    simp
  rw [hd, valueLoop_quote_first]
  by_cases hs : s = []
  · subst hs
    simp only [List.flatMap_nil, List.nil_append]
    rw [valueLoop_quote_close]
    exact afterQuote_white ws2 [] _ err h2
  · obtain ⟨p1, h⟩ := valueLoop_encBody s ('"' :: ws2) false true []
      (skipSpaces (ws1 ++ enc s ++ ws2) pos).2.advanceColumn err hs
    rw [h, valueLoop_quote_close]
    simpa using afterQuote_white ws2 s _ err h2

/-- C20 at work: the string `a`, tab, `"` between blanks. -/
theorem C20_quoted_round_trip_witness :
    ∃ pos1, parseValueLine (" ".toList ++ enc ['a', '\t', '"'] ++ " ".toList)
      (Position_t.mk1 []) [] = ⟨0, ['a', '\t', '"'], pos1, []⟩ :=
  C20_quoted_round_trip ['a', '\t', '"'] " ".toList " ".toList (Position_t.mk1 []) []
    (by decide) (by decide)

/-! ## Columns -/

theorem escapeSwitch_frame (c d : Char) (value : Str) (pos : Position_t) (err : Error_t) :
    escapeSwitch c d value pos err =
      (value ++ (escapeSwitch c d [] pos []).1, (escapeSwitch c d [] pos []).2.1,
        err ++ (escapeSwitch c d [] pos []).2.2) := by
  unfold escapeSwitch
  split_ifs <;> simp [logError]

theorem afterQuote_frame (l value : Str) (pos : Position_t) (err : Error_t) :
    afterQuote l value pos err =
      ⟨(afterQuote l [] pos []).ret, value ++ (afterQuote l [] pos []).value,
        (afterQuote l [] pos []).pos, err ++ (afterQuote l [] pos []).err⟩ := by
  induction l generalizing pos with
  | nil => simp [afterQuote]
  | cons c rest ih =>
    by_cases h : isspace c
    · simp only [afterQuote, h, Bool.not_true, Bool.false_eq_true, if_false]
      exact ih _
    · simp [afterQuote, h, logError]

theorem valueLoop_frame_aux (n : Nat) :
    ∀ (l : Str), l.length ≤ n → ∀ (first quoted : Bool) (value : Str) (pos : Position_t)
      (err : Error_t),
      valueLoop l first quoted value pos err =
        ⟨(valueLoop l first quoted [] pos []).ret,
          value ++ (valueLoop l first quoted [] pos []).value,
          (valueLoop l first quoted [] pos []).pos,
          err ++ (valueLoop l first quoted [] pos []).err⟩ := by
  induction n with
  | zero =>
    intro l hl first quoted value pos err
    have : l = [] := List.length_eq_zero.mp (Nat.le_zero.mp hl)
    subst this
    cases quoted <;> simp [valueLoop_nil, logError]
  | succ n ih =>
    intro l hl first quoted value pos err
    match l, hl with
    | [], _ => cases quoted <;> simp [valueLoop_nil, logError]
    | c :: rest, hl =>
      have hrest : rest.length ≤ n := by simpa using hl
      by_cases h1 : c = '\\'
      · subst h1
        match rest, hrest with
        | [], _ =>
          rw [valueLoop_escape_eol, valueLoop_escape_eol]
          cases quoted <;> simp [valueLoop_nil, logError]
        | d :: rest2, hrest =>
          have hrest2 : rest2.length ≤ n := by simp at hrest; omega
          rw [valueLoop_escape, valueLoop_escape]
          rw [ih rest2 hrest2 false quoted (escapeSwitch '\\' d value pos err).1,
            ih rest2 hrest2 false quoted (escapeSwitch '\\' d [] pos []).1,
            escapeSwitch_frame '\\' d value pos err]
          simp
      · by_cases h2 : c = '"'
        · subst h2
          cases first
          · cases quoted
            · rw [valueLoop_quote_literal, valueLoop_quote_literal]
              rw [ih rest hrest false false (value ++ ['"']),
                ih rest hrest false false ([] ++ ['"'])]
              simp
            · rw [valueLoop_quote_close, valueLoop_quote_close]
              exact afterQuote_frame _ _ _ _
          · rw [valueLoop_quote_first, valueLoop_quote_first]
            exact ih rest hrest false true value _ err
        · rw [valueLoop_char c rest first quoted value pos err h1 h2,
            valueLoop_char c rest first quoted [] pos [] h1 h2]
          rw [ih rest hrest false quoted (value ++ [c]), ih rest hrest false quoted ([] ++ [c])]
          simp

theorem parseValueLine_frame (line : Str) (pos : Position_t) (err : Error_t) :
    parseValueLine line pos err =
      ⟨decodeRet line, decodeValue line, (parseValueLine line pos []).pos,
        err ++ (parseValueLine line pos []).err⟩ := by
  have h1 := parseValueLine_ret line pos err
  have h2 := parseValueLine_value line pos err
  rw [← h1, ← h2]
  rw [parseValueLine_eq, parseValueLine_eq]
  have := valueLoop_frame_aux _ (line.dropWhile isspace) (Nat.le_refl _) true false []
    (skipSpaces line pos).2 err
  rw [this]

theorem parseIdentLine_frame (line name value : Str) (pos : Position_t) (err : Error_t) :
    parseIdentLine line name value pos err =
      ⟨identRet line, (parseIdentLine line name value (Position_t.mk1 []) []).name,
        (parseIdentLine line name value (Position_t.mk1 []) []).value,
        (parseIdentLine line name value pos []).pos,
        err ++ (parseIdentLine line name value pos []).err⟩ := by
  rw [identRet_eq]
  cases h : identEarlyExit line
  · simp only [parseIdentLine_late _ _ _ _ _ h, Bool.false_eq_true, if_false]
    rw [parseValueLine_frame]
  · simp only [parseIdentLine_early _ _ _ _ _ h, if_true, logError, List.nil_append]

/-! ## Registering, logging and adding -/

theorem insertAll_nil (t : Table_t) : t.insertAll [] = t := rfl

theorem insertAll_append (t : Table_t) (A B : List (Str × Str)) :
    t.insertAll (A ++ B) = (t.insertAll A).insertAll B := by
  simp [Table_t.insertAll, List.foldl_append]

theorem insertAll_singleton (t : Table_t) (n v : Str) :
    t.insertAll [(n, v)] = t.insert n v := rfl

theorem extend_nil (d : Dictionary_t) : d.extend [] [] [] = d := by
  simp [Dictionary_t.extend, insertAll_nil]

theorem extend_extend (d : Dictionary_t) (S1 S2 : SourceList_t) (E1 E2 : Error_t)
    (A1 A2 : List (Str × Str)) :
    (d.extend S1 E1 A1).extend S2 E2 A2 = d.extend (S1 ++ S2) (E1 ++ E2) (A1 ++ A2) := by
  simp [Dictionary_t.extend, insertAll_append]

theorem extend_root (d : Dictionary_t) (S : SourceList_t) (E : Error_t)
    (A : List (Str × Str)) : (d.extend S E A).root = d.root := rfl

theorem extend_level (d : Dictionary_t) (S : SourceList_t) (E : Error_t)
    (A : List (Str × Str)) : (d.extend S E A).level = d.level := rfl

theorem extend_err (d : Dictionary_t) (S : SourceList_t) (E : Error_t)
    (A : List (Str × Str)) : (d.extend S E A).err = d.err ++ E := rfl

theorem extend_dict (d : Dictionary_t) (S : SourceList_t) (E : Error_t)
    (A : List (Str × Str)) : (d.extend S E A).dict = d.dict.insertAll A := rfl

theorem extend_log (d : Dictionary_t) (E : Error_t) :
    { d with err := d.err ++ E } = d.extend [] E [] := by
  simp [Dictionary_t.extend, insertAll_nil]

theorem extend_source (d : Dictionary_t) (p : Str) :
    { d with sources := addSource d.sources p } = d.extend [p] [] [] := by
  simp [Dictionary_t.extend, insertAll_nil, addSource]

theorem extend_pending (d : Dictionary_t) (n v : Str) (b : Bool) :
    (if b = true then d.add n v else d) = d.extend [] [] (pendingAdds n v b) := by
  cases b
  · simp [pendingAdds, extend_nil]
  · simp [pendingAdds, Dictionary_t.extend, Dictionary_t.add, insertAll_singleton]

theorem extend_relevel (d : Dictionary_t) (S : SourceList_t) (E : Error_t)
    (A : List (Str × Str)) (h : d.level ≠ 0) :
    { ({ d with level := d.level - 1 } : Dictionary_t).extend S E A with
        level := (({ d with level := d.level - 1 } : Dictionary_t).extend S E A).level + 1 } =
      d.extend S E A := by
  simp only [Dictionary_t.extend]
  have : d.level - 1 + 1 = d.level := by omega
  simp [this]

theorem pendingAdds_valid (n v : Str) (b : Bool) (h : b = true → ValidName n) :
    ∀ a ∈ pendingAdds n v b, ValidName a.1 := by
  intro a ha
  cases b
  · simp [pendingAdds] at ha
  · simp only [pendingAdds, if_true, List.mem_singleton] at ha
    subst ha
    exact h rfl

/-! ## `processDirective` as registering, logging and adding -/

theorem processDirective_frame (inc : IncludeFn) (L : Nat) (hinc : IncludeFrame inc L)
    (directive root : Str) (level : Nat) (hl : level ≤ L) :
    ∃ (st : Int) (S : SourceList_t) (A : List (Str × Str)),
      (∀ a ∈ A, ValidName a.1) ∧
      ∀ pos : Position_t, ∃ (pos1 : Position_t) (E : Error_t), (st ≠ 0 → E ≠ []) ∧
        ∀ d : Dictionary_t, d.root = root → d.level = level →
          processDirective inc directive pos d = some (st, pos1, d.extend S E A) := by
  by_cases hp : findStr directive "%include".toList = some 0
  · by_cases hlev : level = 0
    · refine ⟨-1, [], [], by simp, fun pos => ⟨pos,
        [⟨.LL_ERROR, pos, "Too many includes", false⟩], by simp, fun d _ hd => ?_⟩⟩
      unfold processDirective
      simp only [hp, if_true]
      simp [hd, hlev, logError, Dictionary_t.extend, insertAll_nil]
    · cases hf : directive.drop 8 with
      | nil =>
        refine ⟨-1, [], [], by simp, fun pos => ⟨pos.advanceColumn 8,
          [⟨.LL_ERROR, pos.advanceColumn 8, "Invalid include directive", false⟩], by simp,
          fun d _ hd => ?_⟩⟩
        unfold processDirective
        simp only [hp, if_true]
        simp [hd, hlev, hf, logError, Dictionary_t.extend, insertAll_nil]
      | cons c rest =>
        by_cases hs : isspace c
        · by_cases hst : (((c :: rest).dropWhile isspace).reverse.dropWhile isspace).reverse = []
          · refine ⟨-1, [], [], by simp, fun pos => ⟨(pos.advanceColumn 8).advanceColumn
              ((c :: rest).length - ((c :: rest).dropWhile isspace).length),
              [⟨.LL_ERROR, (pos.advanceColumn 8).advanceColumn
                ((c :: rest).length - ((c :: rest).dropWhile isspace).length),
                "Missing file to include", false⟩], by simp, fun d _ hd => ?_⟩⟩
            unfold processDirective
            simp only [hp, if_true, hd, hlev, if_false, hf, hs, Bool.not_true,
              Bool.false_eq_true, hst, logError]
            simp [Dictionary_t.extend, insertAll_nil, hd]
          · obtain ⟨st, S, A, hA, hE⟩ := hinc
              (((c :: rest).dropWhile isspace).reverse.dropWhile isspace).reverse root
              (level - 1) (by omega)
            refine ⟨st, S, A, hA, fun pos => ?_⟩
            obtain ⟨E, hne, hd⟩ := hE ((pos.advanceColumn 8).advanceColumn
              ((c :: rest).length - ((c :: rest).dropWhile isspace).length))
            refine ⟨(pos.advanceColumn 8).advanceColumn
              ((c :: rest).length - ((c :: rest).dropWhile isspace).length), E, hne,
              fun d hroot hlevel => ?_⟩
            have hcall := hd { d with level := d.level - 1 } hroot (by simp only [hlevel])
            subst hlevel
            unfold processDirective
            simp only [hp, if_true, hlev, if_false, hf, hs, Bool.not_true,
              Bool.false_eq_true, hst]
            rw [hcall]
            simp only
            rw [extend_relevel d S E A hlev]
        · refine ⟨-1, [], [], by simp, fun pos => ⟨pos.advanceColumn 8,
            [⟨.LL_ERROR, pos.advanceColumn 8, "Invalid include directive", false⟩], by simp,
            fun d _ hd => ?_⟩⟩
          unfold processDirective
          simp only [hp, if_true]
          simp [hd, hlev, hf, hs, logError, Dictionary_t.extend, insertAll_nil]
  · refine ⟨-1, [], [], by simp, fun pos => ⟨pos,
      [⟨.LL_ERROR, pos, "Unknown procesing directive", false⟩], by simp, fun d _ _ => ?_⟩⟩
    unfold processDirective
    simp only [hp, if_false, logError, extend_log]

/-! ## Names cut by `parseIdentLine` -/

theorem identLength_take (line : Str) :
    ∀ x ∈ line.take (identLength line), isalnum x = true ∨ x = '_' := by
  induction line with
  | nil => intro x hx; simp at hx
  | cons c rest ih =>
    intro x hx
    by_cases h : (isalnum c || decide (c = '_')) = true
    · simp only [identLength, h, Bool.not_true, Bool.false_eq_true, if_false, List.take_succ_cons,
        List.mem_cons] at hx
      rcases hx with rfl | hx
      · simpa using h
      · exact ih x hx
    · simp [identLength, h] at hx

theorem isIdentStart_cases {c : Char} (h : isIdentStart c = true) :
    isalpha c = true ∨ c = '_' ∨ c = '.' := by
  simpa [isIdentStart, or_assoc] using h

theorem isalpha_not_digit {c : Char} (h : isalpha c = true) : isdigit c = false := by
  unfold isalpha at h
  unfold isdigit
  simp only [decide_eq_true_eq] at h
  simp only [decide_eq_false_iff_not]
  omega

theorem validName_of_ident (c : Char) (rest : Str) (hc : isIdentStart c = true)
    (hr : identRet (c :: rest) = 0) : ValidName (identName (c :: rest)) := by
  have hearly : identEarlyExit (c :: rest) = false := by
    rw [identRet_eq] at hr
    cases h : identEarlyExit (c :: rest)
    · rfl
    · rw [h] at hr; simp at hr
  have hsp := (isIdentStart_not_special hc).2.2
  by_cases h : (isalnum c || decide (c = '_')) = true
  · have hlen : identLength (c :: rest) = identLength rest + 1 := by
      simp [identLength, h]
    have hname : identName (c :: rest) = c :: rest.take (identLength rest) := by
      simp [identName, substr, hlen]
    refine ⟨by rw [hname]; simp, ?_, ?_⟩
    · unfold identName substr
      simpa using identLength_take (c :: rest)
    · intro x hx
      rw [hname] at hx
      simp only [List.head?_cons, Option.some.injEq] at hx
      subst hx
      rcases isIdentStart_cases hc with h1 | h1 | h1
      · exact isalpha_not_digit h1
      · subst h1; decide
      · subst h1; decide
  · have hlen : identLength (c :: rest) = 0 := by simp [identLength, h]
    simp [identEarlyExit, hlen, hsp] at hearly

theorem parseIdentLine_name_valid (c : Char) (rest name value : Str)
    (hc : isIdentStart c = true) (hr : identRet (c :: rest) = 0) :
    ValidName (parseIdentLine (c :: rest) name value (Position_t.mk1 []) []).name := by
  rw [(parseIdentLine_ok _ _ _ _ _ hr).1]
  exact validName_of_ident c rest hc hr

/-! ## The loop body as registering, logging and adding -/

theorem classify_frame (inc : IncludeFn) (L : Nat) (hinc : IncludeFrame inc L)
    (line n v : Str) (b : Bool) (r : Int) (root : Str) (level : Nat) (hl : level ≤ L) :
    ∃ (n1 v1 : Str) (b1 : Bool) (r1 : Int) (S : SourceList_t) (A : List (Str × Str)),
      ((b = true → ValidName n) → (∀ a ∈ A, ValidName a.1) ∧ (b1 = true → ValidName n1)) ∧
      (r ≠ 0 → r1 ≠ 0) ∧
      ∀ pos : Position_t, ∃ (pos1 : Position_t) (E : Error_t), (r1 ≠ 0 → r ≠ 0 ∨ E ≠ []) ∧
        ∀ d : Dictionary_t, d.root = root → d.level = level →
          classify inc line ⟨n, v, b, r, pos, d⟩ = some ⟨n1, v1, b1, r1, pos1, d.extend S E A⟩ := by
  have hterm : ∃ (n1 v1 : Str) (b1 : Bool) (r1 : Int) (S : SourceList_t)
      (A : List (Str × Str)),
      ((b = true → ValidName n) → (∀ a ∈ A, ValidName a.1) ∧ (b1 = true → ValidName n1)) ∧
      (r ≠ 0 → r1 ≠ 0) ∧
      ∀ pos : Position_t, ∃ (pos1 : Position_t) (E : Error_t), (r1 ≠ 0 → r ≠ 0 ∨ E ≠ []) ∧
        ∀ d : Dictionary_t, d.root = root → d.level = level →
          some ({ (⟨n, v, b, r, pos, d⟩ : LoopState) with
            d := if b = true then d.add n v else d, currentValid := false }) =
          some (⟨n1, v1, b1, r1, pos1, d.extend S E A⟩ : LoopState) := by
    refine ⟨n, v, false, r, [], pendingAdds n v b,
      fun hv => ⟨pendingAdds_valid n v b hv, by simp⟩, id, fun pos => ⟨pos, [],
        fun h => Or.inl h, fun d _ _ => ?_⟩⟩
    simp only [extend_pending]
  cases line with
  | nil => simpa only [classify] using hterm
  | cons first rest =>
    by_cases h1 : first = '#'
    · simpa only [classify, h1, if_true] using hterm
    · by_cases h2 : first = '%'
      · subst h2
        obtain ⟨st, S, A, hA, hE⟩ := processDirective_frame inc L hinc ('%' :: rest) root
          level hl
        refine ⟨n, v, false, r, S, pendingAdds n v b ++ A, fun hv => ⟨fun a ha => ?_, by simp⟩,
          id, fun pos => ?_⟩
        · rcases List.mem_append.mp ha with h | h
          · exact pendingAdds_valid n v b hv a h
          · exact hA a h
        · obtain ⟨pos1, E, _, hd⟩ := hE pos
          refine ⟨pos1, E, fun h => Or.inl h, fun d hroot hlevel => ?_⟩
          have hcall := hd (d.extend [] [] (pendingAdds n v b)) hroot hlevel
          rw [extend_extend] at hcall
          simp only [List.nil_append] at hcall
          simp only [classify, h1, if_false, if_true, extend_pending]
          rw [hcall]
      · by_cases h3 : isspace first = true
        · cases b
          · refine ⟨n, v, false, r, [], [], fun _ => ⟨by simp, by simp⟩, id, fun pos =>
              ⟨pos, [⟨.LL_ERROR, pos, "No line to concatenate with", false⟩],
                fun _ => Or.inr (by simp), fun d _ _ => ?_⟩⟩
            simp only [classify, h1, if_false, h2, h3, if_true, Bool.false_eq_true, logError,
              extend_log]
          · refine ⟨n, v ++ [' '] ++ decodeValue (first :: rest), true, r, [], [],
              fun hv => ⟨by simp, hv⟩, id, fun pos =>
              ⟨(parseValueLine (first :: rest) pos []).pos,
                (parseValueLine (first :: rest) pos []).err,
                fun h => Or.inl h, fun d _ _ => ?_⟩⟩
            simp only [classify, h1, if_false, h2, h3, if_true]
            rw [parseValueLine_frame (first :: rest) pos d.err]
            simp only [extend_log]
        · by_cases h4 : (isalpha first || decide (first = '_') || decide (first = '.')) = true
          · refine ⟨(parseIdentLine (first :: rest) n v (Position_t.mk1 []) []).name,
              (parseIdentLine (first :: rest) n v (Position_t.mk1 []) []).value,
              decide (identRet (first :: rest) = 0), r, [], pendingAdds n v b,
              fun hv => ⟨pendingAdds_valid n v b hv, fun hb => ?_⟩, id, fun pos =>
              ⟨(parseIdentLine (first :: rest) n v pos []).pos,
                (parseIdentLine (first :: rest) n v pos []).err,
                fun h => Or.inl h, fun d _ _ => ?_⟩⟩
            · exact parseIdentLine_name_valid first rest n v h4 (by simpa using hb)
            · simp only [classify, h1, if_false, h2, h3, h4, if_true, extend_pending]
              rw [parseIdentLine_frame (first :: rest) n v pos]
              simp only [extend_err, List.append_nil]
              have := extend_log (d.extend [] [] (pendingAdds n v b))
                (parseIdentLine (first :: rest) n v pos []).err
              rw [extend_err, List.append_nil] at this
              rw [this, extend_extend]
              simp
          · refine ⟨n, v, b, -1, [], [], fun hv => ⟨by simp, hv⟩, fun _ => by decide,
              fun pos => ⟨pos, [⟨.LL_ERROR, pos, "Illegal identifier", false⟩],
                fun _ => Or.inr (by simp), fun d _ _ => ?_⟩⟩
            simp only [classify, h1, if_false, h2, h3, h4, Bool.false_eq_true, logError,
              extend_log]

theorem endOfInput_frame (line n v : Str) (b : Bool) (r : Int) :
    ∃ r1 : Int, (r ≠ 0 → r1 ≠ 0) ∧
      ∀ pos : Position_t, ∃ (pos1 : Position_t) (E : Error_t), (r1 ≠ 0 → r ≠ 0 ∨ E ≠ []) ∧
        ∀ d : Dictionary_t,
          endOfInput line ⟨n, v, b, r, pos, d⟩ = ⟨n, v, b, r1, pos1, d.extend [] E []⟩ := by
  by_cases h : line = []
  · refine ⟨r, id, fun pos => ⟨pos, [], fun hr => Or.inl hr, fun d => ?_⟩⟩
    simp [endOfInput, h, extend_nil]
  · refine ⟨-1, fun _ => by decide, fun pos => ⟨pos.setColumn (line.length + 1),
      [⟨.LL_WARNING, pos.setColumn (line.length + 1), "No newline at end of file", false⟩],
      fun _ => Or.inr (by simp), fun d => ?_⟩⟩
    simp [endOfInput, h, logError, Dictionary_t.extend, insertAll_nil]

theorem parseLoop_frame (inc : IncludeFn) (L : Nat) (hinc : IncludeFrame inc L) (data : Str)
    (root : Str) (level : Nat) (hl : level ≤ L) :
    ∀ (fuel nl : Nat) (n v : Str) (b : Bool) (r : Int),
      data.length + 1 ≤ fuel + nl → nl ≤ data.length →
      ∃ (n1 v1 : Str) (b1 : Bool) (r1 : Int) (S : SourceList_t) (A : List (Str × Str)),
        ((b = true → ValidName n) → (∀ a ∈ A, ValidName a.1) ∧ (b1 = true → ValidName n1)) ∧
        (r ≠ 0 → r1 ≠ 0) ∧
        ∀ pos : Position_t, ∃ (pos1 : Position_t) (E : Error_t), (r1 ≠ 0 → r ≠ 0 ∨ E ≠ []) ∧
          ∀ d : Dictionary_t, d.root = root → d.level = level →
            parseLoop inc data fuel nl ⟨n, v, b, r, pos, d⟩ =
              some ⟨n1, v1, b1, r1, pos1, d.extend S E A⟩ := by
  intro fuel
  induction fuel with
  | zero => intro nl n v b r h1 h2; omega
  | succ fuel ih =>
    intro nl n v b r h1 h2
    obtain ⟨n1, v1, b1, r1, S1, A1, hval1, hmono1, hcl⟩ :=
      classify_frame inc L hinc (getLine data nl).1 n v b r root level hl
    have hsnd := getLine_snd data nl
    cases hf : (getLine data nl).2 with
    | none =>
      obtain ⟨r2, hmono2, hend⟩ := endOfInput_frame (getLine data nl).1 n1 v1 b1 r1
      refine ⟨n1, v1, b1, r2, S1, A1, hval1, fun h => hmono2 (hmono1 h), fun pos => ?_⟩
      obtain ⟨pos1, E1, hr1, hd1⟩ := hcl pos
      obtain ⟨pos2, E2, hr2, hd2⟩ := hend pos1
      refine ⟨pos2, E1 ++ E2, fun h => ?_, fun d hroot hlevel => ?_⟩
      · rcases hr2 h with h' | h'
        · rcases hr1 h' with h'' | h''
          · exact Or.inl h''
          · exact Or.inr (by simp [h''])
        · exact Or.inr (by simp [h'])
      · unfold parseLoop
        simp only [hd1 d hroot hlevel, hf, hd2, extend_extend, List.append_nil]
    | some m =>
      rw [hsnd] at hf
      obtain ⟨hb1, hb2⟩ := find_bounds data '\n' nl m hf
      obtain ⟨n2, v2, b2, r2, S2, A2, hval2, hmono2, hrec⟩ :=
        ih (m + 1) n1 v1 b1 r1 (by omega) (by omega)
      refine ⟨n2, v2, b2, r2, S1 ++ S2, A1 ++ A2, fun hv => ?_, fun h => hmono2 (hmono1 h),
        fun pos => ?_⟩
      · obtain ⟨ha1, hn1⟩ := hval1 hv
        obtain ⟨ha2, hn2⟩ := hval2 hn1
        refine ⟨fun a ha => ?_, hn2⟩
        rcases List.mem_append.mp ha with h | h
        · exact ha1 a h
        · exact ha2 a h
      · obtain ⟨pos1, E1, hr1, hd1⟩ := hcl pos
        obtain ⟨pos2, E2, hr2, hd2⟩ := hrec pos1.newLine
        refine ⟨pos2, E1 ++ E2, fun h => ?_, fun d hroot hlevel => ?_⟩
        · rcases hr2 h with h' | h'
          · rcases hr1 h' with h'' | h''
            · exact Or.inl h''
            · exact Or.inr (by simp [h''])
          · exact Or.inr (by simp [h'])
        · have hgl : (getLine data nl).2 = some m := by rw [hsnd]; exact hf
          unfold parseLoop
          simp only [hd1 d hroot hlevel, hgl]
          rw [hd2 (d.extend S1 E1 A1) hroot hlevel, extend_extend]

theorem _parseString_frame (inc : IncludeFn) (L : Nat) (hinc : IncludeFrame inc L) (data : Str)
    (root : Str) (level : Nat) (hl : level ≤ L) :
    ∃ (st : Int) (S : SourceList_t) (A : List (Str × Str)),
      (∀ a ∈ A, ValidName a.1) ∧
      ∀ pos : Position_t, ∃ (pos1 : Position_t) (E : Error_t), (st ≠ 0 → E ≠ []) ∧
        ∀ d : Dictionary_t, d.root = root → d.level = level →
          _parseString inc data pos d = some (st, pos1, d.extend S E A) := by
  obtain ⟨n1, v1, b1, r1, S, A, hval, _, hloop⟩ :=
    parseLoop_frame inc L hinc data root level hl (data.length + 1) 0 [] [] false 0
      (by omega) (by omega)
  obtain ⟨hA, hn1⟩ := hval (by simp)
  refine ⟨r1, S, A ++ pendingAdds n1 v1 b1, fun a ha => ?_, fun pos => ?_⟩
  · rcases List.mem_append.mp ha with h | h
    · exact hA a h
    · exact pendingAdds_valid n1 v1 b1 hn1 a h
  · obtain ⟨pos1, E, hr, hd⟩ := hloop pos
    refine ⟨pos1, E, fun h => ?_, fun d hroot hlevel => ?_⟩
    · rcases hr h with h' | h'
      · exact absurd rfl h'
      · exact h'
    · unfold _parseString
      rw [hd d hroot hlevel]
      simp only [extend_pending, extend_extend, List.append_nil]

theorem _parse_frame (fs : FileSystem) :
    ∀ fuel : Nat, IncludeFrame (fun f p x => _parse fs fuel f p x) fuel := by
  intro fuel
  induction fuel with
  | zero => intro f root level h; omega
  | succ fuel ih =>
    intro f root level hlev
    cases hfs : fs (resolvePath root f) with
    | cannotOpen =>
      refine ⟨-1, [resolvePath root f], [], by simp, fun pos =>
        ⟨[⟨.LL_ERROR, pos,
          "Cannot open file \x27" ++ String.mk (resolvePath root f) ++ "\x27", true⟩],
          fun _ => by simp, fun d hroot _ => ?_⟩⟩
      subst hroot
      simp only [_parse, hfs, logSyscallError, addSource, Dictionary_t.extend, insertAll_nil]
    | readError =>
      refine ⟨-1, [resolvePath root f], [], by simp, fun pos =>
        ⟨[⟨.LL_ERROR, Position_t.mk1 (resolvePath root f), "Error reading file", true⟩],
          fun _ => by simp, fun d hroot _ => ?_⟩⟩
      subst hroot
      simp only [_parse, hfs, logSyscallError, addSource, Dictionary_t.extend, insertAll_nil]
    | content str =>
      obtain ⟨st, S, A, hA, hE⟩ := _parseString_frame _ fuel ih str root level (by omega)
      obtain ⟨pos1, E, hne, hd⟩ := hE (Position_t.mk1 (resolvePath root f))
      refine ⟨st, [resolvePath root f] ++ S, A, hA, fun pos => ⟨E, hne,
        fun d hroot hlevel => ?_⟩⟩
      have hcall := hd (d.extend [resolvePath root f] [] []) hroot hlevel
      rw [extend_extend] at hcall
      simp only [List.nil_append] at hcall
      subst hroot
      simp only [_parse, hfs, extend_source, hcall]

/-- C12, as the code has it: whenever the status that `parse` or
`_parseString` returns is not 0, at least one record was logged during that
call (the log afterwards is the log before followed by a non-empty list of
records); in every case the log only grows. -/
theorem C12_status_implies_logged (fs : FileSystem) (fuel : Nat) (filename : Str)
    (d : Dictionary_t) (hf : MAX_RECURSION_LEVEL + 1 ≤ fuel) :
    (∃ st d1 E, parse fs fuel filename d = some (st, d1) ∧ d1.err = d.err ++ E ∧
      (st ≠ 0 → E ≠ [])) ∧
    (∀ (data : Str) (pos : Position_t) (x : Dictionary_t), x.level ≤ fuel →
      ∃ st pos1 x1 E,
        _parseString (fun f p y => _parse fs fuel f p y) data pos x = some (st, pos1, x1) ∧
        x1.err = x.err ++ E ∧ (st ≠ 0 → E ≠ [])) := by
  constructor
  · obtain ⟨st, S, A, _, hE⟩ := _parse_frame fs fuel filename d.root MAX_RECURSION_LEVEL
      (by omega)
    obtain ⟨E, hne, hd⟩ := hE (Position_t.mk1 filename)
    exact ⟨st, _, E, hd { d with level := MAX_RECURSION_LEVEL } rfl rfl, rfl, hne⟩
  · intro data pos x hx
    obtain ⟨st, S, A, _, hE⟩ := _parseString_frame _ fuel (_parse_frame fs fuel) data x.root
      x.level hx
    obtain ⟨pos1, E, hne, hd⟩ := hE pos
    exact ⟨st, pos1, _, E, hd x rfl rfl, rfl, hne⟩

/-- C12 at work, on calls whose status is not 0: `parse` of the file `g`,
which cannot be opened, returns -1, and `_parseString` on the text `1`, line
feed, whose line is an illegal identifier, returns -1; in both calls at least
one record is added to the log. -/
theorem C12_status_implies_logged_witness :
    (∃ d1 E, parse softErrorFs 11 ['g'] Dictionary_t.new = some (-1, d1) ∧
      d1.err = Dictionary_t.new.err ++ E ∧ E ≠ []) ∧
    (∃ pos1 x1 E,
      _parseString (fun f p y => _parse softErrorFs 11 f p y) ['1', '\n'] (Position_t.mk1 [])
        Dictionary_t.new = some (-1, pos1, x1) ∧
      x1.err = Dictionary_t.new.err ++ E ∧ E ≠ []) := by
  constructor
  · obtain ⟨st, d1, E, h, he, hne⟩ :=
      (C12_status_implies_logged softErrorFs 11 ['g'] Dictionary_t.new (by decide)).1
    have hst : (parse softErrorFs 11 ['g'] Dictionary_t.new).map (fun r => r.1) = some (-1) := by
      decide
    rw [h] at hst
    simp only [Option.map_some', Option.some.injEq] at hst
    subst hst
    exact ⟨d1, E, h, he, hne (by decide)⟩
  · obtain ⟨st, pos1, x1, E, h, he, hne⟩ :=
      (C12_status_implies_logged softErrorFs 11 ['g'] Dictionary_t.new (by decide)).2
        ['1', '\n'] (Position_t.mk1 []) Dictionary_t.new (by decide)
    have hst : (_parseString (fun f p y => _parse softErrorFs 11 f p y) ['1', '\n']
        (Position_t.mk1 []) Dictionary_t.new).map (fun r => r.1) = some (-1) := by
      decide
    rw [h] at hst
    simp only [Option.map_some', Option.some.injEq] at hst
    subst hst
    exact ⟨pos1, x1, E, h, he, hne (by decide)⟩

/-- C12 as stated fails: the line `a \q` makes the value decoder log
"Invalid escape", a record of level error, and the status that
`_parseString` and `parse` return is 0. -/
theorem C12_status_counterexample :
    (_parseString (fun _ _ _ => none) "a \\q\n".toList (Position_t.mk1 []) Dictionary_t.new).map
        (fun r => (r.1, r.2.2.err.map (fun e => (e.level, e.message)))) =
      some (0, [(Level_t.LL_ERROR, "Invalid escape")]) ∧
    (parse softErrorFs 11 ['f'] Dictionary_t.new).map
        (fun r => (r.1, r.2.err.map (fun e => (e.level, e.message)))) =
      some (0, [(Level_t.LL_ERROR, "Invalid escape")]) := by
  refine ⟨by decide, by decide⟩

theorem runLines_total (inc : IncludeFn) (L : Nat) (hinc : IncludeTotal inc L) (ls : List Str) :
    ∀ s : LoopState, s.d.level ≤ L →
      ∃ s1, runLines inc ls s = some s1 ∧ s1.d.level = s.d.level := by
  induction ls with
  | nil => intro s _; exact ⟨s, rfl, rfl⟩
  | cons l ls ih =>
    intro s hs
    obtain ⟨s1, h1, hl1⟩ := classify_total inc L hinc (chomp l) s hs
    obtain ⟨s2, h2, hl2⟩ := ih { s1 with pos := s1.pos.newLine } (by simp only; omega)
    exact ⟨s2, by simp only [runLines, h1, h2], by rw [hl2]; exact hl1⟩

/-- C15: `processDirective` hands the level back as it got it, whatever the
directive and whatever became of the include; `parse` returns with the level
at `MAX_RECURSION_LEVEL = 10`, and that is the level in the state in which
any line of the root file is classified (the state after any list of lines
of the root file has gone through the loop body). -/
theorem C15_level_restored (fs : FileSystem) (fuel : Nat) (directive : Str) (pos : Position_t)
    (d : Dictionary_t) (h : d.level ≤ fuel) :
    (∃ r p d1, processDirective (fun f p x => _parse fs fuel f p x) directive pos d =
        some (r, p, d1) ∧ d1.level = d.level) ∧
    (∀ (filename : Str) (d0 : Dictionary_t),
      ∃ st d1, parse fs (MAX_RECURSION_LEVEL + 1) filename d0 = some (st, d1) ∧
        d1.level = MAX_RECURSION_LEVEL) ∧
    (∀ (ls : List Str) (pos0 : Position_t) (d0 : Dictionary_t),
      d0.level = MAX_RECURSION_LEVEL →
      ∃ s, runLines (fun f p x => _parse fs MAX_RECURSION_LEVEL f p x) ls
          (LoopState.init pos0 d0) = some s ∧ s.d.level = MAX_RECURSION_LEVEL) := by
  refine ⟨?_, fun filename d0 => ?_, fun ls pos0 d0 hd0 => ?_⟩
  · exact processDirective_total _ fuel (fun f p x hx => _parse_total fs fuel f p x hx)
      directive pos d h
  · obtain ⟨r, d1, hp, hl⟩ := _parse_total fs (MAX_RECURSION_LEVEL + 1) filename
      (Position_t.mk1 filename) { d0 with level := MAX_RECURSION_LEVEL } (by simp)
    exact ⟨r, d1, hp, hl⟩
  · obtain ⟨s, hs, hl⟩ := runLines_total _ MAX_RECURSION_LEVEL
      (fun f p x hx => _parse_total fs MAX_RECURSION_LEVEL f p x hx) ls
      (LoopState.init pos0 d0) (by simp [LoopState.init, hd0])
    exact ⟨s, hs, by rw [hl]; exact hd0⟩

/-- C15 at work: `%include G` with `G` missing, at level 10. -/
theorem C15_level_restored_witness :
    ∃ r p d1, processDirective (fun f p x => _parse danglingFs 10 f p x) "%include G".toList
        (Position_t.mk1 ['F']) { Dictionary_t.new with level := 10 } = some (r, p, d1) ∧
      d1.level = 10 :=
  (C15_level_restored danglingFs 10 "%include G".toList (Position_t.mk1 ['F'])
    { Dictionary_t.new with level := 10 } (by decide)).1

/-! ## Tables after a list of inserts -/

theorem mem_insert (t : Table_t) (n v : Str) (p : Str × Str) (h : p ∈ t.insert n v) :
    p ∈ t ∨ p = (n, v) := by
  unfold Table_t.insert at h
  split at h
  · exact Or.inl h
  · simpa using h

theorem mem_insertAll (A : List (Str × Str)) :
    ∀ (t : Table_t) (p : Str × Str), p ∈ t.insertAll A → p ∈ t ∨ p ∈ A := by
  induction A with
  | nil => intro t p h; exact Or.inl h
  | cons a A ih =>
    intro t p h
    have h2 : p ∈ (t.insert a.1 a.2).insertAll A := h
    rcases ih _ p h2 with h3 | h3
    · rcases mem_insert t a.1 a.2 p h3 with h4 | h4
      · exact Or.inl h4
      · exact Or.inr (by simp [h4])
    · exact Or.inr (by simp [h3])

theorem classify_dot (inc : IncludeFn) (rest : Str) (s : LoopState) :
    ∃ s1, classify inc ('.' :: rest) s = some s1 ∧ s1.currentValid = false := by
  have hr : identRet ('.' :: rest) ≠ 0 := by
    rw [identRet_eq]
    have : identEarlyExit ('.' :: rest) = true := by
      have hl : identLength ('.' :: rest) = 0 := by
        rw [identLength]; simp; decide
      simp [identEarlyExit, hl]; decide
    simp [this]
  exact ⟨_, classify_ident inc '.' rest s (by decide), by simp [hr]⟩

/-- C17: every pair in the table after `_parseString` (run inside a parse
over any file system, with its includes) or after `parse` was in the table
before or has a key that is a non-empty string of ASCII letters, digits and
underscores not starting with a digit; a line starting with `.` leaves no
pending entry. -/
theorem C17_keys_are_names (fs : FileSystem) (fuel : Nat) (data : Str) (pos : Position_t)
    (d : Dictionary_t) (h : d.level ≤ fuel) :
    (∃ st pos1 d1,
      _parseString (fun f p x => _parse fs fuel f p x) data pos d = some (st, pos1, d1) ∧
      ∀ p ∈ d1.dict, p ∈ d.dict ∨ ValidName p.1) ∧
    (∀ (filename : Str) (d0 : Dictionary_t),
      ∃ st d1, parse fs (MAX_RECURSION_LEVEL + 1) filename d0 = some (st, d1) ∧
        ∀ p ∈ d1.dict, p ∈ d0.dict ∨ ValidName p.1) ∧
    (∀ (inc : IncludeFn) (rest : Str) (s : LoopState),
      ∃ s1, classify inc ('.' :: rest) s = some s1 ∧ s1.currentValid = false) := by
  refine ⟨?_, fun filename d0 => ?_, classify_dot⟩
  · obtain ⟨st, S, A, hA, hE⟩ := _parseString_frame _ fuel (_parse_frame fs fuel) data d.root
      d.level h
    obtain ⟨pos1, E, _, hd⟩ := hE pos
    refine ⟨st, pos1, _, hd d rfl rfl, fun p hp => ?_⟩
    rcases mem_insertAll A d.dict p hp with h1 | h1
    · exact Or.inl h1
    · exact Or.inr (hA p h1)
  · obtain ⟨st, S, A, hA, hE⟩ := _parse_frame fs (MAX_RECURSION_LEVEL + 1) filename d0.root
      MAX_RECURSION_LEVEL (by omega)
    obtain ⟨E, _, hd⟩ := hE (Position_t.mk1 filename)
    refine ⟨st, _, hd { d0 with level := MAX_RECURSION_LEVEL } rfl rfl, fun p hp => ?_⟩
    rcases mem_insertAll A d0.dict p hp with h1 | h1
    · exact Or.inl h1
    · exact Or.inr (hA p h1)

/-- C17 at work: the text `a x`, `.b y`, `_c z` parsed into an empty store. -/
theorem C17_keys_are_names_witness :
    ∃ st pos1 d1,
      _parseString (fun f p x => _parse softErrorFs 10 f p x) "a x\n.b y\n_c z\n".toList
        (Position_t.mk1 []) Dictionary_t.new = some (st, pos1, d1) ∧
      ∀ p ∈ d1.dict, p ∈ Dictionary_t.new.dict ∨ ValidName p.1 :=
  (C17_keys_are_names softErrorFs 10 "a x\n.b y\n_c z\n".toList (Position_t.mk1 [])
    Dictionary_t.new (by decide)).1

/-! ## Parsing twice -/

theorem insert_of_isSome (t : Table_t) (n v : Str) (h : (t.find n).isSome = true) :
    t.insert n v = t := by
  unfold Table_t.insert
  cases hf : t.find n with
  | none => rw [hf] at h; simp at h
  | some w => rfl

theorem insertAll_cons (t : Table_t) (a : Str × Str) (A : List (Str × Str)) :
    t.insertAll (a :: A) = (t.insert a.1 a.2).insertAll A := rfl

theorem insertAll_mono (A : List (Str × Str)) :
    ∀ (t : Table_t) (k : Str), (t.find k).isSome = true →
      ((t.insertAll A).find k).isSome = true := by
  induction A with
  | nil => intro t k h; exact h
  | cons a A ih =>
    intro t k h
    rw [insertAll_cons]
    exact ih _ k (find_insert_isSome t _ _ k h)

theorem insertAll_present (A : List (Str × Str)) :
    ∀ (t : Table_t), ∀ a ∈ A, ((t.insertAll A).find a.1).isSome = true := by
  induction A with
  | nil => intro t a ha; simp at ha
  | cons b A ih =>
    intro t a ha
    rw [insertAll_cons]
    rcases List.mem_cons.mp ha with rfl | ha
    · exact insertAll_mono A _ _ (find_insert_self_isSome t _ _)
    · exact ih _ a ha

theorem insertAll_of_present (A : List (Str × Str)) :
    ∀ (t : Table_t), (∀ a ∈ A, (t.find a.1).isSome = true) → t.insertAll A = t := by
  induction A with
  | nil => intro t _; rfl
  | cons b A ih =>
    intro t h
    rw [insertAll_cons, insert_of_isSome t b.1 b.2 (h b (by simp))]
    exact ih t (fun a ha => h a (by simp [ha]))

theorem insertAll_idem (t : Table_t) (A : List (Str × Str)) :
    (t.insertAll A).insertAll A = t.insertAll A :=
  insertAll_of_present A _ (insertAll_present A t)

/-- C19: for every file system, root (a field of the object), file name and
initial store, `parse(filename)` run twice in succession leaves the table
after the second run equal to the table after the first, and the two runs
return the same status. -/
theorem C19_reparse_idempotent (fs : FileSystem) (filename : Str) (d : Dictionary_t) :
    ∃ st d1 d2, parse fs (MAX_RECURSION_LEVEL + 1) filename d = some (st, d1) ∧
      parse fs (MAX_RECURSION_LEVEL + 1) filename d1 = some (st, d2) ∧
      d2.dict = d1.dict := by
  obtain ⟨st, S, A, _, hE⟩ := _parse_frame fs (MAX_RECURSION_LEVEL + 1) filename d.root
    MAX_RECURSION_LEVEL (by omega)
  obtain ⟨E, _, hd⟩ := hE (Position_t.mk1 filename)
  have h1 := hd { d with level := MAX_RECURSION_LEVEL } rfl rfl
  have h2 := hd { ({ d with level := MAX_RECURSION_LEVEL } : Dictionary_t).extend S E A with
    level := MAX_RECURSION_LEVEL } rfl rfl
  refine ⟨st, _, _, h1, h2, ?_⟩
  simp only [extend_dict]
  exact insertAll_idem _ _

/-! ## The status of `_parseString` -/

theorem classify_ret_eq (inc : IncludeFn) (line : Str) (s s1 : LoopState)
    (h : classify inc line s = some s1) :
    s1.ret = if illegalStart line = true then -1 else s.ret := by
  unfold classify at h
  cases line with
  | nil => simp only [Option.some.injEq] at h; subst h; simp [illegalStart]
  | cons first rest =>
    simp only at h
    by_cases h1 : first = '#'
    · subst h1
      simp only [if_true, Option.some.injEq] at h; subst h; simp [illegalStart]
    · simp only [h1, if_false] at h
      by_cases h2 : first = '%'
      · subst h2
        simp only [if_true] at h
        split at h
        · exact absurd h (by simp)
        · simp only [Option.some.injEq] at h; subst h; simp [illegalStart]
      · simp only [h2, if_false] at h
        by_cases h3 : isspace first
        · simp only [h3, if_true] at h
          split at h <;>
            (simp only [Option.some.injEq] at h; subst h; simp [illegalStart, h3])
        · simp only [h3, Bool.false_eq_true, if_false] at h
          by_cases h4 : (isalpha first || decide (first = '_') || decide (first = '.')) = true
          · simp only [h4, if_true, Option.some.injEq] at h
            subst h
            have : isIdentStart first = true := h4
            simp [illegalStart, this]
          · simp only [h4, Bool.false_eq_true, if_false, Option.some.injEq] at h
            subst h
            have : isIdentStart first = false := by simpa [isIdentStart] using h4
            simp [illegalStart, h1, h2, h3, this]

theorem runLines_ret_iff (inc : IncludeFn) (ls : List Str) :
    ∀ (s s1 : LoopState), runLines inc ls s = some s1 →
      (s1.ret ≠ 0 ↔ s.ret ≠ 0 ∨ ∃ l ∈ ls, illegalStart (chomp l) = true) := by
  induction ls with
  | nil =>
    intro s s1 h
    simp only [runLines, Option.some.injEq] at h
    subst h
    simp
  | cons l ls ih =>
    intro s s1 h
    simp only [runLines] at h
    cases hc : classify inc (chomp l) s with
    | none => rw [hc] at h; exact absurd h (by simp)
    | some s2 =>
      rw [hc] at h
      have h2 := classify_ret_eq inc (chomp l) s s2 hc
      rw [ih _ s1 h]
      simp only [List.mem_cons, exists_eq_or_imp]
      by_cases hill : illegalStart (chomp l) = true
      · simp [h2, hill]
      · simp [h2, hill]

theorem lastLine_ret_iff (inc : IncludeFn) (frag : Str) (s s1 : LoopState)
    (h : lastLine inc frag s = some s1) :
    (s1.ret ≠ 0 ↔ s.ret ≠ 0 ∨ frag ≠ []) := by
  unfold lastLine at h
  cases hc : classify inc frag s with
  | none => rw [hc] at h; exact absurd h (by simp)
  | some s2 =>
    rw [hc] at h
    simp only [Option.some.injEq] at h
    subst h
    have h2 := classify_ret_eq inc frag s s2 hc
    by_cases hf : frag = []
    · subst hf
      simp [endOfInput, h2, illegalStart]
    · simp [endOfInput, hf]

theorem classify_some_of_not_directive (inc : IncludeFn) (line : Str) (s : LoopState)
    (h : line.head? ≠ some '%') : ∃ s1, classify inc line s = some s1 := by
  unfold classify
  cases line with
  | nil => exact ⟨_, rfl⟩
  | cons first rest =>
    have h2 : first ≠ '%' := fun e => h (by simp [e])
    simp only [h2, if_false]
    split
    · exact ⟨_, rfl⟩
    · split
      · split <;> exact ⟨_, rfl⟩
      · split <;> exact ⟨_, rfl⟩

theorem runLines_some_of_no_directive (inc : IncludeFn) (ls : List Str)
    (h : ∀ l ∈ ls, (chomp l).head? ≠ some '%') :
    ∀ s : LoopState, ∃ s1, runLines inc ls s = some s1 := by
  induction ls with
  | nil => intro s; exact ⟨s, rfl⟩
  | cons l ls ih =>
    intro s
    obtain ⟨s1, h1⟩ := classify_some_of_not_directive inc (chomp l) s (h l (by simp))
    obtain ⟨s2, h2⟩ := ih (fun x hx => h x (by simp [hx])) { s1 with pos := s1.pos.newLine }
    exact ⟨s2, by simp only [runLines, h1, h2]⟩

/-- C21: for a text given by its lines, each terminated by a line feed, and
its final fragment: the status that `_parseString` returns is not 0 exactly
when a line (seen without the carriage return before its line feed) is not
empty and starts with a character that is none of `#`, `%`, whitespace, a
letter, `_` or `.`, or the final fragment is not empty; a text without
directive lines always gets a status; what the identifier parser, the value
decoder and the directive processor log, and a continuation line without a
pending entry, leave the status at 0. -/
theorem C21_status_of_parseString (inc : IncludeFn) (ls : List Str) (frag : Str)
    (pos : Position_t) (d : Dictionary_t) (hls : ∀ l ∈ ls, '\n' ∉ l) (hfrag : '\n' ∉ frag) :
    (∀ ret pos1 d1, _parseString inc (joinLines ls ++ frag) pos d = some (ret, pos1, d1) →
      (ret ≠ 0 ↔ (∃ l ∈ ls, illegalStart (chomp l) = true) ∨ frag ≠ [])) ∧
    ((∀ l ∈ ls, (chomp l).head? ≠ some '%') → frag.head? ≠ some '%' →
      ∃ ret pos1 d1, _parseString inc (joinLines ls ++ frag) pos d = some (ret, pos1, d1)) ∧
    (_parseString inc "b \"v\" x\n c\na \\q\n".toList (Position_t.mk1 []) Dictionary_t.new).map
        (fun r => (r.1, r.2.2.err.map (fun e => e.message))) =
      some (0, ["Text after quoted line", "No line to concatenate with", "Invalid escape"]) ∧
    (_parseString inc "%bogus\n".toList (Position_t.mk1 []) Dictionary_t.new).map
        (fun r => (r.1, r.2.2.err.map (fun e => e.message))) =
      some (0, ["Unknown procesing directive"]) := by
  have heq := _parseString_eq_runLines inc ls frag hls hfrag pos d
  refine ⟨fun ret pos1 d1 h => ?_, fun hnd hnf => ?_, rfl, rfl⟩
  · rw [heq] at h
    simp only [Option.map_eq_some', Option.bind_eq_some] at h
    obtain ⟨sl, ⟨sa, hrun, hlast⟩, hres⟩ := h
    simp only [Prod.mk.injEq] at hres
    rw [← hres.1, lastLine_ret_iff inc frag sa sl hlast, runLines_ret_iff inc ls _ sa hrun]
    simp [LoopState.init]
  · obtain ⟨sa, hrun⟩ := runLines_some_of_no_directive inc ls hnd (LoopState.init pos d)
    obtain ⟨sc, hcl⟩ := classify_some_of_not_directive inc frag sa hnf
    rw [heq, hrun]
    simp only [Option.some_bind, lastLine, hcl, Option.map_some']
    exact ⟨_, _, _, rfl⟩

/-- C21 at work: the text `a x`, `1bad` and the text `a x` without a line
feed. -/
theorem C21_status_of_parseString_witness :
    (∀ ret pos1 d1, _parseString (fun _ _ _ => none) "a x\n1bad\n".toList (Position_t.mk1 [])
        Dictionary_t.new = some (ret, pos1, d1) → ret ≠ 0) ∧
    (∀ ret pos1 d1, _parseString (fun _ _ _ => none) "a x\n".toList (Position_t.mk1 [])
        Dictionary_t.new = some (ret, pos1, d1) → ret = 0) := by
  constructor
  · intro ret pos1 d1 h
    exact ((C21_status_of_parseString (fun _ _ _ => none) ["a x".toList, "1bad".toList] []
      (Position_t.mk1 []) Dictionary_t.new (by decide) (by decide)).1 ret pos1 d1 h).2
      (Or.inl (by decide))
  · intro ret pos1 d1 h
    have := ((C21_status_of_parseString (fun _ _ _ => none) ["a x".toList] []
      (Position_t.mk1 []) Dictionary_t.new (by decide) (by decide)).1 ret pos1 d1 h)
    by_contra hne
    rcases this.1 hne with h1 | h1
    · revert h1; decide
    · exact h1 rfl

/-- C22: on a continuation line on which `parseValueLine` returns non-zero,
met with a pending entry, the loop body of `_parseString` still appends one
space and the value decoded so far to the pending value and keeps the entry
pending, store and status untouched; an identifier line followed by
continuation lines, whatever their decoding returns, is committed with all of
them appended; `a first` continued by ` "val" xyz` commits `a` with the value
`first val`. -/
theorem C22_continuation_unchecked (inc : IncludeFn) (line : Str) (s : LoopState)
    (hw : line.head?.map isspace = some true) (hv : s.currentValid = true)
    (hr : decodeRet line ≠ 0) :
    ((parseValueLine line s.pos s.d.err).ret ≠ 0 ∧
      ∃ s1, classify inc line s = some s1 ∧ s1.currentValid = true ∧
        s1.currentName = s.currentName ∧
        s1.currentValue = s.currentValue ++ [' '] ++ (parseValueLine line s.pos s.d.err).value ∧
        s1.ret = s.ret ∧ s1.d.dict = s.d.dict ∧
        s1.commit.dict = s.d.dict.insert s.currentName
          (s.currentValue ++ [' '] ++ (parseValueLine line s.pos s.d.err).value)) ∧
    (∀ (l0 : Str) (cs : List Str) (pos : Position_t) (d : Dictionary_t), '\n' ∉ l0 →
      WellFormedIdentLine (chomp l0) →
      (∀ c ∈ cs, '\n' ∉ c ∧ (chomp c).head?.map isspace = some true) →
      ∃ ret pos1 d1, _parseString inc (joinLines (l0 :: cs)) pos d = some (ret, pos1, d1) ∧
        d1.dict = d.dict.insert (identName (chomp l0))
          (identValue (chomp l0) ++ cs.flatMap (fun c => ' ' :: decodeValue (chomp c)))) ∧
    (decodeRet " \"val\" xyz".toList ≠ 0 ∧
      (_parseString inc "a first\n \"val\" xyz\n".toList (Position_t.mk1 [])
          Dictionary_t.new).map
          (fun r => (r.1, r.2.2.dict, r.2.2.err.map (fun e => e.message))) =
        some (0, [(['a'], "first val".toList)], ["Text after quoted line"])) := by
  refine ⟨⟨by rw [parseValueLine_ret]; exact hr, ?_⟩, ?_, by decide, rfl⟩
  · have hcl := classify_continuation inc line s hw hv
    rw [parseValueLine_value]
    refine ⟨_, hcl, hv, rfl, rfl, rfl, rfl, ?_⟩
    simp [LoopState.commit, hv, Dictionary_t.add]
  · intro l0 cs pos d h0 hwf hcs
    have h := _parseString_eq_runLines inc (l0 :: cs) []
      (fun l hl => by
        rcases List.mem_cons.mp hl with rfl | hl
        · exact h0
        · exact (hcs l hl).1) (by simp) pos d
    rw [List.append_nil] at h
    obtain ⟨s1, h1, hn1, hv1, hvalid1, _, hdict1, _, _⟩ :=
      classify_wellFormed inc (chomp l0) (LoopState.init pos d) hwf
    obtain ⟨s2, h2, hvalid2, hn2, hv2, _, hdict2⟩ :=
      runLines_continuation inc cs (fun c hc => (hcs c hc).2)
        { s1 with pos := s1.pos.newLine } hvalid1
    have hrun : runLines inc (l0 :: cs) (LoopState.init pos d) = some s2 := by
      simp only [runLines, h1]; exact h2
    rw [hrun] at h
    simp only [Option.some_bind, lastLine, classify_empty, Option.map_some'] at h
    refine ⟨_, _, _, h, ?_⟩
    have hinit : (LoopState.init pos d).commit.dict = d.dict := by
      simp [LoopState.init, LoopState.commit]
    rw [endOfInput_nil_commit s2, commit_dict_of_valid s2 hvalid2, hdict2, hn2, hv2]
    simp only [hdict1, hinit, hn1, hv1]

/-- C22 at work: the continuation line ` "val" xyz` after the pending entry
`a` = `first`. -/
theorem C22_continuation_unchecked_witness :
    ∃ s1, classify (fun _ _ _ => none) " \"val\" xyz".toList
        { currentName := ['a'], currentValue := "first".toList, currentValid := true, ret := 0,
          pos := Position_t.mk1 [], d := Dictionary_t.new } = some s1 ∧
      s1.currentValid = true ∧ s1.currentValue = "first val".toList := by
  obtain ⟨⟨_, s1, h, hv, _, hval, _⟩, _⟩ := C22_continuation_unchecked (fun _ _ _ => none)
    " \"val\" xyz".toList
    { currentName := ['a'], currentValue := "first".toList, currentValid := true, ret := 0,
      pos := Position_t.mk1 [], d := Dictionary_t.new } (by decide) (by decide) (by decide)
  exact ⟨s1, h, hv, by rw [hval]; decide⟩

end Teng
